import Mathlib

/-!
# smime-gate: SMTP helper library (src/smtp-lib.c)

A shallow embedding of the three functions of `smtp-lib.c`:

* `smtp_send_command`, the command encoder,
* `smtp_send_reply`, the reply encoder,
* `buf_read` / `smtp_readline`, the buffered line reader.

Bytes are modelled by `Char`.  A region of memory is a `List Char`; a C string
stored in a region is the run of bytes before its first NUL (`cstr`).  Writes
into an array are checked against its size: a function whose write would run
past the end of an array has no result (`none`).  The constants `LINE_MAXLEN`,
`DOMAIN_MAXLEN` and `ADDR_MAXLEN` come from `smtp-lib.h`, which is not part of
the sources at hand, so every definition takes them as parameters, and the
theorems on the encoders state how large `LINE_MAXLEN` has to be for the line
buffers to hold what is copied into them.  The macro `min` of `system.h` is
the minimum of its arguments.
-/

namespace SmtpLib

/-! ## Bytes -/

/-- The NUL byte that terminates a C string. -/
def NUL : Char := Char.ofNat 0

/-- Carriage return, the first byte of the line terminator. -/
def CR : Char := Char.ofNat 13

/-- Line feed, the second byte of the line terminator. -/
def LF : Char := Char.ofNat 10

/-- The two-byte line terminator. -/
def CRLF : List Char := [CR, LF]

/-- Whether a byte sequence contains a CR immediately followed by an LF. -/
def hasCRLF : List Char → Bool
  | [] => false
  | a :: rest =>
    match rest with
    | [] => false
    | b :: _ => (a == CR && b == LF) || hasCRLF rest

/-! ## The descriptor read by `buf_read` -/

/-- One outcome of the system call `read(fd, read_buf, sizeof(read_buf))`:
bytes that are available on the descriptor (an empty list is a read that
returns 0), a failure with `errno == EINTR`, or any other failure. -/
inductive ReadEvent
  | data (bytes : List Char)
  | eintr
  | error
  deriving DecidableEq, Repr

/-- The descriptor `fd`: the outcomes of the successive reads on it.  Once the
list is used up every further read returns 0. -/
abbrev Source := List ReadEvent

/-- The static variables of `buf_read`. -/
structure BufState where
  read_cnt : Int
  read_ptr : Nat
  read_buf : List Char
  deriving DecidableEq, Repr

/-- The statics of `buf_read` at program start: `read_cnt = 0`, a zeroed
`read_buf[LINE_MAXLEN]`. -/
def BufState.initial (LINE_MAXLEN : Nat) : BufState :=
  ⟨0, 0, List.replicate LINE_MAXLEN NUL⟩

/-- The refill branch of `buf_read` (the code under `if (read_cnt <= 0)`,
label `again` included).  `read` hands over at most `sizeof(read_buf)` bytes of
what is available and leaves the rest on the descriptor.  The first component
is the early return value (`some 0` at end of stream, `some (-1)` on a read
error) or `none` when the buffer has been refilled. -/
def refill (LINE_MAXLEN : Nat) (st : BufState) : Source → Option Int × BufState × Source
  | [] => (some 0, { st with read_cnt := 0 }, [])
  | ReadEvent.eintr :: rest => refill LINE_MAXLEN { st with read_cnt := -1 } rest
  | ReadEvent.error :: rest => (some (-1), { st with read_cnt := -1 }, rest)
  | ReadEvent.data bytes :: rest =>
    let got := bytes.take LINE_MAXLEN
    let left := if bytes.length ≤ LINE_MAXLEN then rest
                else ReadEvent.data (bytes.drop LINE_MAXLEN) :: rest
    if got.length = 0 then
      (some 0, { st with read_cnt := 0 }, left)
    else
      (none, { read_cnt := got.length, read_ptr := 0,
               read_buf := got ++ st.read_buf.drop got.length }, left)

/-- The result of `buf_read`: return value, the byte stored through `ptr` (if
any), the statics and the descriptor afterwards. -/
structure BufRead where
  rc : Int
  c : Option Char
  st : BufState
  src : Source

/-- The function `buf_read(fd, ptr)`: hand out one buffered byte, refilling the
buffer from the descriptor when it is empty. -/
def buf_read (LINE_MAXLEN : Nat) (st : BufState) (src : Source) : BufRead :=
  let r := if st.read_cnt ≤ 0 then refill LINE_MAXLEN st src else (none, st, src)
  match r with
  | (some rc, st1, src1) => ⟨rc, none, st1, src1⟩
  | (none, st1, src1) =>
    ⟨1, some (st1.read_buf.getD st1.read_ptr NUL),
      { st1 with read_cnt := st1.read_cnt - 1, read_ptr := st1.read_ptr + 1 }, src1⟩

/-! ## `smtp_readline` -/

/-- Modelled from the spec: the two states of the terminator detection, the
constants `START` and `CR_READ` of `smtp-lib.h` (not among the sources), taken
to be distinct. -/
inductive LineState
  | START
  | CR_READ
  deriving DecidableEq, Repr

/-- What a call of `smtp_readline` leaves behind: the return value, the bytes
stored in the caller's buffer in front of the final NUL, the statics of
`buf_read` and the descriptor. -/
structure ReadLine where
  ret : Int
  line : List Char
  st : BufState
  src : Source

/-- The `for (n = 1; n < maxlen; n++)` loop of `smtp_readline`.  `k` is the
number of iterations still allowed, `maxlen - n`; `out` holds the bytes between
`vptr` and `ptr`. -/
def readline_loop (LINE_MAXLEN : Nat) :
    Nat → Nat → LineState → List Char → BufState → Source → ReadLine
  | 0, n, _, out, st, src => ⟨n, out, st, src⟩
  | k + 1, n, state, out, st, src =>
    let r := buf_read LINE_MAXLEN st src
    if r.rc = 1 then
      let c := r.c.getD NUL
      let out1 := out ++ [c]
      if state = LineState.CR_READ ∧ c = LF then
        ⟨n, out1.dropLast.dropLast, r.st, r.src⟩
      else
        let state1 := if state = LineState.CR_READ then LineState.START else state
        let state2 := if c = CR then LineState.CR_READ else state1
        readline_loop LINE_MAXLEN k (n + 1) state2 out1 r.st r.src
    else if r.rc = 0 then
      if n = 1 then ⟨0, out, r.st, r.src⟩ else ⟨n, out, r.st, r.src⟩
    else
      ⟨-1, out, r.st, r.src⟩

/-- The function `smtp_readline(fd, vptr, maxlen)`, called with the statics of
`buf_read` in state `st`.  For `maxlen <= 1` the loop is not entered and the
call returns 1 without reading. -/
def smtp_readline (LINE_MAXLEN maxlen : Nat) (st : BufState) (src : Source) : ReadLine :=
  readline_loop LINE_MAXLEN (maxlen - 1) 1 LineState.START [] st src

/-- Successive calls of `smtp_readline` on one descriptor, one call for each
`maxlen` of the list; each call's return value and line. -/
def read_lines (LINE_MAXLEN : Nat) : List Nat → BufState → Source → List (Int × List Char)
  | [], _, _ => []
  | maxlen :: more, st, src =>
    let r := smtp_readline LINE_MAXLEN maxlen st src
    (r.ret, r.line) :: read_lines LINE_MAXLEN more r.st r.src

/-- The concatenation of the chunks of a fragmented byte stream. -/
def flat : List (List Char) → List Char
  | [] => []
  | c :: cs => c ++ flat cs

/-- The descriptor that delivers the given chunks, one for each read. -/
def chunked (chunks : List (List Char)) : Source := chunks.map ReadEvent.data

/-- The byte stream `l1 CRLF l2 CRLF ... lk CRLF`. -/
def wire : List (List Char) → List Char
  | [] => []
  | l :: ls => l ++ CRLF ++ wire ls

/-- Whether the next read that is not interrupted returns 0 bytes, that is,
whether the descriptor reports the end of the stream next. -/
def reportsEof : Source → Bool
  | [] => true
  | ReadEvent.data bytes :: _ => bytes.isEmpty
  | ReadEvent.eintr :: rest => reportsEof rest
  | ReadEvent.error :: _ => false

/-- The descriptor without its interrupted reads. -/
def dropEintr : Source → Source
  | [] => []
  | ReadEvent.eintr :: rest => dropEintr rest
  | e :: rest => e :: dropEintr rest

/-! ## C strings and character arrays -/

/-- The C string held in a region of memory: its bytes before the first NUL
(all of them when the region holds no NUL). -/
def cstr : List Char → List Char
  | [] => []
  | c :: rest => if c = NUL then [] else c :: cstr rest

/-- The library function `strlen(s)`, for a string given by its bytes (a
`char *` argument, whose NUL follows its last byte) and for an array that holds
a NUL.  On an array that holds no NUL the call reads past the array and is
undefined in C; the one array of the code that can be left so is `domain`, see
`gethostname`. -/
def strlen (s : List Char) : Nat := (cstr s).length

/-- An automatic `char` array of the given size; its contents are
indeterminate until written, `junk i` stands for what byte `i` happens to
hold. -/
def auto_array (size : Nat) (junk : Nat → Char) : List Char :=
  (List.range size).map junk

/-- Overwrite the bytes of an array from offset `pos` on; `none` when the
write would run past the end of the array (undefined behaviour in C). -/
def store (buf : List Char) (pos : Nat) (bytes : List Char) : Option (List Char) :=
  if pos + bytes.length ≤ buf.length then
    some (buf.take pos ++ bytes ++ buf.drop (pos + bytes.length))
  else none

/-- The library function `strcpy(buf + pos, src)`: the string and its
terminating NUL are written. -/
def strcpy (buf : List Char) (pos : Nat) (src : List Char) : Option (List Char) :=
  store buf pos (cstr src ++ [NUL])

/-- The library function `strncpy(buf + pos, src, n)`: exactly `n` bytes are
written, the first `n` bytes of the string, padded with NULs when the string
is shorter. -/
def strncpy (buf : List Char) (pos : Nat) (src : List Char) (n : Nat) : Option (List Char) :=
  store buf pos ((cstr src).take n ++ List.replicate (n - (cstr src).length) NUL)

/-- Modelled from the spec: `Writen(sockfd, buf, n)` of `system.h` (not among
the sources), the write-all primitive: the first `n` bytes of `buf` are
appended to what the socket has received.  A failing write is outside the
model. -/
def Writen (sink buf : List Char) (n : Nat) : List Char := sink ++ buf.take n

/-- The calls `bzero(domain, sizeof domain); gethostname(domain, sizeof domain)`:
the zeroed array receives the host name and its NUL, cut to the size of the array.
A name of `DOMAIN_MAXLEN` bytes or more fills the array and leaves no NUL in
it; `strlen(domain)` then reads past the end of the array, which C leaves
undefined, so the callers look for the NUL before they take the length. -/
def gethostname (DOMAIN_MAXLEN : Nat) (host : List Char) : List Char :=
  let name := (cstr host ++ [NUL]).take DOMAIN_MAXLEN
  name ++ (List.replicate DOMAIN_MAXLEN NUL).drop name.length

/-! ## `smtp_send_command` -/

/-- Modelled from the spec: the command identifiers of `smtp-lib.h` (not among
the sources), the closed enumeration EHLO, HELO, MAIL, RCPT, DATA, RSET, VRFY,
NOOP, QUIT; `other` is any value of the `size_t` argument that is none of the
nine case labels. -/
inductive Command
  | EHLO | HELO | MAIL | RCPT | DATA | RSET | VRFY | NOOP | QUIT
  | other (value : Nat)
  deriving DecidableEq, Repr

/-- Modelled from the spec: `struct mail_object` of `smtp-lib.h` (not among the
sources): the sender address and the recipient addresses in transmission
order; `no_rcpt` is the number of recipients. -/
structure mail_object where
  mail_from : List Char
  rcpt_to : List (List Char)

/-- The field `no_rcpt` of a mail object. -/
def mail_object.no_rcpt (mail : mail_object) : Nat := mail.rcpt_to.length

/-- The body of the `for (i = 0; i < mail->no_rcpt; ++i)` loop of the RCPT
case, run over the recipients still to send; `cmd_line` is reused from one
turn to the next.  The result is what the socket has received. -/
def rcpt_loop (ADDR_MAXLEN : Nat) : List (List Char) → List Char → List Char →
    Option (List Char)
  | [], _, sink => some sink
  | rcpt :: more, cmd_line, sink => do
    let cmd_line ← strcpy cmd_line 0 "RCPT TO:<".toList
    let pos := 9
    let cmd_line ← strncpy cmd_line pos rcpt ADDR_MAXLEN
    let pos := pos + min ADDR_MAXLEN (strlen rcpt)
    let cmd_line ← strcpy cmd_line pos ('>' :: CRLF)
    rcpt_loop ADDR_MAXLEN more cmd_line (Writen sink cmd_line (strlen cmd_line))

/-- A command that is its keyword and CR LF: `strcpy(cmd_line, "KEYW\r\n");
Writen(sockfd, cmd_line, strlen(cmd_line));`. -/
def send_keyword (cmd_line sink keyword : List Char) : Option (Int × List Char) := do
  let cmd_line ← strcpy cmd_line 0 (keyword ++ CRLF)
  pure (0, Writen sink cmd_line (strlen cmd_line))

/-- The function `smtp_send_command(sockfd, cmd, mail)`.  `host` is the name that
`gethostname` reports, `junk` the indeterminate contents of `cmd_line`, `sink`
what the socket has received so far.  The result is the return value and what
the socket has received afterwards, or `none` when an array is overrun.

In the EHLO and HELO case `pos += min(DOMAIN_MAXLEN, strlen(domain))` is defined
only when `domain` holds a NUL.  When it holds none, `strlen` reads past the
array: `pos`, and with it the place where `strcpy` puts CR LF, is indeterminate.
Of such a call the model keeps what is fixed before that statement, the keyword
and the `DOMAIN_MAXLEN` bytes of the name that `strncpy` has copied, and the
return value of the fall-through; the bytes of `cmd_line` behind the name stay
what `junk` makes them, and no CR LF is promised. -/
def smtp_send_command (LINE_MAXLEN DOMAIN_MAXLEN ADDR_MAXLEN : Nat) (host : List Char)
    (junk : Nat → Char) (sink : List Char) (cmd : Command) (mail : Option mail_object) :
    Option (Int × List Char) :=
  let cmd_line := auto_array LINE_MAXLEN junk
  match cmd with
  | Command.EHLO | Command.HELO => do
    let cmd_line ← strcpy cmd_line 0
      (if cmd = Command.EHLO then "EHLO ".toList else "HELO ".toList)
    let pos := 5
    let domain := gethostname DOMAIN_MAXLEN host
    let cmd_line ← strncpy cmd_line pos domain DOMAIN_MAXLEN
    if NUL ∈ domain then do
      let pos := pos + min DOMAIN_MAXLEN (strlen domain)
      let cmd_line ← strcpy cmd_line pos CRLF
      pure (0, Writen sink cmd_line (strlen cmd_line))
    else
      pure (0, Writen sink cmd_line (strlen cmd_line))
  | Command.MAIL =>
    match mail with
    | none => some (-1, sink)
    | some mail => do
      let cmd_line ← strcpy cmd_line 0 "MAIL FROM:<".toList
      let pos := 11
      let cmd_line ← strncpy cmd_line pos mail.mail_from ADDR_MAXLEN
      let pos := pos + min ADDR_MAXLEN (strlen mail.mail_from)
      let cmd_line ← strcpy cmd_line pos ('>' :: CRLF)
      pure (0, Writen sink cmd_line (strlen cmd_line))
  | Command.RCPT =>
    match mail with
    | none => some (-1, sink)
    | some mail => do
      let sink ← rcpt_loop ADDR_MAXLEN mail.rcpt_to cmd_line sink
      pure (0, sink)
  | Command.DATA => send_keyword cmd_line sink "DATA".toList
  | Command.RSET => send_keyword cmd_line sink "RSET".toList
  | Command.VRFY => some (-1, sink)
  | Command.NOOP => send_keyword cmd_line sink "NOOP".toList
  | Command.QUIT => send_keyword cmd_line sink "QUIT".toList
  | Command.other _ => some (-1, sink)

/-! ## `smtp_send_reply` -/

/-- Modelled from the spec: the reply codes of `smtp-lib.h` (not among the
sources), the closed enumeration of the case labels of `smtp_send_reply`;
`other` is any value of the `size_t` argument that is none of them. -/
inductive ReplyCode
  | R211 | R220 | R250 | R250E | R251 | R354 | R450 | R451 | R452 | R455
  | R502 | R503 | R504 | R550 | R551 | R552 | R553 | R554 | R555
  | other (value : Nat)
  deriving DecidableEq, Repr

/-- How a case of the `switch` of `smtp_send_reply` ends: with a `return`, or
with a `break` that leaves `rply_line` to the code after the `switch`. -/
inductive Switch
  | returned (ret : Int) (sink : List Char)
  | broke (rply_line : List Char)

/-- The branch `NULL == msg` of a case: `strcpy(rply_line, text);
Writen(sockfd, rply_line, strlen(rply_line)); return 0;`. -/
def reply_default (rply_line sink text : List Char) : Option Switch := do
  let rply_line ← strcpy rply_line 0 text
  pure (Switch.returned 0 (Writen sink rply_line (strlen rply_line)))

/-- The branch `NULL != msg` of a case: `strcpy(rply_line, head); break;`. -/
def reply_head (rply_line head : List Char) : Option Switch := do
  let rply_line ← strcpy rply_line 0 head
  pure (Switch.broke rply_line)

/-- A case of the `switch` whose two branches differ only by their literals. -/
def reply_case (rply_line sink : List Char) (msg : Option (List Char))
    (text head : String) : Option Switch :=
  match msg with
  | none => reply_default rply_line sink (text.toList ++ CRLF)
  | some _ => reply_head rply_line head.toList

/-- The `switch (code)` of `smtp_send_reply`.  In the case R220 without message
`pos += min(DOMAIN_MAXLEN, strlen(domain))` is treated as in `smtp_send_command`:
when `domain` holds no NUL the place of the text and of CR LF is indeterminate,
and the model keeps the bytes `220 ` and the `DOMAIN_MAXLEN` bytes of the name
that `strncpy` has copied, followed by what `junk` makes of the rest of
`rply_line`. -/
def reply_switch (LINE_MAXLEN DOMAIN_MAXLEN : Nat) (host : List Char) (junk : Nat → Char)
    (sink : List Char) (code : ReplyCode) (msg : Option (List Char)) : Option Switch :=
  let rply_line := auto_array LINE_MAXLEN junk
  match code with
  | ReplyCode.R211 => reply_case rply_line sink msg "211 closing connection, bye" "211 "
  | ReplyCode.R220 =>
    match msg with
    | none => do
      let rply_line ← strcpy rply_line 0 "220 ".toList
      let pos := 4
      let domain := gethostname DOMAIN_MAXLEN host
      let rply_line ← strncpy rply_line pos domain DOMAIN_MAXLEN
      if NUL ∈ domain then do
        let pos := pos + min DOMAIN_MAXLEN (strlen domain)
        let rply_line ← strcpy rply_line pos (" Service ready".toList ++ CRLF)
        pure (Switch.returned 0 (Writen sink rply_line (strlen rply_line)))
      else
        pure (Switch.returned 0 (Writen sink rply_line (strlen rply_line)))
    | some _ => reply_head rply_line "220 ".toList
  | ReplyCode.R250 => reply_case rply_line sink msg "250 OK" "250 "
  | ReplyCode.R250E =>
    match msg with
    | none => some (Switch.returned (-1) sink)
    | some _ => reply_head rply_line "250-".toList
  | ReplyCode.R251 =>
    reply_case rply_line sink msg "251 User not local; will forward to <forward-path>" "251 "
  | ReplyCode.R354 =>
    reply_case rply_line sink msg "354 Start mail input; end with <CRLF>.<CRLF>" "354 "
  | ReplyCode.R450 =>
    reply_case rply_line sink msg "450 Requested mail action not taken: mailbox unavailable"
      "450 "
  | ReplyCode.R451 =>
    reply_case rply_line sink msg "451 Requested action aborted: local error in processing"
      "451 "
  | ReplyCode.R452 =>
    reply_case rply_line sink msg "452 requested action not taken: insufficient system storage"
      "452 "
  | ReplyCode.R455 =>
    reply_case rply_line sink msg "455 Server unable to accommodate parameters" "455  "
  | ReplyCode.R502 => reply_case rply_line sink msg "502 Command not implemented" "502 "
  | ReplyCode.R503 => reply_case rply_line sink msg "503 Bad sequence of commands" "503 "
  | ReplyCode.R504 =>
    reply_case rply_line sink msg "504 Command parameter not implemented" "504 "
  | ReplyCode.R550 =>
    reply_case rply_line sink msg "550 Requested action not taken: mailbox unavailable" "550 "
  | ReplyCode.R551 =>
    reply_case rply_line sink msg "551 User not local; please try <forward-path>" "551 "
  | ReplyCode.R552 =>
    reply_case rply_line sink msg
      "552 Requested mail action aborted: exceeded storage allocation" "552 "
  | ReplyCode.R553 =>
    reply_case rply_line sink msg "553 Requested action not taken: mailbox name not allowed"
      "553 "
  | ReplyCode.R554 => reply_case rply_line sink msg "554 Transaction failed" "555 "
  | ReplyCode.R555 =>
    reply_case rply_line sink msg
      "555 MAIL FROM/RCPT TO parameters not recognized or not implemented" "555 "
  | ReplyCode.other _ => some (Switch.returned (-1) sink)

/-- The code of `smtp_send_reply` after the `switch`, which appends the user
defined message to the four bytes of the header.  `LINE_MAXLEN - pos - 3` is
computed in `size_t`; it wraps only for `LINE_MAXLEN < 7`, where the `strcpy`
calls overrun `rply_line` whichever value it takes, so truncated subtraction
gives the same result. -/
def reply_message (LINE_MAXLEN : Nat) (rply_line sink msg : List Char) (msg_len : Nat) :
    Option (Int × List Char) := do
  let pos := 4
  let rply_line ← strncpy rply_line pos msg (min msg_len (LINE_MAXLEN - pos - 3))
  let pos := pos + min (LINE_MAXLEN - pos - 3) (strlen msg)
  let rply_line ← strcpy rply_line pos CRLF
  pure (0, Writen sink rply_line (strlen rply_line))

/-- The function `smtp_send_reply(sockfd, code, msg, msg_len)`; `msg = none` is
the NULL
pointer.  The result is the return value and what the socket has received
afterwards, or `none` when an array is overrun. -/
def smtp_send_reply (LINE_MAXLEN DOMAIN_MAXLEN : Nat) (host : List Char) (junk : Nat → Char)
    (sink : List Char) (code : ReplyCode) (msg : Option (List Char)) (msg_len : Nat) :
    Option (Int × List Char) :=
  match reply_switch LINE_MAXLEN DOMAIN_MAXLEN host junk sink code msg with
  | none => none
  | some (Switch.returned ret sink1) => some (ret, sink1)
  | some (Switch.broke rply_line) =>
    match msg with
    | none => none
    | some msg => reply_message LINE_MAXLEN rply_line sink msg msg_len

/-- The literal that a case of the `switch` copies into `rply_line` when a
message is supplied. -/
def switch_head : ReplyCode → List Char
  | ReplyCode.R211 => "211 ".toList
  | ReplyCode.R220 => "220 ".toList
  | ReplyCode.R250 => "250 ".toList
  | ReplyCode.R250E => "250-".toList
  | ReplyCode.R251 => "251 ".toList
  | ReplyCode.R354 => "354 ".toList
  | ReplyCode.R450 => "450 ".toList
  | ReplyCode.R451 => "451 ".toList
  | ReplyCode.R452 => "452 ".toList
  | ReplyCode.R455 => "455  ".toList
  | ReplyCode.R502 => "502 ".toList
  | ReplyCode.R503 => "503 ".toList
  | ReplyCode.R504 => "504 ".toList
  | ReplyCode.R550 => "550 ".toList
  | ReplyCode.R551 => "551 ".toList
  | ReplyCode.R552 => "552 ".toList
  | ReplyCode.R553 => "553 ".toList
  | ReplyCode.R554 => "555 ".toList
  | ReplyCode.R555 => "555 ".toList
  | ReplyCode.other _ => []

/-- The four bytes in front of the message of a reply: the bytes of the
literal of the case that the code after the `switch` does not overwrite. -/
def reply_header (code : ReplyCode) : List Char := (switch_head code).take 4

/-- The line, CR LF included, that a case of the `switch` sends when no
message is supplied (nothing for R250E, which has no default text). -/
def default_line (DOMAIN_MAXLEN : Nat) (host : List Char) : ReplyCode → List Char
  | ReplyCode.R211 => "211 closing connection, bye".toList ++ CRLF
  | ReplyCode.R220 =>
    "220 ".toList ++ (cstr host).take DOMAIN_MAXLEN ++ (" Service ready".toList ++ CRLF)
  | ReplyCode.R250 => "250 OK".toList ++ CRLF
  | ReplyCode.R250E => []
  | ReplyCode.R251 => "251 User not local; will forward to <forward-path>".toList ++ CRLF
  | ReplyCode.R354 => "354 Start mail input; end with <CRLF>.<CRLF>".toList ++ CRLF
  | ReplyCode.R450 =>
    "450 Requested mail action not taken: mailbox unavailable".toList ++ CRLF
  | ReplyCode.R451 =>
    "451 Requested action aborted: local error in processing".toList ++ CRLF
  | ReplyCode.R452 =>
    "452 requested action not taken: insufficient system storage".toList ++ CRLF
  | ReplyCode.R455 => "455 Server unable to accommodate parameters".toList ++ CRLF
  | ReplyCode.R502 => "502 Command not implemented".toList ++ CRLF
  | ReplyCode.R503 => "503 Bad sequence of commands".toList ++ CRLF
  | ReplyCode.R504 => "504 Command parameter not implemented".toList ++ CRLF
  | ReplyCode.R550 => "550 Requested action not taken: mailbox unavailable".toList ++ CRLF
  | ReplyCode.R551 => "551 User not local; please try <forward-path>".toList ++ CRLF
  | ReplyCode.R552 =>
    "552 Requested mail action aborted: exceeded storage allocation".toList ++ CRLF
  | ReplyCode.R553 =>
    "553 Requested action not taken: mailbox name not allowed".toList ++ CRLF
  | ReplyCode.R554 => "554 Transaction failed".toList ++ CRLF
  | ReplyCode.R555 =>
    "555 MAIL FROM/RCPT TO parameters not recognized or not implemented".toList ++ CRLF
  | ReplyCode.other _ => []

/-- Whether a code is one of the case labels of `smtp_send_reply`. -/
def ReplyCode.known : ReplyCode → Bool
  | ReplyCode.other _ => false
  | _ => true

/-! ## What the specification expects

The definitions of this section follow the words of the specification, not the
code; the theorems compare them with the code. -/

/-- The line that the specification gives for a command: the keyword and its
arguments, without the terminator. -/
def expected_command_line (host sender recipient : List Char) : Command → List Char
  | Command.EHLO => "EHLO ".toList ++ host
  | Command.HELO => "HELO ".toList ++ host
  | Command.MAIL => "MAIL FROM:<".toList ++ sender ++ ">".toList
  | Command.RCPT => "RCPT TO:<".toList ++ recipient ++ ">".toList
  | Command.DATA => "DATA".toList
  | Command.RSET => "RSET".toList
  | Command.NOOP => "NOOP".toList
  | Command.QUIT => "QUIT".toList
  | Command.VRFY => []
  | Command.other _ => []

/-- Modelled from the spec: the three decimal digits of a reply code, the
number that names it (211, 220, 250, 250 for the continuation code, 251, 354,
450 to 455, 502 to 504, 550 to 555). -/
def canonical_digits : ReplyCode → List Char
  | ReplyCode.R211 => "211".toList
  | ReplyCode.R220 => "220".toList
  | ReplyCode.R250 => "250".toList
  | ReplyCode.R250E => "250".toList
  | ReplyCode.R251 => "251".toList
  | ReplyCode.R354 => "354".toList
  | ReplyCode.R450 => "450".toList
  | ReplyCode.R451 => "451".toList
  | ReplyCode.R452 => "452".toList
  | ReplyCode.R455 => "455".toList
  | ReplyCode.R502 => "502".toList
  | ReplyCode.R503 => "503".toList
  | ReplyCode.R504 => "504".toList
  | ReplyCode.R550 => "550".toList
  | ReplyCode.R551 => "551".toList
  | ReplyCode.R552 => "552".toList
  | ReplyCode.R553 => "553".toList
  | ReplyCode.R554 => "554".toList
  | ReplyCode.R555 => "555".toList
  | ReplyCode.other _ => []

/-- The separator that the specification puts between the code and the text of
a reply: a hyphen for the continuation code, a space for every other code. -/
def expected_separator (code : ReplyCode) : Char :=
  if code = ReplyCode.R250E then '-' else ' '

/-- The number of places at which a byte sequence holds a CR immediately
followed by an LF. -/
def countCRLF : List Char → Nat
  | [] => 0
  | a :: rest =>
    (match rest with
      | [] => 0
      | b :: _ => if a = CR ∧ b = LF then 1 else 0) + countCRLF rest

/-- Whether a line that has been written holds the terminator exactly once, as
its last two bytes. -/
def terminated_once (line : List Char) : Bool :=
  line.drop (line.length - 2) == CRLF && countCRLF line == 1

/-- The caller's loop of the specification: `smtp_readline` is called until it
returns 0; the result is the return value and the line of every call before
that one, or `none` when `fuel` calls do not reach a return value of 0. -/
def read_until_zero (LINE_MAXLEN maxlen : Nat) :
    Nat → BufState → Source → Option (List (Int × List Char))
  | 0, _, _ => none
  | fuel + 1, st, src =>
    let r := smtp_readline LINE_MAXLEN maxlen st src
    if r.ret = 0 then some []
    else (read_until_zero LINE_MAXLEN maxlen fuel r.st r.src).map
      (fun rest => (r.ret, r.line) :: rest)

/-- The bytes that the results of successive calls stand for: every line, with
CR LF put back after a line whose return value is its length plus 2. -/
def rebuild : List (Int × List Char) → List Char
  | [] => []
  | (ret, line) :: rest =>
    (if ret = ((line.length + 2 : Nat) : Int) then line ++ CRLF else line) ++ rebuild rest

/-! ## The reader seen from the byte stream

What `smtp_readline` computes depends only on the sequence of bytes, ends of
stream and read errors that the descriptor still holds, not on how reads cut
it.  The definitions below state that view; `readline_loop_eq_scan` ties it
to the code. -/

/-- One element of what a descriptor delivers, taken a byte at a time. -/
inductive Item
  | byte (c : Char)
  | eof
  | err
  deriving DecidableEq, Repr

/-- What the reads of a descriptor deliver, a byte at a time: an interrupted
read delivers nothing, a read of 0 bytes an end of stream. -/
def flatten : Source → List Item
  | [] => []
  | ReadEvent.data bytes :: rest =>
    (if bytes = [] then [Item.eof] else bytes.map Item.byte) ++ flatten rest
  | ReadEvent.eintr :: rest => flatten rest
  | ReadEvent.error :: rest => Item.err :: flatten rest

/-- The bytes `read_buf[p], ..., read_buf[p + k - 1]`. -/
def window (buf : List Char) : Nat → Nat → List Char
  | 0, _ => []
  | k + 1, p => buf.getD p NUL :: window buf k (p + 1)

/-- The bytes that are buffered in `read_buf` and not handed out yet. -/
def pending (st : BufState) : List Char :=
  window st.read_buf st.read_cnt.toNat st.read_ptr

/-- Everything the reader has yet to see: the buffered bytes, then what the
descriptor delivers. -/
def items (st : BufState) (src : Source) : List Item :=
  (pending st).map Item.byte ++ flatten src

/-- The loop of `smtp_readline` run on a sequence of items: return value, line
and the items left over. -/
def scan : Nat → Nat → LineState → List Char → List Item → Int × List Char × List Item
  | 0, n, _, out, s => (n, out, s)
  | _ + 1, n, _, out, [] => (if n = 1 then 0 else n, out, [])
  | _ + 1, n, _, out, Item.eof :: s => (if n = 1 then 0 else n, out, s)
  | _ + 1, _, _, out, Item.err :: s => (-1, out, s)
  | k + 1, n, state, out, Item.byte c :: s =>
    if state = LineState.CR_READ ∧ c = LF then
      (n, (out ++ [c]).dropLast.dropLast, s)
    else
      scan k (n + 1) (if c = CR then LineState.CR_READ else LineState.START) (out ++ [c]) s

/-- Successive runs of `scan`, one for each `maxlen` of the list. -/
def scan_lines : List Nat → List Item → List (Int × List Char)
  | [], _ => []
  | maxlen :: more, s =>
    let r := scan (maxlen - 1) 1 LineState.START [] s
    (r.1, r.2.1) :: scan_lines more r.2.2

/-- The detector state after the given bytes have been read without meeting a
terminator. -/
def endState : LineState → List Char → LineState
  | state, [] => state
  | _, c :: rest => endState (if c = CR then LineState.CR_READ else LineState.START) rest

/-! ## Proofs: the line reader -/

theorem window_append (pre got tail : List Char) :
    window (pre ++ got ++ tail) got.length pre.length = got := by
  induction got generalizing pre with
  | nil => rfl
  | cons c got ih =>
    have h := ih (pre ++ [c])
    simp only [List.append_assoc, List.singleton_append, List.length_append,
      List.length_singleton, List.cons_append, List.nil_append] at h
    simp only [List.length_cons, window, List.append_assoc, List.cons_append, h]
    have hg : (pre ++ c :: (got ++ tail)).getD pre.length NUL = c := by
      rw [List.getD_eq_getElem?_getD, List.getElem?_append_right (le_refl _)]
      simp
    rw [hg]

theorem pending_of_nonpos (st : BufState) (h : st.read_cnt ≤ 0) : pending st = [] := by
  unfold pending
  have : st.read_cnt.toNat = 0 := by omega
  rw [this]; rfl

theorem pending_of_pos (st : BufState) (h : ¬ st.read_cnt ≤ 0) :
    pending st = st.read_buf.getD st.read_ptr NUL ::
      pending { st with read_cnt := st.read_cnt - 1, read_ptr := st.read_ptr + 1 } := by
  unfold pending
  obtain ⟨k, hk⟩ : ∃ k : Nat, st.read_cnt = (k : Int) + 1 := ⟨(st.read_cnt - 1).toNat, by omega⟩
  simp only [hk, add_sub_cancel_right, Int.toNat_ofNat]
  have : ((k : Int) + 1).toNat = k + 1 := by omega
  rw [this]; rfl

theorem pending_refilled (got old : List Char) :
    pending ⟨(got.length : Int), 0, got ++ old⟩ = got := by
  have := window_append [] got old
  simpa [pending] using this

/-- The view of `refill` from the item stream. -/
theorem refill_items (cap : Nat) (hcap : 0 < cap) (src : Source) (st : BufState) :
    ((refill cap st src).1 = some 0 ∧ (refill cap st src).2.1.read_cnt ≤ 0 ∧
        ((flatten src = [] ∧ flatten (refill cap st src).2.2 = []) ∨
          flatten src = Item.eof :: flatten (refill cap st src).2.2)) ∨
    ((refill cap st src).1 = some (-1) ∧ (refill cap st src).2.1.read_cnt ≤ 0 ∧
        flatten src = Item.err :: flatten (refill cap st src).2.2) ∨
    ((refill cap st src).1 = none ∧ ¬ (refill cap st src).2.1.read_cnt ≤ 0 ∧
        flatten src = (pending (refill cap st src).2.1).map Item.byte ++
          flatten (refill cap st src).2.2) := by
  induction src generalizing st with
  | nil => left; exact ⟨rfl, le_refl _, Or.inl ⟨rfl, rfl⟩⟩
  | cons e rest ih =>
    cases e with
    | eintr => simpa only [refill, flatten] using ih _
    | error => right; left; exact ⟨rfl, by simp [refill], rfl⟩
    | data bytes =>
      by_cases hb : bytes = []
      · subst hb
        left
        simp [refill, flatten]
      · right; right
        have hlen : 0 < bytes.length := List.length_pos.mpr hb
        have hgot : ¬ (List.take cap bytes).length = 0 := by
          simp only [List.length_take]; omega
        simp only [refill, hgot, if_false, pending_refilled, true_and]
        refine ⟨by simp only [List.length_take]; omega, ?_⟩
        by_cases hle : bytes.length ≤ cap
        · simp [flatten, hb, hle, List.take_of_length_le hle]
        · have hd : List.drop cap bytes ≠ [] := by
            intro h
            have := congrArg List.length h
            simp only [List.length_drop, List.length_nil] at this
            omega
          simp only [flatten, hb, hle, if_false, hd, ← List.append_assoc, ← List.map_append,
            List.take_append_drop]

/-- The view of `buf_read` from the item stream. -/
theorem buf_read_items (cap : Nat) (hcap : 0 < cap) (st : BufState) (src : Source) :
    ((buf_read cap st src).rc = 0 ∧
      ((items st src = [] ∧ items (buf_read cap st src).st (buf_read cap st src).src = []) ∨
        items st src = Item.eof :: items (buf_read cap st src).st (buf_read cap st src).src)) ∨
    ((buf_read cap st src).rc = -1 ∧
      items st src = Item.err :: items (buf_read cap st src).st (buf_read cap st src).src) ∨
    (∃ c, (buf_read cap st src).rc = 1 ∧ (buf_read cap st src).c = some c ∧
      items st src = Item.byte c :: items (buf_read cap st src).st (buf_read cap st src).src) := by
  by_cases h : st.read_cnt ≤ 0
  · have hp := pending_of_nonpos st h
    have hb : buf_read cap st src =
        match refill cap st src with
        | (some rc, st1, src1) => ⟨rc, none, st1, src1⟩
        | (none, st1, src1) =>
          ⟨1, some (st1.read_buf.getD st1.read_ptr NUL),
            { st1 with read_cnt := st1.read_cnt - 1, read_ptr := st1.read_ptr + 1 }, src1⟩ := by
      simp only [buf_read, h, if_true]
    rw [hb]
    rcases hq : refill cap st src with ⟨e, st1, src1⟩
    have hr := refill_items cap hcap src st
    rw [hq] at hr
    simp only at hr
    rcases hr with ⟨he, hc, hf⟩ | ⟨he, hc, hf⟩ | ⟨he, hc, hf⟩
    · left
      subst he
      simp only [items, hp, pending_of_nonpos st1 hc, List.map_nil, List.nil_append, true_and]
      exact hf
    · right; left
      subst he
      simp only [items, hp, pending_of_nonpos st1 hc, List.map_nil, List.nil_append, true_and]
      exact hf
    · right; right
      subst he
      refine ⟨_, rfl, rfl, ?_⟩
      simp only [items, hp, List.map_nil, List.nil_append, hf, pending_of_pos st1 hc,
        List.map_cons, List.cons_append]
  · right; right
    have hr : buf_read cap st src = ⟨1, some (st.read_buf.getD st.read_ptr NUL),
        { st with read_cnt := st.read_cnt - 1, read_ptr := st.read_ptr + 1 }, src⟩ := by
      simp only [buf_read, h, if_false]
    rw [hr]
    refine ⟨_, rfl, rfl, ?_⟩
    simp only [items, pending_of_pos st h, List.map_cons, List.cons_append]

/-- The loop of `smtp_readline` computes what `scan` computes on the items
that the buffer and the descriptor hold, and leaves the items that `scan`
leaves. -/
theorem readline_loop_eq_scan (cap : Nat) (hcap : 0 < cap) (k : Nat) :
    ∀ (n : Nat) (state : LineState) (out : List Char) (st : BufState) (src : Source),
      ((readline_loop cap k n state out st src).ret,
        (readline_loop cap k n state out st src).line,
        items (readline_loop cap k n state out st src).st
          (readline_loop cap k n state out st src).src) =
      scan k n state out (items st src) := by
  induction k with
  | zero => intro n state out st src; rfl
  | succ k ih =>
    intro n state out st src
    rcases buf_read_items cap hcap st src with ⟨hrc, h | h⟩ | ⟨hrc, h⟩ | ⟨c, hrc, hc, h⟩
    · rw [h.1]
      simp only [readline_loop, hrc, scan]
      by_cases hn : n = 1 <;> simp [hn, h.2]
    · rw [h]
      simp only [readline_loop, hrc, scan]
      by_cases hn : n = 1 <;> simp [hn]
    · rw [h]
      simp [readline_loop, hrc, scan]
    · rw [h]
      simp only [readline_loop, hrc, hc, scan, Option.getD_some, if_true]
      by_cases hb : state = LineState.CR_READ ∧ c = LF
      · simp only [hb, and_self, if_true]
      · simp only [hb, if_false]
        have hs : (if c = CR then LineState.CR_READ
            else if state = LineState.CR_READ then LineState.START else state) =
            (if c = CR then LineState.CR_READ else LineState.START) := by
          cases state <;> simp
        rw [hs]
        exact ih _ _ _ _ _

/-- A call of `smtp_readline` seen from the item stream. -/
theorem smtp_readline_eq_scan (cap : Nat) (hcap : 0 < cap) (maxlen : Nat) (st : BufState)
    (src : Source) :
    ((smtp_readline cap maxlen st src).ret, (smtp_readline cap maxlen st src).line,
      items (smtp_readline cap maxlen st src).st (smtp_readline cap maxlen st src).src) =
    scan (maxlen - 1) 1 LineState.START [] (items st src) :=
  readline_loop_eq_scan cap hcap _ _ _ _ _ _

/-- Successive calls of `smtp_readline` seen from the item stream. -/
theorem read_lines_eq_scan_lines (cap : Nat) (hcap : 0 < cap) (ms : List Nat) :
    ∀ (st : BufState) (src : Source),
      read_lines cap ms st src = scan_lines ms (items st src) := by
  induction ms with
  | nil => intro st src; rfl
  | cons m ms ih =>
    intro st src
    have h := smtp_readline_eq_scan cap hcap m st src
    simp only [read_lines, scan_lines, ih, ← h]

/-! ### Facts about `scan` -/

theorem hasCRLF_cons_false {c : Char} {l : List Char} (h : hasCRLF (c :: l) = false) :
    hasCRLF l = false ∧ (c = CR → l.head? ≠ some LF) := by
  cases l with
  | nil => exact ⟨rfl, fun _ => by simp⟩
  | cons b t =>
    simp only [hasCRLF, Bool.or_eq_false_iff, Bool.and_eq_false_imp, beq_iff_eq] at h
    refine ⟨h.2, fun hc => ?_⟩
    have := h.1 hc
    simpa using this

theorem hasCRLF_append_singleton {l : List Char} {c : Char} (h : hasCRLF l = false)
    (hc : c ≠ LF) : hasCRLF (l ++ [c]) = false := by
  induction l with
  | nil => rfl
  | cons a t ih =>
    have ht := hasCRLF_cons_false h
    cases t with
    | nil => simp [hasCRLF, hc]
    | cons b u =>
      have hu := ih ht.1
      have h1 : (a == CR && b == LF) = false := by
        simp only [hasCRLF, Bool.or_eq_false_iff] at h
        exact h.1
      show ((a == CR && b == LF) || hasCRLF (b :: u ++ [c])) = false
      rw [h1, hu]; rfl

theorem endState_append_singleton (state : LineState) (l : List Char) (c : Char) :
    endState state (l ++ [c]) = if c = CR then LineState.CR_READ else LineState.START := by
  induction l generalizing state with
  | nil => rfl
  | cons a t ih =>
    show endState (if a = CR then LineState.CR_READ else LineState.START) (t ++ [c]) = _
    exact ih _

/-- Bytes that complete no terminator are stored one after the other. -/
theorem scan_bytes (pre : List Char) :
    ∀ (k n : Nat) (state : LineState) (out : List Char) (rest : List Item),
      pre.length ≤ k → hasCRLF pre = false →
      (state = LineState.CR_READ → pre.head? ≠ some LF) →
      scan k n state out (pre.map Item.byte ++ rest) =
        scan (k - pre.length) (n + pre.length) (endState state pre) (out ++ pre) rest := by
  induction pre with
  | nil => intro k n state out rest _ _ _; simp [endState]
  | cons c t ih =>
    intro k n state out rest hk hno hst
    obtain ⟨k1, rfl⟩ : ∃ k1, k = k1 + 1 := ⟨k - 1, by simp only [List.length_cons] at hk; omega⟩
    have hcond : ¬ (state = LineState.CR_READ ∧ c = LF) := by
      rintro ⟨h1, h2⟩
      exact hst h1 (by simp [h2])
    have hno1 := hasCRLF_cons_false hno
    simp only [List.map_cons, List.cons_append, scan, hcond, if_false, List.append_eq]
    rw [ih k1 (n + 1) _ (out ++ [c]) rest (by simp only [List.length_cons] at hk; omega) hno1.1
      (by
        intro h
        by_cases hc : c = CR
        · exact hno1.2 hc
        · simp [hc] at h)]
    simp only [List.length_cons, endState, List.append_assoc, List.singleton_append]
    congr 1 <;> omega

/-- A line followed by its terminator is returned without the terminator. -/
theorem scan_line (l : List Char) (k n : Nat) (out : List Char) (rest : List Item)
    (hk : l.length + 2 ≤ k) (hno : hasCRLF l = false) :
    scan k n LineState.START out ((l ++ CRLF).map Item.byte ++ rest) =
      (((n + l.length + 1 : Nat) : Int), out ++ l, rest) := by
  have h1 : (l ++ CRLF).map Item.byte ++ rest =
      (l ++ [CR]).map Item.byte ++ (Item.byte LF :: rest) := by
    simp [CRLF]
  have hcr : CR ≠ LF := by decide
  rw [h1, scan_bytes (l ++ [CR]) k n LineState.START out (Item.byte LF :: rest)
    (by simp only [List.length_append, List.length_singleton]; omega)
    (hasCRLF_append_singleton hno hcr) (by intro h; cases h)]
  obtain ⟨k1, hk1⟩ : ∃ k1, k - (l ++ [CR]).length = k1 + 1 :=
    ⟨k - (l ++ [CR]).length - 1, by
      simp only [List.length_append, List.length_singleton]; omega⟩
  rw [hk1, endState_append_singleton]
  simp only [scan, if_true, and_self, List.length_append, List.length_singleton,
    List.dropLast_concat, ← List.append_assoc, Nat.add_assoc]

/-- A run of `maxlen - 1` bytes that completes no terminator is returned as it
is, and the loop ends on its bound. -/
theorem scan_full (pre : List Char) (n : Nat) (out : List Char) (rest : List Item)
    (hno : hasCRLF pre = false) :
    scan pre.length n LineState.START out (pre.map Item.byte ++ rest) =
      (((n + pre.length : Nat) : Int), out ++ pre, rest) := by
  rw [scan_bytes pre pre.length n LineState.START out rest (le_refl _) hno
    (by intro h; cases h)]
  simp [scan]

/-! ### From descriptors to item streams -/

theorem flatten_chunked (chunks : List (List Char)) (h : ∀ c ∈ chunks, c ≠ []) :
    flatten (chunked chunks) = (flat chunks).map Item.byte := by
  induction chunks with
  | nil => rfl
  | cons c cs ih =>
    have hc : c ≠ [] := h c (List.mem_cons_self _ _)
    have hcs := ih (fun d hd => h d (List.mem_cons_of_mem _ hd))
    simp only [chunked, List.map_cons, flatten, hc, if_false, flat, List.map_append] at hcs ⊢
    rw [hcs]

theorem items_of_empty (st : BufState) (src : Source) (h : st.read_cnt ≤ 0) :
    items st src = flatten src := by
  simp [items, pending_of_nonpos st h]

theorem scan_lines_wire (maxlen : Nat) (ls : List (List Char)) (rest : List Item)
    (h : ∀ l ∈ ls, hasCRLF l = false ∧ l.length + 3 ≤ maxlen) :
    scan_lines (List.replicate ls.length maxlen) ((wire ls).map Item.byte ++ rest) =
      ls.map (fun l => (((l.length + 2 : Nat) : Int), l)) := by
  induction ls with
  | nil => rfl
  | cons l ls ih =>
    have hl := h l (List.mem_cons_self _ _)
    have hls := ih (fun d hd => h d (List.mem_cons_of_mem _ hd))
    have hw : (wire (l :: ls)).map Item.byte ++ rest =
        (l ++ CRLF).map Item.byte ++ ((wire ls).map Item.byte ++ rest) := by
      simp [wire]
    rw [hw]
    simp only [List.length_cons, List.replicate_succ, scan_lines, List.map_cons]
    rw [scan_line l (maxlen - 1) 1 [] _ (by omega) hl.1]
    simp only [List.nil_append, hls]
    congr 3
    omega

theorem smtp_readline_of_scan (cap : Nat) (hcap : 0 < cap) (maxlen : Nat) (st : BufState)
    (src : Source) (ret : Int) (line : List Char) (rest : List Item)
    (h : scan (maxlen - 1) 1 LineState.START [] (items st src) = (ret, line, rest)) :
    (smtp_readline cap maxlen st src).ret = ret ∧
    (smtp_readline cap maxlen st src).line = line ∧
    items (smtp_readline cap maxlen st src).st (smtp_readline cap maxlen st src).src = rest := by
  have h1 := smtp_readline_eq_scan cap hcap maxlen st src
  rw [h] at h1
  simp only [Prod.mk.injEq] at h1
  exact h1

theorem items_chunked (chunks : List (List Char)) (st : BufState)
    (h : ∀ c ∈ chunks, c ≠ []) (hst : st.read_cnt ≤ 0) :
    items st (chunked chunks) = (flat chunks).map Item.byte := by
  rw [items_of_empty st _ hst, flatten_chunked chunks h]

theorem cap_pos_of_chunks (cap : Nat) (chunks : List (List Char))
    (hchunks : ∀ c ∈ chunks, c ≠ [] ∧ c.length ≤ cap) (h : 0 < (flat chunks).length) :
    0 < cap := by
  cases chunks with
  | nil => simp [flat] at h
  | cons c cs =>
    have hc := hchunks c (List.mem_cons_self _ _)
    have : 0 < c.length := List.length_pos.mpr hc.1
    omega

theorem refill_of_reportsEof (cap : Nat) (src : Source) (st : BufState)
    (h : reportsEof src = true) : (refill cap st src).1 = some 0 := by
  induction src generalizing st with
  | nil => rfl
  | cons e rest ih =>
    cases e with
    | eintr => exact ih _ h
    | error => simp [reportsEof] at h
    | data bytes =>
      have hb : bytes = [] := by simpa [reportsEof] using h
      subst hb
      simp [refill]

theorem buf_read_of_reportsEof (cap : Nat) (src : Source) (st : BufState)
    (hst : st.read_cnt ≤ 0) (h : reportsEof src = true) : (buf_read cap st src).rc = 0 := by
  have hr := refill_of_reportsEof cap src st h
  rcases hq : refill cap st src with ⟨e, st1, src1⟩
  rw [hq] at hr
  simp only at hr
  subst hr
  simp only [buf_read, hst, if_true, hq]

theorem flatten_append (a b : Source) : flatten (a ++ b) = flatten a ++ flatten b := by
  induction a with
  | nil => rfl
  | cons e rest ih =>
    cases e <;> simp [flatten, ih]

theorem flatten_of_reportsEof (src : Source) (h : reportsEof src = true) :
    flatten src = [] ∨ ∃ t, flatten src = Item.eof :: t := by
  induction src with
  | nil => left; rfl
  | cons e rest ih =>
    cases e with
    | eintr => exact ih h
    | error => simp [reportsEof] at h
    | data bytes =>
      have hb : bytes = [] := by simpa [reportsEof] using h
      subst hb
      right
      exact ⟨flatten rest, by simp [flatten]⟩

theorem scan_at_eof (k n : Nat) (state : LineState) (out : List Char) (s : List Item)
    (hn : n ≠ 1) (hs : s = [] ∨ ∃ t, s = Item.eof :: t) :
    (scan (k + 1) n state out s).1 = n ∧ (scan (k + 1) n state out s).2.1 = out := by
  rcases hs with rfl | ⟨t, rfl⟩ <;> simp [scan, hn]

theorem flatten_dropEintr (src : Source) : flatten (dropEintr src) = flatten src := by
  induction src with
  | nil => rfl
  | cons e rest ih =>
    cases e <;> simp [dropEintr, flatten, ih]

theorem scan_at_err (k n : Nat) (state : LineState) (out : List Char) (t : List Item) :
    scan (k + 1) n state out (Item.err :: t) = (-1, out, t) := by
  simp [scan]

theorem hasCRLF_concat {l : List Char} {c : Char} (h : hasCRLF l = false)
    (hc : l.getLast? = some CR → c ≠ LF) : hasCRLF (l ++ [c]) = false := by
  induction l with
  | nil => rfl
  | cons a t ih =>
    cases t with
    | nil =>
      have : (a == CR && c == LF) = false := by
        by_cases ha : a = CR
        · have := hc (by simp [ha])
          simp [this]
        · simp [ha]
      show ((a == CR && c == LF) || hasCRLF [c]) = false
      rw [this]; rfl
    | cons b u =>
      have ht := hasCRLF_cons_false h
      have hu := ih ht.1 (by simpa [List.getLast?_cons_cons] using hc)
      have h1 : (a == CR && b == LF) = false := by
        simp only [hasCRLF, Bool.or_eq_false_iff] at h
        exact h.1
      show ((a == CR && b == LF) || hasCRLF (b :: u ++ [c])) = false
      rw [h1, hu]; rfl

theorem hasCRLF_dropLast {l : List Char} (h : hasCRLF l = false) :
    hasCRLF l.dropLast = false := by
  induction l with
  | nil => rfl
  | cons a t ih =>
    cases t with
    | nil => rfl
    | cons b u =>
      have ht := hasCRLF_cons_false h
      have hu := ih ht.1
      cases u with
      | nil => rfl
      | cons c v =>
        have h1 : (a == CR && b == LF) = false := by
          simp only [hasCRLF, Bool.or_eq_false_iff] at h
          exact h.1
        show ((a == CR && b == LF) || hasCRLF (b :: (c :: v).dropLast)) = false
        rw [h1]
        simpa using hu

/-- The loop of `smtp_readline` never stores a terminator: as long as the bytes
stored so far hold none, and the detector is in state `CR_READ` whenever they
end in CR, the line it returns holds none either. -/
theorem readline_loop_no_CRLF (cap : Nat) (k : Nat) :
    ∀ (n : Nat) (state : LineState) (out : List Char) (st : BufState) (src : Source),
      hasCRLF out = false → (out.getLast? = some CR → state = LineState.CR_READ) →
      hasCRLF (readline_loop cap k n state out st src).line = false := by
  induction k with
  | zero => intro n state out st src h _; exact h
  | succ k ih =>
    intro n state out st src h hst
    simp only [readline_loop]
    by_cases hrc : (buf_read cap st src).rc = 1
    · simp only [hrc, if_true]
      by_cases hb : state = LineState.CR_READ ∧ (buf_read cap st src).c.getD NUL = LF
      · simp only [hb, and_self, if_true, List.dropLast_concat]
        exact hasCRLF_dropLast h
      · simp only [hb, if_false]
        apply ih
        · exact hasCRLF_concat h (fun hl hc => hb ⟨hst hl, hc⟩)
        · intro hl
          have : (buf_read cap st src).c.getD NUL = CR := by simpa using hl
          simp [this]
    · simp only [hrc, if_false]
      by_cases h0 : (buf_read cap st src).rc = 0
      · by_cases hn : n = 1 <;> simp [h0, hn, h]
      · simp [h0, h]

/-! ## The claims on the line reader -/

/-- C1: for `k >= 1` lines `l1 .. lk`, none holding a CR immediately followed
by an LF and each of at most `maxlen - 3` bytes, and for every cut of the byte
stream `l1 CRLF ... lk CRLF` into non-empty reads of at most `LINE_MAXLEN`
bytes, `k` successive calls of `smtp_readline` that start on an empty read
buffer deliver `l1, ..., lk` in order, without the terminators (each call
returning the length of its line plus 2). -/
theorem C1_lines_delivered_under_fragmentation (LINE_MAXLEN maxlen : Nat)
    (ls chunks : List (List Char)) (st : BufState)
    (hk : 1 ≤ ls.length)
    (hlines : ∀ l ∈ ls, hasCRLF l = false ∧ l.length + 3 ≤ maxlen)
    (hchunks : ∀ c ∈ chunks, c ≠ [] ∧ c.length ≤ LINE_MAXLEN)
    (hcut : flat chunks = wire ls)
    (hst : st.read_cnt ≤ 0) :
    read_lines LINE_MAXLEN (List.replicate ls.length maxlen) st (chunked chunks) =
      ls.map (fun l => (((l.length + 2 : Nat) : Int), l)) := by
  have hcap : 0 < LINE_MAXLEN := by
    cases chunks with
    | nil =>
      cases ls with
      | nil => simp at hk
      | cons l ls =>
        have := congrArg List.length hcut
        simp only [flat, wire, CRLF, List.length_nil, List.length_append, List.length_cons] at this
        omega
    | cons c cs =>
      have hc := hchunks c (List.mem_cons_self _ _)
      have : 0 < c.length := List.length_pos.mpr hc.1
      omega
  rw [read_lines_eq_scan_lines LINE_MAXLEN hcap, items_of_empty st _ hst,
    flatten_chunked chunks (fun c hc => (hchunks c hc).1), hcut]
  have := scan_lines_wire maxlen ls [] hlines
  simpa using this

/-- C1, the two examples of the specification: the reads `"RCPT"`,
`" TO:<a@b>"`, CR, LF give the one line `"RCPT TO:<a@b>"`, and the reads
`"A" CR`, `"B" CR LF` give the one line `"A" CR "B"`. -/
theorem C1_lines_delivered_under_fragmentation_witness :
    read_lines 1024 [1024] (BufState.initial 1024)
        (chunked ["RCPT".toList, " TO:<a@b>".toList, [CR], [LF]]) =
      [(15, "RCPT TO:<a@b>".toList)] ∧
    read_lines 1024 [1024] (BufState.initial 1024)
        (chunked [['A', CR], ['B', CR, LF]]) = [(5, ['A', CR, 'B'])] :=
  ⟨C1_lines_delivered_under_fragmentation 1024 1024 ["RCPT TO:<a@b>".toList]
      ["RCPT".toList, " TO:<a@b>".toList, [CR], [LF]] (BufState.initial 1024)
      (by decide) (by decide) (by decide) (by decide) (by decide),
   C1_lines_delivered_under_fragmentation 1024 1024 [['A', CR, 'B']]
      [['A', CR], ['B', CR, LF]] (BufState.initial 1024)
      (by decide) (by decide) (by decide) (by decide) (by decide)⟩

/-- C2: for `maxlen >= 2` and a byte stream of at least `maxlen - 1` bytes whose
first `maxlen - 1` bytes complete no CR LF pair, `smtp_readline` returns (with
the value `maxlen`) the line made of exactly these `maxlen - 1` bytes; the
bytes after them stay unread, and later calls deliver what a reader that is
fed exactly these remaining bytes delivers. -/
theorem C2_oversized_line_truncated (LINE_MAXLEN maxlen : Nat)
    (chunks : List (List Char)) (st : BufState)
    (h2 : 2 ≤ maxlen)
    (hchunks : ∀ c ∈ chunks, c ≠ [] ∧ c.length ≤ LINE_MAXLEN)
    (hlen : maxlen - 1 ≤ (flat chunks).length)
    (hno : hasCRLF ((flat chunks).take (maxlen - 1)) = false)
    (hst : st.read_cnt ≤ 0) :
    (smtp_readline LINE_MAXLEN maxlen st (chunked chunks)).ret = maxlen ∧
    (smtp_readline LINE_MAXLEN maxlen st (chunked chunks)).line =
      (flat chunks).take (maxlen - 1) ∧
    ∀ (later : List Nat) (chunks2 : List (List Char)) (st2 : BufState),
      (∀ c ∈ chunks2, c ≠ []) → flat chunks2 = (flat chunks).drop (maxlen - 1) →
      st2.read_cnt ≤ 0 →
      read_lines LINE_MAXLEN later
          (smtp_readline LINE_MAXLEN maxlen st (chunked chunks)).st
          (smtp_readline LINE_MAXLEN maxlen st (chunked chunks)).src =
        read_lines LINE_MAXLEN later st2 (chunked chunks2) := by
  have hcap : 0 < LINE_MAXLEN := cap_pos_of_chunks LINE_MAXLEN chunks hchunks (by omega)
  have hit := items_chunked chunks st (fun c hc => (hchunks c hc).1) hst
  have hsplit : (flat chunks).map Item.byte =
      ((flat chunks).take (maxlen - 1)).map Item.byte ++
        ((flat chunks).drop (maxlen - 1)).map Item.byte := by
    rw [← List.map_append, List.take_append_drop]
  have hl : ((flat chunks).take (maxlen - 1)).length = maxlen - 1 := by
    simp only [List.length_take]; omega
  have hs := scan_full ((flat chunks).take (maxlen - 1)) 1 []
    (((flat chunks).drop (maxlen - 1)).map Item.byte) hno
  rw [hl, ← hsplit, ← hit] at hs
  obtain ⟨hr, hline, hrest⟩ := smtp_readline_of_scan LINE_MAXLEN hcap maxlen st _ _ _ _ hs
  refine ⟨?_, by simpa using hline, ?_⟩
  · rw [hr]; push_cast; omega
  · intro later chunks2 st2 hc2 hf2 hst2
    rw [read_lines_eq_scan_lines LINE_MAXLEN hcap, read_lines_eq_scan_lines LINE_MAXLEN hcap,
      hrest, items_chunked chunks2 st2 hc2 hst2, hf2]

/-- C2 at a 9-byte stream read with `maxlen = 5`: the line is the first four
bytes and the next call goes on with the fifth. -/
theorem C2_oversized_line_truncated_witness :
    (smtp_readline 8 5 (BufState.initial 8) (chunked ["abc".toList, "defghi".toList])).ret = 5 ∧
    (smtp_readline 8 5 (BufState.initial 8) (chunked ["abc".toList, "defghi".toList])).line =
      "abcd".toList ∧
    read_lines 8 [5]
        (smtp_readline 8 5 (BufState.initial 8) (chunked ["abc".toList, "defghi".toList])).st
        (smtp_readline 8 5 (BufState.initial 8) (chunked ["abc".toList, "defghi".toList])).src =
      read_lines 8 [5] (BufState.initial 8) (chunked ["efghi".toList]) :=
  have h := C2_oversized_line_truncated 8 5 ["abc".toList, "defghi".toList] (BufState.initial 8)
    (by decide) (by decide) (by decide) (by decide) (by decide)
  ⟨h.1, h.2.1, h.2.2 [5] ["efghi".toList] (BufState.initial 8) (by decide) (by decide)
    (by decide)⟩

/-- C3: on an empty read buffer and with `maxlen >= 2`, when the descriptor
reports the end of the stream before any byte of the line has been read,
`smtp_readline` returns 0 and stores no byte; when it reports it after the
bytes of a non-empty run without terminator (short enough for the read that
meets the end of the stream to take place), `smtp_readline` returns a positive
value, the length of the run plus 1, and delivers exactly that run. -/
theorem C3_end_of_stream (LINE_MAXLEN maxlen : Nat) (st : BufState) (tail : Source)
    (h2 : 2 ≤ maxlen) (hst : st.read_cnt ≤ 0) (heof : reportsEof tail = true) :
    ((smtp_readline LINE_MAXLEN maxlen st tail).ret = 0 ∧
      (smtp_readline LINE_MAXLEN maxlen st tail).line = []) ∧
    ∀ chunks : List (List Char),
      (∀ c ∈ chunks, c ≠ [] ∧ c.length ≤ LINE_MAXLEN) →
      1 ≤ (flat chunks).length → (flat chunks).length + 2 ≤ maxlen →
      hasCRLF (flat chunks) = false →
      0 < (smtp_readline LINE_MAXLEN maxlen st (chunked chunks ++ tail)).ret ∧
      (smtp_readline LINE_MAXLEN maxlen st (chunked chunks ++ tail)).ret =
        (flat chunks).length + 1 ∧
      (smtp_readline LINE_MAXLEN maxlen st (chunked chunks ++ tail)).line = flat chunks := by
  constructor
  · obtain ⟨k, hk⟩ : ∃ k, maxlen - 1 = k + 1 := ⟨maxlen - 2, by omega⟩
    have hrc := buf_read_of_reportsEof LINE_MAXLEN tail st hst heof
    simp [smtp_readline, hk, readline_loop, hrc]
  · intro chunks hchunks h1 hlen hno
    have hcap : 0 < LINE_MAXLEN := cap_pos_of_chunks LINE_MAXLEN chunks hchunks (by omega)
    have hit : items st (chunked chunks ++ tail) =
        (flat chunks).map Item.byte ++ flatten tail := by
      rw [items_of_empty st _ hst, flatten_append,
        flatten_chunked chunks (fun c hc => (hchunks c hc).1)]
    have hs := scan_bytes (flat chunks) (maxlen - 1) 1 LineState.START []
      (flatten tail) (by omega) hno (by intro h; cases h)
    obtain ⟨k, hk⟩ : ∃ k, maxlen - 1 - (flat chunks).length = k + 1 :=
      ⟨maxlen - 1 - (flat chunks).length - 1, by omega⟩
    rw [hk] at hs
    have he := scan_at_eof k (1 + (flat chunks).length) (endState LineState.START (flat chunks))
      ([] ++ flat chunks) (flatten tail) (by omega) (flatten_of_reportsEof tail heof)
    rw [← hs, ← hit] at he
    have hr := smtp_readline_eq_scan LINE_MAXLEN hcap maxlen st (chunked chunks ++ tail)
    rw [← hr] at he
    simp only [List.nil_append] at he
    refine ⟨?_, ?_, he.2⟩
    · rw [he.1]; omega
    · rw [he.1]; push_cast; omega

/-- C3 at an empty descriptor, and at the descriptor that delivers `"ab"`,
`"c"` and then ends. -/
theorem C3_end_of_stream_witness :
    ((smtp_readline 8 16 (BufState.initial 8) []).ret = 0 ∧
      (smtp_readline 8 16 (BufState.initial 8) []).line = []) ∧
    (0 < (smtp_readline 8 16 (BufState.initial 8)
        (chunked ["ab".toList, "c".toList] ++ [])).ret ∧
      (smtp_readline 8 16 (BufState.initial 8)
        (chunked ["ab".toList, "c".toList] ++ [])).ret = (flat ["ab".toList, "c".toList]).length + 1 ∧
      (smtp_readline 8 16 (BufState.initial 8)
        (chunked ["ab".toList, "c".toList] ++ [])).line = flat ["ab".toList, "c".toList]) :=
  have h := C3_end_of_stream 8 16 (BufState.initial 8) [] (by decide) (by decide) (by decide)
  ⟨h.1, h.2 ["ab".toList, "c".toList] (by decide) (by decide) (by decide) (by decide)⟩

/-- C4: reads that fail with EINTR are retried and never seen by the caller:
two descriptors that differ only by interrupted reads give the same results
(return values and lines) for every sequence of `smtp_readline` calls, from any
state of the read buffer.  A read that fails otherwise, met after the bytes of
a run that neither ends the line nor fills it, makes the call return -1; the
calls that follow go on with the reads after the failed one. -/
theorem C4_eintr_retried_other_errors_surface (LINE_MAXLEN : Nat) (hcap : 0 < LINE_MAXLEN) :
    (∀ (src src2 : Source) (st : BufState) (maxlens : List Nat),
      dropEintr src = dropEintr src2 →
      read_lines LINE_MAXLEN maxlens st src = read_lines LINE_MAXLEN maxlens st src2) ∧
    (∀ (maxlen : Nat) (chunks : List (List Char)) (rest : Source) (st : BufState),
      st.read_cnt ≤ 0 → (∀ c ∈ chunks, c ≠ []) →
      (flat chunks).length + 2 ≤ maxlen → hasCRLF (flat chunks) = false →
      (smtp_readline LINE_MAXLEN maxlen st
          (chunked chunks ++ ReadEvent.error :: rest)).ret = -1 ∧
      ∀ (later : List Nat) (st2 : BufState), st2.read_cnt ≤ 0 →
        read_lines LINE_MAXLEN later
            (smtp_readline LINE_MAXLEN maxlen st
              (chunked chunks ++ ReadEvent.error :: rest)).st
            (smtp_readline LINE_MAXLEN maxlen st
              (chunked chunks ++ ReadEvent.error :: rest)).src =
          read_lines LINE_MAXLEN later st2 rest) := by
  constructor
  · intro src src2 st maxlens h
    rw [read_lines_eq_scan_lines LINE_MAXLEN hcap, read_lines_eq_scan_lines LINE_MAXLEN hcap]
    simp only [items]
    rw [← flatten_dropEintr src, ← flatten_dropEintr src2, h]
  · intro maxlen chunks rest st hst hchunks hlen hno
    have hit : items st (chunked chunks ++ ReadEvent.error :: rest) =
        (flat chunks).map Item.byte ++ Item.err :: flatten rest := by
      rw [items_of_empty st _ hst, flatten_append, flatten_chunked chunks hchunks]
      rfl
    have hs := scan_bytes (flat chunks) (maxlen - 1) 1 LineState.START []
      (Item.err :: flatten rest) (by omega) hno (by intro h; cases h)
    obtain ⟨k, hk⟩ : ∃ k, maxlen - 1 - (flat chunks).length = k + 1 :=
      ⟨maxlen - 1 - (flat chunks).length - 1, by omega⟩
    rw [hk, scan_at_err, ← hit] at hs
    obtain ⟨hr, _, hrest⟩ := smtp_readline_of_scan LINE_MAXLEN hcap maxlen st _ _ _ _ hs
    refine ⟨hr, ?_⟩
    intro later st2 hst2
    rw [read_lines_eq_scan_lines LINE_MAXLEN hcap, read_lines_eq_scan_lines LINE_MAXLEN hcap,
      hrest, items_of_empty st2 _ hst2]

/-- C4 at a descriptor with three interrupted reads put in, and at a
descriptor whose second read fails. -/
theorem C4_eintr_retried_other_errors_surface_witness :
    read_lines 8 [16, 16] (BufState.initial 8)
        [ReadEvent.eintr, ReadEvent.data "a".toList, ReadEvent.eintr, ReadEvent.eintr,
          ReadEvent.data [CR, LF]] =
      read_lines 8 [16, 16] (BufState.initial 8)
        [ReadEvent.data "a".toList, ReadEvent.data [CR, LF]] ∧
    (smtp_readline 8 16 (BufState.initial 8)
        (chunked ["ab".toList] ++ ReadEvent.error :: [ReadEvent.data "c".toList])).ret = -1 :=
  have h := C4_eintr_retried_other_errors_surface 8 (by decide)
  ⟨h.1 _ _ (BufState.initial 8) [16, 16] (by decide),
    (h.2 16 ["ab".toList] [ReadEvent.data "c".toList] (BufState.initial 8) (by decide)
      (by decide) (by decide) (by decide)).1⟩

/-- C5: whatever the descriptor delivers, however reads cut it, whatever the
state of the read buffer and whatever `maxlen`, the line that `smtp_readline`
leaves in the caller's buffer never holds a CR immediately followed by an LF. -/
theorem C5_line_never_contains_terminator (LINE_MAXLEN maxlen : Nat) (st : BufState)
    (src : Source) :
    hasCRLF (smtp_readline LINE_MAXLEN maxlen st src).line = false :=
  readline_loop_no_CRLF LINE_MAXLEN _ _ _ _ _ _ rfl (by intro h; cases h)

/-! ## Proofs: C strings and arrays -/

theorem cstr_no_nul (s : List Char) : NUL ∉ cstr s := by
  induction s with
  | nil => simp [cstr]
  | cons c t ih =>
    by_cases hc : c = NUL
    · simp [cstr, hc]
    · simp only [cstr, hc, if_false, List.mem_cons, not_or]
      exact ⟨fun h => hc h.symm, ih⟩

theorem cstr_of_no_nul (s : List Char) (h : NUL ∉ s) : cstr s = s := by
  induction s with
  | nil => rfl
  | cons c t ih =>
    simp only [List.mem_cons, not_or] at h
    have hc : ¬ c = NUL := fun e => h.1 e.symm
    simp only [cstr, hc, if_false, ih h.2]

theorem cstr_append_nul (x rest : List Char) (h : NUL ∉ x) : cstr (x ++ NUL :: rest) = x := by
  induction x with
  | nil => simp [cstr]
  | cons c t ih =>
    simp only [List.mem_cons, not_or] at h
    have hc : ¬ c = NUL := fun e => h.1 e.symm
    simp only [List.cons_append, cstr, hc, if_false, List.append_eq, ih h.2]

theorem cstr_idem (s : List Char) : cstr (cstr s) = cstr s :=
  cstr_of_no_nul _ (cstr_no_nul s)

theorem not_mem_take {x : List Char} {c : Char} (n : Nat) (h : c ∉ x) : c ∉ x.take n :=
  fun hm => h (List.mem_of_mem_take hm)

theorem cstr_take (s : List Char) (n : Nat) : cstr ((cstr s).take n) = (cstr s).take n :=
  cstr_of_no_nul _ (not_mem_take n (cstr_no_nul s))

theorem auto_array_length (size : Nat) (junk : Nat → Char) :
    (auto_array size junk).length = size := by
  simp [auto_array]

/-- A write that fits succeeds, keeps the size of the array and leaves the
bytes in front of it as they were. -/
theorem store_ok (buf x : List Char) (p : Nat) (bytes : List Char) (hx : x <+: buf)
    (hp : p ≤ x.length) (hfit : p + bytes.length ≤ buf.length) :
    ∃ b, store buf p bytes = some b ∧ (x.take p ++ bytes) <+: b ∧ b.length = buf.length := by
  obtain ⟨t, rfl⟩ := hx
  refine ⟨List.take p (x ++ t) ++ bytes ++ List.drop (p + bytes.length) (x ++ t),
    by simp only [store, hfit, if_true], ?_, ?_⟩
  · rw [List.take_append_of_le_length hp]
    exact List.prefix_append _ _
  · simp only [List.length_append, List.length_take, List.length_drop] at hfit ⊢
    omega

theorem strcpy_ok (buf x : List Char) (p : Nat) (src : List Char) (hx : x <+: buf)
    (hp : p ≤ x.length) (hfit : p + (cstr src).length + 1 ≤ buf.length) :
    ∃ b, strcpy buf p src = some b ∧ (x.take p ++ cstr src ++ [NUL]) <+: b ∧
      b.length = buf.length := by
  have := store_ok buf x p (cstr src ++ [NUL]) hx hp
    (by simp only [List.length_append, List.length_singleton]; omega)
  simpa only [strcpy, List.append_assoc] using this

theorem strncpy_ok (buf x : List Char) (p : Nat) (src : List Char) (n : Nat) (hx : x <+: buf)
    (hp : p ≤ x.length) (hfit : p + n ≤ buf.length) :
    ∃ b, strncpy buf p src n = some b ∧
      (x.take p ++ (cstr src).take n ++ List.replicate (n - (cstr src).length) NUL) <+: b ∧
      b.length = buf.length := by
  have := store_ok buf x p ((cstr src).take n ++ List.replicate (n - (cstr src).length) NUL)
    hx hp (by
      simp only [List.length_append, List.length_take, List.length_replicate]; omega)
  simpa only [strncpy, List.append_assoc] using this

/-- What `Writen(sockfd, buf, strlen(buf))` sends when `buf` starts with a
string and its NUL. -/
theorem writen_strlen (sink buf content : List Char) (h : (content ++ [NUL]) <+: buf)
    (hn : NUL ∉ content) : Writen sink buf (strlen buf) = sink ++ content := by
  obtain ⟨t, rfl⟩ := h
  have hc : cstr (content ++ [NUL] ++ t) = content := by
    simpa using cstr_append_nul content t hn
  simp only [Writen, strlen, hc]
  congr 1
  simp [List.take_append_of_le_length]

theorem take_strlen (b : List Char) : b.take (strlen b) = cstr b := by
  induction b with
  | nil => rfl
  | cons c t ih =>
    by_cases hc : c = NUL
    · simp [strlen, cstr, hc]
    · have hs : strlen (c :: t) = strlen t + 1 := by
        simp only [strlen, cstr, hc, if_false, List.length_cons]
      rw [hs, List.take_succ_cons, ih]
      simp only [cstr, hc, if_false]

/-- What `Writen(sockfd, buf, strlen(buf))` sends: the C string in `buf`. -/
theorem writen_cstr (sink b : List Char) : Writen sink b (strlen b) = sink ++ cstr b := by
  simp only [Writen, take_strlen]

theorem cstr_append_left (a r : List Char) (h : NUL ∉ a) : cstr (a ++ r) = a ++ cstr r := by
  induction a with
  | nil => rfl
  | cons c t ih =>
    simp only [List.mem_cons, not_or] at h
    have hc : ¬ c = NUL := fun e => h.1 e.symm
    simp only [List.cons_append, cstr, hc, if_false, List.append_eq, ih h.2]

/-- The array `domain` holds the host name, cut to `DOMAIN_MAXLEN` bytes. -/
theorem cstr_gethostname (D : Nat) (host : List Char) :
    cstr (gethostname D host) = (cstr host).take D := by
  unfold gethostname
  by_cases h : (cstr host).length < D
  · have ht : (cstr host ++ [NUL]).take D = cstr host ++ [NUL] :=
      List.take_of_length_le (by simp only [List.length_append, List.length_singleton]; omega)
    simp only [ht, List.append_assoc, List.singleton_append]
    rw [cstr_append_nul _ _ (cstr_no_nul host), List.take_of_length_le (by omega)]
  · have ht : (cstr host ++ [NUL]).take D = (cstr host).take D :=
      List.take_append_of_le_length (by omega)
    have hl : ((cstr host).take D).length = D := by simp only [List.length_take]; omega
    simp only [ht, hl, List.drop_replicate, Nat.sub_self, List.replicate_zero, List.append_nil]
    exact cstr_take host D

/-- The three steps that build a line with one argument: the keyword, the
argument cut to `n` bytes, the closing bytes; and what `Writen` then sends. -/
theorem line_with_argument (sink buf head field tail : List Char) (n : Nat)
    (hhead : NUL ∉ head) (htail : NUL ∉ tail)
    (hfit1 : head.length + n ≤ buf.length)
    (hfit2 : head.length + min n (strlen field) + tail.length + 1 ≤ buf.length) :
    ∃ b1 b2 b3, strcpy buf 0 head = some b1 ∧ strncpy b1 head.length field n = some b2 ∧
      strcpy b2 (head.length + min n (strlen field)) tail = some b3 ∧
      b3.length = buf.length ∧
      Writen sink b3 (strlen b3) = sink ++ (head ++ (cstr field).take n ++ tail) := by
  have hch := cstr_of_no_nul head hhead
  have hct := cstr_of_no_nul tail htail
  obtain ⟨b1, h1, p1, l1⟩ := strcpy_ok buf [] 0 head List.nil_prefix (le_refl _)
    (by rw [hch]; omega)
  simp only [List.take_nil, List.nil_append, hch] at p1
  obtain ⟨b2, h2, p2, l2⟩ := strncpy_ok b1 (head ++ [NUL]) head.length field n p1
    (by simp) (by omega)
  rw [List.take_left'  rfl] at p2
  obtain ⟨b3, h3, p3, l3⟩ := strcpy_ok b2 _ (head.length + min n (strlen field)) tail p2
    (by
      simp only [List.length_append, List.length_take, List.length_replicate, strlen]
      omega)
    (by rw [hct]; omega)
  have ht : (head ++ (cstr field).take n ++ List.replicate (n - (cstr field).length) NUL).take
      (head.length + min n (strlen field)) = head ++ (cstr field).take n := by
    rw [List.take_left']
    simp [strlen]
  rw [ht, hct] at p3
  refine ⟨b1, b2, b3, h1, h2, h3, by omega, ?_⟩
  apply writen_strlen _ _ _ p3
  simp only [List.mem_append, not_or]
  exact ⟨⟨hhead, not_mem_take n (cstr_no_nul field)⟩, htail⟩

theorem cstr_all_nul (l : List Char) (h : ∀ c ∈ l, c = NUL) : cstr l = [] := by
  cases l with
  | nil => rfl
  | cons c t => simp [cstr, h c (List.mem_cons_self _ _)]

/-- The array `domain` holds a NUL exactly when the host name is shorter than
the array. -/
theorem nul_mem_gethostname (D : Nat) (host : List Char) :
    NUL ∈ gethostname D host ↔ (cstr host).length < D := by
  unfold gethostname
  by_cases h : (cstr host).length < D
  · have ht : (cstr host ++ [NUL]).take D = cstr host ++ [NUL] :=
      List.take_of_length_le (by simp only [List.length_append, List.length_singleton]; omega)
    simp [ht, h]
  · have ht : (cstr host ++ [NUL]).take D = (cstr host).take D :=
      List.take_append_of_le_length (by omega)
    have hl : ((cstr host).take D).length = D := by simp only [List.length_take]; omega
    simp only [ht, hl, List.drop_replicate, Nat.sub_self, List.replicate_zero, List.append_nil,
      h, iff_false]
    exact not_mem_take D (cstr_no_nul host)

/-- The two steps that come before the length of the argument is taken: the
keyword and, when the argument fills its field, its first `n` bytes are in the
array; what follows them is what the array held, nothing when it held NULs. -/
theorem line_unterminated (sink buf head field : List Char) (n : Nat)
    (hhead : NUL ∉ head) (hfit : head.length + n ≤ buf.length)
    (hfit1 : head.length + 1 ≤ buf.length) (hfield : n ≤ (cstr field).length) :
    ∃ b1 b2 rest, strcpy buf 0 head = some b1 ∧ strncpy b1 head.length field n = some b2 ∧
      Writen sink b2 (strlen b2) = sink ++ (head ++ (cstr field).take n ++ rest) ∧
      ((∀ c ∈ buf, c = NUL) → rest = []) := by
  have hch := cstr_of_no_nul head hhead
  have hl1 : (head ++ [NUL] ++ buf.drop (head.length + 1)).length = buf.length := by
    simp only [List.length_append, List.length_singleton, List.length_drop]; omega
  have h1 : strcpy buf 0 head = some (head ++ [NUL] ++ buf.drop (head.length + 1)) := by
    have hc : 0 + (head ++ [NUL]).length ≤ buf.length := by
      simp only [List.length_append, List.length_singleton]; omega
    simp only [strcpy, store, hch, hc, hfit1, if_true, List.take_zero, List.nil_append,
      List.length_append, List.length_singleton, Nat.zero_add]
  have hrep : List.replicate (n - (cstr field).length) NUL = [] := by
    rw [Nat.sub_eq_zero_of_le hfield]; rfl
  have htl : ((cstr field).take n).length = n := by
    simp only [List.length_take]; omega
  have h2 : strncpy (head ++ [NUL] ++ buf.drop (head.length + 1)) head.length field n =
      some (head ++ (cstr field).take n ++
        ([NUL] ++ buf.drop (head.length + 1)).drop n) := by
    have hc : head.length + ((cstr field).take n ++ ([] : List Char)).length ≤
        (head ++ [NUL] ++ buf.drop (head.length + 1)).length := by
      rw [hl1, List.append_nil, htl]; exact hfit
    have hta : (head ++ [NUL] ++ buf.drop (head.length + 1)).take head.length = head := by
      rw [List.append_assoc, List.take_left' rfl]
    have hdr : (head ++ [NUL] ++ buf.drop (head.length + 1)).drop (head.length + n) =
        ([NUL] ++ buf.drop (head.length + 1)).drop n := by
      rw [List.append_assoc, List.drop_append]
    simp only [strncpy, store, hrep, List.append_nil, htl, hta, hdr]
    rw [if_pos (by rw [hl1]; exact hfit)]
  refine ⟨_, _, cstr (([NUL] ++ buf.drop (head.length + 1)).drop n), h1, h2, ?_, ?_⟩
  · rw [writen_cstr, cstr_append_left _ _ (by
      simp only [List.mem_append, not_or]
      exact ⟨hhead, not_mem_take n (cstr_no_nul field)⟩)]
  · intro hall
    apply cstr_all_nul
    intro c hc
    have hm := List.mem_of_mem_drop hc
    simp only [List.singleton_append, List.mem_cons] at hm
    rcases hm with rfl | hm
    · rfl
    · exact hall c (List.mem_of_mem_drop hm)

theorem auto_array_nul (size : Nat) (junk : Nat → Char) (h : ∀ i, junk i = NUL) :
    ∀ c ∈ auto_array size junk, c = NUL := by
  intro c hc
  simp only [auto_array, List.mem_map] at hc
  obtain ⟨i, _, rfl⟩ := hc
  exact h i

/-! ## Proofs: the command encoder -/

theorem rcpt_loop_bytes (A : Nat) (rcpts : List (List Char)) :
    ∀ (cmd_line sink : List Char), A + 13 ≤ cmd_line.length →
      rcpt_loop A rcpts cmd_line sink =
        some (sink ++ flat (rcpts.map
          (fun r => "RCPT TO:<".toList ++ (cstr r).take A ++ '>' :: CRLF))) := by
  induction rcpts with
  | nil => intro cmd_line sink _; simp [rcpt_loop, flat]
  | cons r more ih =>
    intro cmd_line sink hfit
    obtain ⟨b1, b2, b3, h1, h2, h3, hl, hw⟩ :=
      line_with_argument sink cmd_line "RCPT TO:<".toList r ('>' :: CRLF) A
        (by decide) (by decide)
        (by simp only [String.toList, String.length_data]; show 9 + A ≤ _; omega)
        (by
          have e1 : "RCPT TO:<".toList.length = 9 := rfl
          have e2 : ('>' :: CRLF).length = 3 := rfl
          rw [e1, e2]; omega)
    have e1 : "RCPT TO:<".toList.length = 9 := rfl
    rw [e1] at h2 h3
    simp only [rcpt_loop, h1, h2, h3, Option.bind_eq_bind, Option.some_bind, hw]
    rw [ih b3 _ (by omega)]
    simp [flat, List.append_assoc]

theorem send_keyword_bytes (cmd_line sink keyword : List Char) (hk : NUL ∉ keyword)
    (hfit : keyword.length + 3 ≤ cmd_line.length) :
    send_keyword cmd_line sink keyword = some (0, sink ++ (keyword ++ CRLF)) := by
  have hn : NUL ∉ keyword ++ CRLF := by
    simp only [List.mem_append, not_or]
    exact ⟨hk, by decide⟩
  obtain ⟨b, h1, p1, _⟩ := strcpy_ok cmd_line [] 0 (keyword ++ CRLF) List.nil_prefix (le_refl _)
    (by
      rw [cstr_of_no_nul _ hn]
      simp only [List.length_append, CRLF, List.length_cons, List.length_nil]; omega)
  simp only [List.take_nil, List.nil_append, cstr_of_no_nul _ hn] at p1
  simp only [send_keyword, h1, Option.bind_eq_bind, Option.some_bind, writen_strlen _ _ _ p1 hn]
  rfl

theorem greeting_bytes (L D A : Nat) (host : List Char) (junk : Nat → Char)
    (sink : List Char) (mail : Option mail_object) (hD : D + 8 ≤ L)
    (hlt : (cstr host).length < D) :
    smtp_send_command L D A host junk sink Command.EHLO mail =
      some (0, sink ++ ("EHLO ".toList ++ (cstr host).take D ++ CRLF)) ∧
    smtp_send_command L D A host junk sink Command.HELO mail =
      some (0, sink ++ ("HELO ".toList ++ (cstr host).take D ++ CRLF)) := by
  have hlen := auto_array_length L junk
  have hs : strlen (gethostname D host) = ((cstr host).take D).length := by
    rw [strlen, cstr_gethostname]
  have ht : (cstr (gethostname D host)).take D = (cstr host).take D := by
    rw [cstr_gethostname, List.take_take, min_self]
  have hnul := (nul_mem_gethostname D host).mpr hlt
  constructor
  · obtain ⟨b1, b2, b3, h1, h2, h3, _, hw⟩ :=
      line_with_argument sink (auto_array L junk) "EHLO ".toList (gethostname D host) CRLF D
        (by decide) (by decide) (by rw [hlen]; show 5 + D ≤ _; omega)
        (by rw [hlen]; show 5 + min D _ + 2 + 1 ≤ _; omega)
    have e1 : "EHLO ".toList.length = 5 := rfl
    rw [e1] at h2 h3
    simp only [smtp_send_command, if_true, h1, h2, h3, Option.bind_eq_bind, Option.some_bind, hw,
      ht, if_pos hnul]
    rfl
  · obtain ⟨b1, b2, b3, h1, h2, h3, _, hw⟩ :=
      line_with_argument sink (auto_array L junk) "HELO ".toList (gethostname D host) CRLF D
        (by decide) (by decide) (by rw [hlen]; show 5 + D ≤ _; omega)
        (by rw [hlen]; show 5 + min D _ + 2 + 1 ≤ _; omega)
    have e1 : "HELO ".toList.length = 5 := rfl
    rw [e1] at h2 h3
    have hne : ¬ Command.HELO = Command.EHLO := by decide
    simp only [smtp_send_command, hne, if_false, h1, h2, h3, Option.bind_eq_bind,
      Option.some_bind, hw, ht, if_pos hnul]
    rfl

/-- EHLO and HELO with a host name that fills `domain`: the call returns 0 and
sends the keyword and the first `DOMAIN_MAXLEN` bytes of the name, followed by
what `cmd_line` holds behind them, nothing when it held NULs. -/
theorem greeting_unterminated (L D A : Nat) (host : List Char) (junk : Nat → Char)
    (sink : List Char) (mail : Option mail_object) (hD : D + 8 ≤ L)
    (hfull : D ≤ (cstr host).length) :
    (∃ rest, smtp_send_command L D A host junk sink Command.EHLO mail =
        some (0, sink ++ ("EHLO ".toList ++ (cstr host).take D ++ rest)) ∧
      ((∀ i, junk i = NUL) → rest = [])) ∧
    (∃ rest, smtp_send_command L D A host junk sink Command.HELO mail =
        some (0, sink ++ ("HELO ".toList ++ (cstr host).take D ++ rest)) ∧
      ((∀ i, junk i = NUL) → rest = [])) := by
  have hlen := auto_array_length L junk
  have ht : (cstr (gethostname D host)).take D = (cstr host).take D := by
    rw [cstr_gethostname, List.take_take, min_self]
  have hnul : NUL ∉ gethostname D host := fun h =>
    absurd ((nul_mem_gethostname D host).mp h) (by omega)
  have hfield : D ≤ (cstr (gethostname D host)).length := by
    rw [cstr_gethostname, List.length_take]; omega
  constructor
  · obtain ⟨b1, b2, rest, h1, h2, hw, hr⟩ :=
      line_unterminated sink (auto_array L junk) "EHLO ".toList (gethostname D host) D
        (by decide) (by rw [hlen]; show 5 + D ≤ _; omega) (by rw [hlen]; show 5 + 1 ≤ _; omega)
        hfield
    have e1 : "EHLO ".toList.length = 5 := rfl
    rw [e1] at h2
    refine ⟨rest, ?_, fun hj => hr (auto_array_nul L junk hj)⟩
    simp only [smtp_send_command, if_true, h1, h2, Option.bind_eq_bind, Option.some_bind, hw,
      ht, if_neg hnul]
    rfl
  · obtain ⟨b1, b2, rest, h1, h2, hw, hr⟩ :=
      line_unterminated sink (auto_array L junk) "HELO ".toList (gethostname D host) D
        (by decide) (by rw [hlen]; show 5 + D ≤ _; omega) (by rw [hlen]; show 5 + 1 ≤ _; omega)
        hfield
    have e1 : "HELO ".toList.length = 5 := rfl
    rw [e1] at h2
    have hne : ¬ Command.HELO = Command.EHLO := by decide
    refine ⟨rest, ?_, fun hj => hr (auto_array_nul L junk hj)⟩
    simp only [smtp_send_command, hne, if_false, h1, h2, Option.bind_eq_bind, Option.some_bind,
      hw, ht, if_neg hnul]
    rfl

/-- EHLO and HELO return 0 whatever the host name. -/
theorem greeting_total (L D A : Nat) (host : List Char) (junk : Nat → Char)
    (sink : List Char) (mail : Option mail_object) (hD : D + 8 ≤ L) :
    (∃ out, smtp_send_command L D A host junk sink Command.EHLO mail = some (0, out)) ∧
    (∃ out, smtp_send_command L D A host junk sink Command.HELO mail = some (0, out)) := by
  by_cases hlt : (cstr host).length < D
  · have hg := greeting_bytes L D A host junk sink mail hD hlt
    exact ⟨⟨_, hg.1⟩, ⟨_, hg.2⟩⟩
  · obtain ⟨⟨r1, h1, _⟩, ⟨r2, h2, _⟩⟩ :=
      greeting_unterminated L D A host junk sink mail hD (by omega)
    exact ⟨⟨_, h1⟩, ⟨_, h2⟩⟩

theorem mail_bytes (L D A : Nat) (host : List Char) (junk : Nat → Char)
    (sink : List Char) (mail : mail_object) (hA : A + 15 ≤ L) :
    smtp_send_command L D A host junk sink Command.MAIL (some mail) =
      some (0, sink ++ ("MAIL FROM:<".toList ++ (cstr mail.mail_from).take A ++ '>' :: CRLF)) := by
  have hlen := auto_array_length L junk
  obtain ⟨b1, b2, b3, h1, h2, h3, _, hw⟩ :=
    line_with_argument sink (auto_array L junk) "MAIL FROM:<".toList mail.mail_from
      ('>' :: CRLF) A (by decide) (by decide) (by rw [hlen]; show 11 + A ≤ _; omega)
      (by rw [hlen]; show 11 + min A _ + 3 + 1 ≤ _; omega)
  have e1 : "MAIL FROM:<".toList.length = 11 := rfl
  rw [e1] at h2 h3
  simp only [smtp_send_command, h1, h2, h3, Option.bind_eq_bind, Option.some_bind, hw]
  rfl

theorem rcpt_bytes (L D A : Nat) (host : List Char) (junk : Nat → Char)
    (sink : List Char) (mail : mail_object) (hA : A + 13 ≤ L) :
    smtp_send_command L D A host junk sink Command.RCPT (some mail) =
      some (0, sink ++ flat (mail.rcpt_to.map
        (fun r => "RCPT TO:<".toList ++ (cstr r).take A ++ '>' :: CRLF))) := by
  have hlen := auto_array_length L junk
  simp only [smtp_send_command, rcpt_loop_bytes A mail.rcpt_to _ sink (by rw [hlen]; omega),
    Option.bind_eq_bind, Option.some_bind]
  rfl

theorem keyword_bytes (L D A : Nat) (host : List Char) (junk : Nat → Char)
    (sink : List Char) (mail : Option mail_object) (hL : 7 ≤ L) :
    smtp_send_command L D A host junk sink Command.DATA mail =
      some (0, sink ++ ("DATA".toList ++ CRLF)) ∧
    smtp_send_command L D A host junk sink Command.RSET mail =
      some (0, sink ++ ("RSET".toList ++ CRLF)) ∧
    smtp_send_command L D A host junk sink Command.NOOP mail =
      some (0, sink ++ ("NOOP".toList ++ CRLF)) ∧
    smtp_send_command L D A host junk sink Command.QUIT mail =
      some (0, sink ++ ("QUIT".toList ++ CRLF)) := by
  have hlen := auto_array_length L junk
  refine ⟨?_, ?_, ?_, ?_⟩ <;>
  · simp only [smtp_send_command]
    exact send_keyword_bytes _ sink _ (by decide) (by rw [hlen]; show 4 + 3 ≤ _; omega)

/-! ## Proofs: the reply encoder -/

theorem switch_head_facts (code : ReplyCode) (h : code.known = true) :
    NUL ∉ switch_head code ∧ 4 ≤ (switch_head code).length ∧
      (switch_head code).length ≤ 5 := by
  cases code with
  | other v => simp [ReplyCode.known] at h
  | _ => decide

theorem reply_switch_some (L D : Nat) (host : List Char) (junk : Nat → Char)
    (sink : List Char) (code : ReplyCode) (m : List Char) (h : code.known = true) :
    reply_switch L D host junk sink code (some m) =
      reply_head (auto_array L junk) (switch_head code) := by
  cases code with
  | other v => simp [ReplyCode.known] at h
  | _ => rfl

/-- With a header in place and `msg_len` not below the length of the message,
the code after the `switch` sends the four bytes of the header, the message
cut to `LINE_MAXLEN - 7` bytes and CR LF. -/
theorem reply_message_bytes (L : Nat) (buf sink head m : List Char) (msg_len : Nat)
    (hL : 7 ≤ L) (hbuf : buf.length = L) (hpre : (head ++ [NUL]) <+: buf)
    (hhead : NUL ∉ head) (h4 : 4 ≤ head.length) (hlen : strlen m ≤ msg_len) :
    reply_message L buf sink m msg_len =
      some (0, sink ++ (head.take 4 ++ (cstr m).take (L - 7) ++ CRLF)) := by
  have hcount : (cstr m).take (min msg_len (L - 4 - 3)) = (cstr m).take (L - 7) := by
    unfold strlen at hlen
    by_cases hc : msg_len ≤ L - 4 - 3
    · rw [min_eq_left hc, List.take_of_length_le hlen, List.take_of_length_le (by omega)]
    · rw [min_eq_right (by omega)]
      congr 1
  obtain ⟨b2, h2, p2, l2⟩ := strncpy_ok buf (head ++ [NUL]) 4 m (min msg_len (L - 4 - 3)) hpre
    (by simp only [List.length_append, List.length_singleton]; omega)
    (by have := min_le_right msg_len (L - 4 - 3); omega)
  have ht4 : (head ++ [NUL]).take 4 = head.take 4 := List.take_append_of_le_length h4
  rw [ht4, hcount] at p2
  have hl4 : (head.take 4).length = 4 := by simp only [List.length_take]; omega
  have hpos : 4 + min (L - 4 - 3) (strlen m) = (head.take 4 ++ (cstr m).take (L - 7)).length := by
    simp only [List.length_append, hl4, List.length_take, strlen]
    omega
  obtain ⟨b3, h3, p3, _⟩ := strcpy_ok b2 _ (4 + min (L - 4 - 3) (strlen m)) CRLF p2
    (by
      rw [hpos]
      simp only [List.length_append, List.length_take, List.length_replicate]
      omega)
    (by
      have : (cstr CRLF).length = 2 := rfl
      have := min_le_left (L - 4 - 3) (strlen m)
      omega)
  have hcr : cstr CRLF = CRLF := rfl
  rw [hpos, List.take_left' rfl, hcr] at p3
  simp only [reply_message, h2, h3, Option.bind_eq_bind, Option.some_bind]
  rw [writen_strlen sink b3 _ p3 (by
    simp only [List.mem_append, not_or]
    exact ⟨⟨not_mem_take 4 hhead, not_mem_take _ (cstr_no_nul m)⟩, by decide⟩)]
  rfl

/-- The code after the `switch` returns 0 for every message and every
`msg_len`, without overrunning `rply_line`. -/
theorem reply_message_total (L : Nat) (buf sink m : List Char) (msg_len : Nat)
    (hL : 7 ≤ L) (hbuf : buf.length = L) :
    ∃ out, reply_message L buf sink m msg_len = some (0, out) := by
  obtain ⟨b2, h2, _, l2⟩ := strncpy_ok buf (buf.take 4) 4 m (min msg_len (L - 4 - 3))
    (List.take_prefix _ _) (by simp only [List.length_take]; omega)
    (by have := min_le_right msg_len (L - 4 - 3); omega)
  have hle := min_le_left (L - 4 - 3) (strlen m)
  obtain ⟨b3, h3, _, _⟩ := strcpy_ok b2 (b2.take (4 + min (L - 4 - 3) (strlen m)))
    (4 + min (L - 4 - 3) (strlen m)) CRLF (List.take_prefix _ _)
    (by simp only [List.length_take]; omega)
    (by
      have : (cstr CRLF).length = 2 := rfl
      omega)
  exact ⟨_, by simp only [reply_message, h2, h3, Option.bind_eq_bind, Option.some_bind]; rfl⟩

/-- Whatever the message and `msg_len`, what the code after the `switch` sends
starts with the first four bytes of the header. -/
theorem reply_message_header (L : Nat) (buf sink head m : List Char) (msg_len : Nat)
    (hL : 7 ≤ L) (hbuf : buf.length = L) (hpre : (head ++ [NUL]) <+: buf)
    (hhead : NUL ∉ head) (h4 : 4 ≤ head.length) :
    ∃ rest, reply_message L buf sink m msg_len = some (0, sink ++ (head.take 4 ++ rest)) := by
  have hpre4 : head.take 4 <+: buf :=
    (List.take_prefix 4 head).trans ((List.prefix_append head [NUL]).trans hpre)
  have hl4 : (head.take 4).length = 4 := by simp only [List.length_take]; omega
  obtain ⟨b2, h2, p2, l2⟩ := strncpy_ok buf (head.take 4) 4 m (min msg_len (L - 4 - 3)) hpre4
    (by omega) (by have := min_le_right msg_len (L - 4 - 3); omega)
  have hle := min_le_left (L - 4 - 3) (strlen m)
  have hq : head.take 4 <+: b2 := by
    rw [List.take_take, min_self, List.append_assoc] at p2
    exact (List.prefix_append _ _).trans p2
  obtain ⟨t2, ht2⟩ := hq
  obtain ⟨b3, h3, p3, _⟩ := strcpy_ok b2 (b2.take (4 + min (L - 4 - 3) (strlen m)))
    (4 + min (L - 4 - 3) (strlen m)) CRLF (List.take_prefix _ _)
    (by simp only [List.length_take]; omega)
    (by
      have : (cstr CRLF).length = 2 := rfl
      omega)
  have hb3 : head.take 4 <+: b3 := by
    have h1 : head.take 4 <+: b2.take (4 + min (L - 4 - 3) (strlen m)) := by
      rw [← ht2, List.take_append_eq_append_take, hl4]
      have : List.take (4 + min (L - 4 - 3) (strlen m)) (List.take 4 head) = List.take 4 head :=
        List.take_of_length_le (by omega)
      rw [this]
      exact List.prefix_append _ _
    rw [List.take_take, min_self, List.append_assoc] at p3
    exact h1.trans ((List.prefix_append _ _).trans p3)
  obtain ⟨t3, ht3⟩ := hb3
  refine ⟨cstr t3, ?_⟩
  simp only [reply_message, h2, h3, Option.bind_eq_bind, Option.some_bind, writen_cstr]
  rw [← ht3, cstr_append_left _ _ (not_mem_take 4 hhead)]
  rfl

theorem reply_head_ok (buf head : List Char) (hhead : NUL ∉ head)
    (hfit : head.length + 1 ≤ buf.length) :
    ∃ b, reply_head buf head = some (Switch.broke b) ∧ (head ++ [NUL]) <+: b ∧
      b.length = buf.length := by
  obtain ⟨b, h1, p1, l1⟩ := strcpy_ok buf [] 0 head List.nil_prefix (le_refl _)
    (by rw [cstr_of_no_nul _ hhead]; omega)
  simp only [List.take_nil, List.nil_append, cstr_of_no_nul _ hhead] at p1
  exact ⟨b, by simp only [reply_head, h1, Option.bind_eq_bind, Option.some_bind]; rfl, p1, l1⟩

theorem reply_default_bytes (buf sink text : List Char) (htext : NUL ∉ text)
    (hfit : text.length + 1 ≤ buf.length) :
    reply_default buf sink text = some (Switch.returned 0 (sink ++ text)) := by
  obtain ⟨b, h1, p1, _⟩ := strcpy_ok buf [] 0 text List.nil_prefix (le_refl _)
    (by rw [cstr_of_no_nul _ htext]; omega)
  simp only [List.take_nil, List.nil_append, cstr_of_no_nul _ htext] at p1
  simp only [reply_default, h1, Option.bind_eq_bind, Option.some_bind,
    writen_strlen _ _ _ p1 htext]
  rfl

/-- A known code with a message: the call returns 0, and when `msg_len` is not
below the length of the message the bytes sent are the first four bytes of the
literal of the case, the message cut to `LINE_MAXLEN - 7` bytes and CR LF. -/
theorem send_reply_with_message (L D : Nat) (host : List Char) (junk : Nat → Char)
    (sink : List Char) (code : ReplyCode) (m : List Char) (msg_len : Nat)
    (hL : 7 ≤ L) (hcode : code.known = true) :
    (∃ out, smtp_send_reply L D host junk sink code (some m) msg_len = some (0, out)) ∧
    (strlen m ≤ msg_len →
      smtp_send_reply L D host junk sink code (some m) msg_len =
        some (0, sink ++ ((switch_head code).take 4 ++ (cstr m).take (L - 7) ++ CRLF))) := by
  obtain ⟨hn, h4, h5⟩ := switch_head_facts code hcode
  have hlen := auto_array_length L junk
  obtain ⟨b, hb, hp, hl⟩ := reply_head_ok (auto_array L junk) (switch_head code) hn
    (by rw [hlen]; omega)
  have hsw := reply_switch_some L D host junk sink code m hcode
  rw [hb] at hsw
  constructor
  · obtain ⟨out, ho⟩ := reply_message_total L b sink m msg_len hL (by omega)
    exact ⟨out, by simp only [smtp_send_reply, hsw, ho]⟩
  · intro hm
    simp only [smtp_send_reply, hsw]
    exact reply_message_bytes L b sink _ m msg_len hL (by omega) hp hn h4 hm

/-- A known code with a message, whatever `msg_len`: the call returns 0 and
what it sends starts with the four bytes of the header. -/
theorem send_reply_header (L D : Nat) (host : List Char) (junk : Nat → Char)
    (sink : List Char) (code : ReplyCode) (m : List Char) (msg_len : Nat)
    (hL : 7 ≤ L) (hcode : code.known = true) :
    ∃ rest, smtp_send_reply L D host junk sink code (some m) msg_len =
      some (0, sink ++ (reply_header code ++ rest)) := by
  obtain ⟨hn, h4, h5⟩ := switch_head_facts code hcode
  have hlen := auto_array_length L junk
  obtain ⟨b, hb, hp, hl⟩ := reply_head_ok (auto_array L junk) (switch_head code) hn
    (by rw [hlen]; omega)
  have hsw := reply_switch_some L D host junk sink code m hcode
  rw [hb] at hsw
  obtain ⟨rest, hr⟩ := reply_message_header L b sink (switch_head code) m msg_len hL
    (by omega) hp hn h4
  exact ⟨rest, by simp only [smtp_send_reply, hsw, hr, reply_header]⟩

theorem reply_case_none (buf sink : List Char) (text head : String)
    (ht : NUL ∉ text.toList ++ CRLF) (hl : (text.toList ++ CRLF).length ≤ 68)
    (hb : 69 ≤ buf.length) :
    reply_case buf sink none text head =
      some (Switch.returned 0 (sink ++ (text.toList ++ CRLF))) :=
  reply_default_bytes buf sink _ ht (by omega)

theorem reply_220_default (L D : Nat) (host : List Char) (junk : Nat → Char)
    (sink : List Char) (hD : D + 21 ≤ L) (hlt : (cstr host).length < D) :
    reply_switch L D host junk sink ReplyCode.R220 none =
      some (Switch.returned 0 (sink ++ default_line D host ReplyCode.R220)) := by
  have hlen := auto_array_length L junk
  have ht : (cstr (gethostname D host)).take D = (cstr host).take D := by
    rw [cstr_gethostname, List.take_take, min_self]
  obtain ⟨b1, b2, b3, h1, h2, h3, _, hw⟩ :=
    line_with_argument sink (auto_array L junk) "220 ".toList (gethostname D host)
      (" Service ready".toList ++ CRLF) D (by decide) (by decide)
      (by rw [hlen]; show 4 + D ≤ _; omega)
      (by rw [hlen]; show 4 + min D _ + 16 + 1 ≤ _; omega)
  have e1 : "220 ".toList.length = 4 := rfl
  have e2 : cstr (" Service ready".toList ++ CRLF) = " Service ready".toList ++ CRLF :=
    cstr_of_no_nul _ (by decide)
  rw [e1] at h2 h3
  simp only [reply_switch, h1, h2, h3, Option.bind_eq_bind, Option.some_bind, hw, ht,
    if_pos ((nul_mem_gethostname D host).mpr hlt)]
  rfl

/-- R220 without message and with a host name that fills `domain`: the call
returns 0 and sends `220 ` and the first `DOMAIN_MAXLEN` bytes of the name,
followed by what `rply_line` holds behind them, nothing when it held NULs. -/
theorem reply_220_unterminated (L D : Nat) (host : List Char) (junk : Nat → Char)
    (sink : List Char) (hD : D + 21 ≤ L) (hfull : D ≤ (cstr host).length) :
    ∃ rest, reply_switch L D host junk sink ReplyCode.R220 none =
        some (Switch.returned 0 (sink ++ ("220 ".toList ++ (cstr host).take D ++ rest))) ∧
      ((∀ i, junk i = NUL) → rest = []) := by
  have hlen := auto_array_length L junk
  have ht : (cstr (gethostname D host)).take D = (cstr host).take D := by
    rw [cstr_gethostname, List.take_take, min_self]
  have hnul : NUL ∉ gethostname D host := fun h =>
    absurd ((nul_mem_gethostname D host).mp h) (by omega)
  have hfield : D ≤ (cstr (gethostname D host)).length := by
    rw [cstr_gethostname, List.length_take]; omega
  obtain ⟨b1, b2, rest, h1, h2, hw, hr⟩ :=
    line_unterminated sink (auto_array L junk) "220 ".toList (gethostname D host) D
      (by decide) (by rw [hlen]; show 4 + D ≤ _; omega) (by rw [hlen]; show 4 + 1 ≤ _; omega)
      hfield
  have e1 : "220 ".toList.length = 4 := rfl
  rw [e1] at h2
  refine ⟨rest, ?_, fun hj => hr (auto_array_nul L junk hj)⟩
  simp only [reply_switch, h1, h2, Option.bind_eq_bind, Option.some_bind, hw, ht, if_neg hnul]
  rfl

/-- A known code other than R250E without message: the call returns 0 and
sends the default line of the code; for R220 when the host name leaves room
for its NUL in `domain`. -/
theorem send_reply_default (L D : Nat) (host : List Char) (junk : Nat → Char)
    (sink : List Char) (code : ReplyCode) (msg_len : Nat)
    (hL : 69 ≤ L) (hD : D + 21 ≤ L) (hcode : code.known = true)
    (hE : code ≠ ReplyCode.R250E)
    (hlt : code = ReplyCode.R220 → (cstr host).length < D) :
    smtp_send_reply L D host junk sink code none msg_len =
      some (0, sink ++ default_line D host code) := by
  have hlen : 69 ≤ (auto_array L junk).length := by rw [auto_array_length]; exact hL
  cases code with
  | other v => simp [ReplyCode.known] at hcode
  | R250E => exact absurd rfl hE
  | R220 => simp only [smtp_send_reply, reply_220_default L D host junk sink hD (hlt rfl)]
  | _ =>
    simp only [smtp_send_reply, reply_switch]
    rw [reply_case_none _ _ _ _ ?_ ?_ hlen]
    · rfl
    · decide
    · decide

/-- A known code other than R250E without message: the call returns 0,
whatever the host name. -/
theorem send_reply_default_total (L D : Nat) (host : List Char) (junk : Nat → Char)
    (sink : List Char) (code : ReplyCode) (msg_len : Nat)
    (hL : 69 ≤ L) (hD : D + 21 ≤ L) (hcode : code.known = true)
    (hE : code ≠ ReplyCode.R250E) :
    ∃ out, smtp_send_reply L D host junk sink code none msg_len = some (0, out) := by
  by_cases hlt : code = ReplyCode.R220 → (cstr host).length < D
  · exact ⟨_, send_reply_default L D host junk sink code msg_len hL hD hcode hE hlt⟩
  · have h220 : code = ReplyCode.R220 := by
      by_contra hne
      exact hlt (fun e => absurd e hne)
    have hfull : D ≤ (cstr host).length := by
      by_contra hc
      exact hlt (fun _ => by omega)
    subst h220
    obtain ⟨rest, hr, _⟩ := reply_220_unterminated L D host junk sink hD hfull
    exact ⟨sink ++ ("220 ".toList ++ (cstr host).take D ++ rest),
      by simp only [smtp_send_reply, hr]⟩

/-! ## Proofs: encoder output fed to the reader -/

theorem hasCRLF_of_no_CR (l : List Char) (h : CR ∉ l) : hasCRLF l = false := by
  induction l with
  | nil => rfl
  | cons a t ih =>
    simp only [List.mem_cons, not_or] at h
    cases t with
    | nil => rfl
    | cons b u =>
      have ha : (a == CR) = false := by
        simp only [beq_eq_false_iff_ne, ne_eq]
        exact fun e => h.1 e.symm
      show ((a == CR && b == LF) || hasCRLF (b :: u)) = false
      rw [ha, ih h.2]; rfl

theorem hasCRLF_append_of_no_CR (hdr x : List Char) (h : CR ∉ hdr) :
    hasCRLF (hdr ++ x) = hasCRLF x := by
  induction hdr with
  | nil => rfl
  | cons a t ih =>
    simp only [List.mem_cons, not_or] at h
    have ha : (a == CR) = false := by
      simp only [beq_eq_false_iff_ne, ne_eq]
      exact fun e => h.1 e.symm
    rw [← ih h.2, List.cons_append]
    cases t ++ x with
    | nil => rfl
    | cons b u =>
      show ((a == CR && b == LF) || hasCRLF (b :: u)) = hasCRLF (b :: u)
      rw [ha]; rfl

/-- One line and its terminator, however cut into reads, is delivered by the
first call; the second call meets the end of the stream. -/
theorem read_single_line (L maxlen : Nat) (l : List Char) (chunks : List (List Char))
    (st : BufState) (hL : 0 < L) (hno : hasCRLF l = false) (hlen : l.length + 3 ≤ maxlen)
    (hchunks : ∀ c ∈ chunks, c ≠ []) (hcut : flat chunks = l ++ CRLF)
    (hst : st.read_cnt ≤ 0) :
    read_lines L [maxlen, maxlen] st (chunked chunks) =
      [(((l.length + 2 : Nat) : Int), l), (0, [])] := by
  rw [read_lines_eq_scan_lines L hL, items_chunked chunks st hchunks hst, hcut]
  have h1 := scan_line l (maxlen - 1) 1 [] [] (by omega) hno
  simp only [List.append_nil, List.nil_append] at h1
  obtain ⟨k, hk⟩ : ∃ k, maxlen - 1 = k + 1 := ⟨maxlen - 2, by omega⟩
  simp only [scan_lines, h1]
  rw [hk]
  simp only [scan, if_true]
  congr 3
  omega

/-- A run of `maxlen - 2` bytes and its terminator is not delivered whole: the
call stops on its bound with the CR stored and the LF unread. -/
theorem read_overlong_line (L maxlen : Nat) (body : List Char) (chunks : List (List Char))
    (st : BufState) (hL : 0 < L) (hno : hasCRLF body = false)
    (hlen : body.length + 2 = maxlen)
    (hchunks : ∀ c ∈ chunks, c ≠ []) (hcut : flat chunks = body ++ CRLF)
    (hst : st.read_cnt ≤ 0) :
    read_lines L [maxlen] st (chunked chunks) = [((maxlen : Int), body ++ [CR])] := by
  rw [read_lines_eq_scan_lines L hL, items_chunked chunks st hchunks hst, hcut]
  have hsplit : (body ++ CRLF).map Item.byte = (body ++ [CR]).map Item.byte ++ [Item.byte LF] := by
    simp [CRLF]
  have hcr : CR ≠ LF := by decide
  have h1 := scan_full (body ++ [CR]) 1 [] [Item.byte LF] (hasCRLF_append_singleton hno hcr)
  have hl : (body ++ [CR]).length = maxlen - 1 := by
    simp only [List.length_append, List.length_singleton]; omega
  rw [hl] at h1
  simp only [scan_lines, hsplit, h1, List.nil_append]
  congr 3
  omega

/-! ## The claims on the encoders -/

/-- C6 (the code departs from it for a host name of `DOMAIN_MAXLEN` bytes): for
every command among EHLO, HELO, MAIL, RCPT (one recipient), DATA, RSET, NOOP and
QUIT, with sender and recipient free of CR and LF and of at most `ADDR_MAXLEN`
bytes and a host name free of CR and LF and shorter than `DOMAIN_MAXLEN`,
`smtp_send_command` returns 0 and writes the expected line and CR LF; fed to
`smtp_readline` with `maxlen = LINE_MAXLEN` on an empty read buffer, however
reads cut them, these bytes give exactly that line, which holds no CR and no
LF, and the next call returns 0 for the end of the stream.  A host name of
`DOMAIN_MAXLEN` bytes or more leaves `domain` without NUL, so that
`strlen(domain)` reads past the array: EHLO and HELO then return 0 and send the
keyword and `DOMAIN_MAXLEN` bytes of the name followed by what `cmd_line`
happens to hold behind them, and over a zeroed `cmd_line` nothing follows, no
CR LF either.  `cmd_line` is assumed large enough for the longest host name and
address line (`DOMAIN_MAXLEN + 8` and `ADDR_MAXLEN + 15` bytes), which also
makes every encoded line shorter than `LINE_MAXLEN`. -/
theorem C6_command_round_trip (LINE_MAXLEN DOMAIN_MAXLEN ADDR_MAXLEN : Nat)
    (host sender recipient : List Char) (junk : Nat → Char) (cmd : Command)
    (hD : DOMAIN_MAXLEN + 8 ≤ LINE_MAXLEN) (hA : ADDR_MAXLEN + 15 ≤ LINE_MAXLEN)
    (hcmd : cmd ∈ [Command.EHLO, Command.HELO, Command.MAIL, Command.RCPT, Command.DATA,
      Command.RSET, Command.NOOP, Command.QUIT])
    (hhost : CR ∉ cstr host ∧ LF ∉ cstr host ∧ (cstr host).length < DOMAIN_MAXLEN)
    (hsender : CR ∉ cstr sender ∧ LF ∉ cstr sender ∧ (cstr sender).length ≤ ADDR_MAXLEN)
    (hrcpt : CR ∉ cstr recipient ∧ LF ∉ cstr recipient ∧
      (cstr recipient).length ≤ ADDR_MAXLEN) :
    smtp_send_command LINE_MAXLEN DOMAIN_MAXLEN ADDR_MAXLEN host junk [] cmd
        (some ⟨sender, [recipient]⟩) =
      some (0, expected_command_line (cstr host) (cstr sender) (cstr recipient) cmd ++ CRLF) ∧
    (∀ (chunks : List (List Char)) (st : BufState),
      (∀ c ∈ chunks, c ≠ []) →
      flat chunks =
        expected_command_line (cstr host) (cstr sender) (cstr recipient) cmd ++ CRLF →
      st.read_cnt ≤ 0 →
      read_lines LINE_MAXLEN [LINE_MAXLEN, LINE_MAXLEN] st (chunked chunks) =
        [((((expected_command_line (cstr host) (cstr sender) (cstr recipient) cmd).length + 2 :
            Nat) : Int),
          expected_command_line (cstr host) (cstr sender) (cstr recipient) cmd), (0, [])]) ∧
    CR ∉ expected_command_line (cstr host) (cstr sender) (cstr recipient) cmd ∧
    LF ∉ expected_command_line (cstr host) (cstr sender) (cstr recipient) cmd ∧
    (∀ (long : List Char) (held : Nat → Char) (mail : Option mail_object),
      DOMAIN_MAXLEN ≤ (cstr long).length →
      (∃ rest, smtp_send_command LINE_MAXLEN DOMAIN_MAXLEN ADDR_MAXLEN long held []
            Command.EHLO mail =
          some (0, "EHLO ".toList ++ (cstr long).take DOMAIN_MAXLEN ++ rest) ∧
        ((∀ i, held i = NUL) → rest = [])) ∧
      (∃ rest, smtp_send_command LINE_MAXLEN DOMAIN_MAXLEN ADDR_MAXLEN long held []
            Command.HELO mail =
          some (0, "HELO ".toList ++ (cstr long).take DOMAIN_MAXLEN ++ rest) ∧
        ((∀ i, held i = NUL) → rest = []))) := by
  have hth : (cstr host).take DOMAIN_MAXLEN = cstr host :=
    List.take_of_length_le (le_of_lt hhost.2.2)
  have hts : (cstr sender).take ADDR_MAXLEN = cstr sender := List.take_of_length_le hsender.2.2
  have htr : (cstr recipient).take ADDR_MAXLEN = cstr recipient :=
    List.take_of_length_le hrcpt.2.2
  have hfacts : smtp_send_command LINE_MAXLEN DOMAIN_MAXLEN ADDR_MAXLEN host junk [] cmd
        (some ⟨sender, [recipient]⟩) =
      some (0, expected_command_line (cstr host) (cstr sender) (cstr recipient) cmd ++ CRLF) ∧
      CR ∉ expected_command_line (cstr host) (cstr sender) (cstr recipient) cmd ∧
      LF ∉ expected_command_line (cstr host) (cstr sender) (cstr recipient) cmd ∧
      (expected_command_line (cstr host) (cstr sender) (cstr recipient) cmd).length + 3 ≤
        LINE_MAXLEN := by
    have hg := greeting_bytes LINE_MAXLEN DOMAIN_MAXLEN ADDR_MAXLEN host junk []
      (some ⟨sender, [recipient]⟩) hD hhost.2.2
    have hk := keyword_bytes LINE_MAXLEN DOMAIN_MAXLEN ADDR_MAXLEN host junk []
      (some ⟨sender, [recipient]⟩) (by omega)
    have hm := mail_bytes LINE_MAXLEN DOMAIN_MAXLEN ADDR_MAXLEN host junk []
      ⟨sender, [recipient]⟩ hA
    have hr := rcpt_bytes LINE_MAXLEN DOMAIN_MAXLEN ADDR_MAXLEN host junk []
      ⟨sender, [recipient]⟩ (by omega)
    have hcE : CR ∉ "EHLO ".toList ∧ LF ∉ "EHLO ".toList := by decide
    have hcH : CR ∉ "HELO ".toList ∧ LF ∉ "HELO ".toList := by decide
    have hcM : CR ∉ "MAIL FROM:<".toList ∧ LF ∉ "MAIL FROM:<".toList := by decide
    have hcR : CR ∉ "RCPT TO:<".toList ∧ LF ∉ "RCPT TO:<".toList := by decide
    have hcG : CR ∉ ">".toList ∧ LF ∉ ">".toList := by decide
    have e5 : "EHLO ".toList.length = 5 := rfl
    have e5h : "HELO ".toList.length = 5 := rfl
    have e11 : "MAIL FROM:<".toList.length = 11 := rfl
    have e9 : "RCPT TO:<".toList.length = 9 := rfl
    have e1 : ">".toList.length = 1 := rfl
    simp only [List.mem_cons, List.mem_singleton, List.not_mem_nil, or_false] at hcmd
    rcases hcmd with rfl | rfl | rfl | rfl | rfl | rfl | rfl | rfl
    · refine ⟨by rw [hg.1, hth]; rfl, ?_, ?_, ?_⟩
      · simp only [expected_command_line, List.mem_append, not_or]; exact ⟨hcE.1, hhost.1⟩
      · simp only [expected_command_line, List.mem_append, not_or]; exact ⟨hcE.2, hhost.2.1⟩
      · simp only [expected_command_line, List.length_append, e5]; omega
    · refine ⟨by rw [hg.2, hth]; rfl, ?_, ?_, ?_⟩
      · simp only [expected_command_line, List.mem_append, not_or]; exact ⟨hcH.1, hhost.1⟩
      · simp only [expected_command_line, List.mem_append, not_or]; exact ⟨hcH.2, hhost.2.1⟩
      · simp only [expected_command_line, List.length_append, e5h]; omega
    · refine ⟨?_, ?_, ?_, ?_⟩
      · rw [hm]
        simp only [hts, expected_command_line, List.nil_append, List.append_assoc]
        rfl
      · simp only [expected_command_line, List.mem_append, not_or]
        exact ⟨⟨hcM.1, hsender.1⟩, hcG.1⟩
      · simp only [expected_command_line, List.mem_append, not_or]
        exact ⟨⟨hcM.2, hsender.2.1⟩, hcG.2⟩
      · simp only [expected_command_line, List.length_append, e11, e1]; omega
    · refine ⟨?_, ?_, ?_, ?_⟩
      · rw [hr]
        simp only [htr, expected_command_line, List.nil_append, List.append_assoc, List.map_cons,
          List.map_nil, flat, List.append_nil]
        rfl
      · simp only [expected_command_line, List.mem_append, not_or]
        exact ⟨⟨hcR.1, hrcpt.1⟩, hcG.1⟩
      · simp only [expected_command_line, List.mem_append, not_or]
        exact ⟨⟨hcR.2, hrcpt.2.1⟩, hcG.2⟩
      · simp only [expected_command_line, List.length_append, e9, e1]; omega
    · exact ⟨hk.1, (by decide : CR ∉ "DATA".toList), (by decide : LF ∉ "DATA".toList),
        by show 4 + 3 ≤ _; omega⟩
    · exact ⟨hk.2.1, (by decide : CR ∉ "RSET".toList), (by decide : LF ∉ "RSET".toList),
        by show 4 + 3 ≤ _; omega⟩
    · exact ⟨hk.2.2.1, (by decide : CR ∉ "NOOP".toList), (by decide : LF ∉ "NOOP".toList),
        by show 4 + 3 ≤ _; omega⟩
    · exact ⟨hk.2.2.2, (by decide : CR ∉ "QUIT".toList), (by decide : LF ∉ "QUIT".toList),
        by show 4 + 3 ≤ _; omega⟩
  obtain ⟨hsend, hcr, hlf, hlen⟩ := hfacts
  refine ⟨hsend, ?_, hcr, hlf, ?_⟩
  · intro chunks st hchunks hcut hst
    exact read_single_line LINE_MAXLEN LINE_MAXLEN _ chunks st (by omega)
      (hasCRLF_of_no_CR _ hcr) hlen hchunks hcut hst
  · intro long held mail hfull
    have hu := greeting_unterminated LINE_MAXLEN DOMAIN_MAXLEN ADDR_MAXLEN long held [] mail
      hD hfull
    simpa only [List.nil_append] using hu

/-- C6 at `MAIL FROM:<a@b>`, with the bytes read in two pieces; and at HELO with
a host name of `DOMAIN_MAXLEN = 16` bytes: over a zeroed `cmd_line` the bytes
sent end with the name, and over a `cmd_line` that holds `x` in its first 24
bytes and NUL behind them the name is followed by `xxx`, which the reader
delivers as part of the line. -/
theorem C6_command_round_trip_witness :
    smtp_send_command 64 16 16 "gate".toList (fun _ => 'x') [] Command.MAIL
        (some ⟨"a@b".toList, ["c@d".toList]⟩) =
      some (0, expected_command_line (cstr "gate".toList) (cstr "a@b".toList)
        (cstr "c@d".toList) Command.MAIL ++ CRLF) ∧
    read_lines 64 [64, 64] (BufState.initial 64)
        (chunked ["MAIL FROM:<".toList, "a@b>".toList ++ CRLF]) =
      [((((expected_command_line (cstr "gate".toList) (cstr "a@b".toList)
            (cstr "c@d".toList) Command.MAIL).length + 2 : Nat) : Int),
        expected_command_line (cstr "gate".toList) (cstr "a@b".toList)
          (cstr "c@d".toList) Command.MAIL), (0, [])] ∧
    smtp_send_command 64 16 16 "0123456789abcdef".toList (fun _ => NUL) [] Command.HELO none =
      some (0, "HELO 0123456789abcdef".toList) ∧
    smtp_send_command 64 16 16 "0123456789abcdef".toList
        (fun i => if i < 24 then 'x' else NUL) [] Command.HELO none =
      some (0, "HELO 0123456789abcdefxxx".toList) ∧
    read_lines 64 [64, 64] (BufState.initial 64) (chunked ["HELO 0123456789abcdefxxx".toList]) =
      [(25, "HELO 0123456789abcdefxxx".toList), (0, [])] := by
  have h := C6_command_round_trip 64 16 16 "gate".toList "a@b".toList "c@d".toList
    (fun _ => 'x') Command.MAIL (by decide) (by decide) (by decide) (by decide) (by decide)
    (by decide)
  refine ⟨h.1, h.2.1 ["MAIL FROM:<".toList, "a@b>".toList ++ CRLF] (BufState.initial 64)
    (by decide) (by decide) (by decide), ?_, by decide, by decide⟩
  obtain ⟨rest, hr, hz⟩ :=
    (h.2.2.2.2 "0123456789abcdef".toList (fun _ => NUL) none (by decide)).2
  rw [hr, hz (fun _ => rfl)]
  rfl

theorem reply_header_no_CR (code : ReplyCode) : CR ∉ reply_header code := by
  cases code with
  | other v => simp [reply_header, switch_head]
  | _ => decide

/-- C7: for a known reply code and a message `m` without CR LF pair, of at most
`LINE_MAXLEN - 7` bytes and passed with `msg_len` equal to its length,
`smtp_send_reply` returns 0 and writes a 4-byte header, `m` and CR LF; read
with `maxlen = LINE_MAXLEN` on an empty read buffer, however reads cut them,
these bytes give the one line made of the header and exactly `m` (and then the
end of the stream).  The bound is the longest that can be read back: a reply
line with a 4-byte header and a message of `LINE_MAXLEN - 6` bytes is not
delivered whole, the call stops on its bound with the CR stored as last byte of
the line. -/
theorem C7_reply_round_trip (LINE_MAXLEN DOMAIN_MAXLEN : Nat) (host : List Char)
    (junk : Nat → Char) (code : ReplyCode) (m : List Char)
    (hL : 7 ≤ LINE_MAXLEN) (hcode : code.known = true)
    (hno : hasCRLF (cstr m) = false) (hlen : (cstr m).length ≤ LINE_MAXLEN - 7) :
    (reply_header code).length = 4 ∧
    smtp_send_reply LINE_MAXLEN DOMAIN_MAXLEN host junk [] code (some m) (strlen m) =
      some (0, reply_header code ++ cstr m ++ CRLF) ∧
    (∀ (chunks : List (List Char)) (st : BufState),
      (∀ c ∈ chunks, c ≠ []) → flat chunks = reply_header code ++ cstr m ++ CRLF →
      st.read_cnt ≤ 0 →
      read_lines LINE_MAXLEN [LINE_MAXLEN, LINE_MAXLEN] st (chunked chunks) =
        [((((cstr m).length + 6 : Nat) : Int), reply_header code ++ cstr m), (0, [])]) ∧
    (∀ (hdr m2 : List Char) (chunks : List (List Char)) (st : BufState),
      hdr.length = 4 → m2.length = LINE_MAXLEN - 6 → hasCRLF (hdr ++ m2) = false →
      (∀ c ∈ chunks, c ≠ []) → flat chunks = hdr ++ m2 ++ CRLF → st.read_cnt ≤ 0 →
      read_lines LINE_MAXLEN [LINE_MAXLEN] st (chunked chunks) =
        [((LINE_MAXLEN : Int), hdr ++ m2 ++ [CR])]) := by
  obtain ⟨hn, h4, _⟩ := switch_head_facts code hcode
  have hl4 : (reply_header code).length = 4 := by
    simp only [reply_header, List.length_take]; omega
  refine ⟨hl4, ?_, ?_, ?_⟩
  · have := (send_reply_with_message LINE_MAXLEN DOMAIN_MAXLEN host junk [] code m (strlen m)
      hL hcode).2 (le_refl _)
    rw [this, List.take_of_length_le hlen]
    rfl
  · intro chunks st hchunks hcut hst
    have hr := read_single_line LINE_MAXLEN LINE_MAXLEN (reply_header code ++ cstr m)
      chunks st (by omega)
      (by rw [hasCRLF_append_of_no_CR _ _ (reply_header_no_CR code)]; exact hno)
      (by simp only [List.length_append, hl4]; omega) hchunks hcut hst
    rw [hr]
    simp only [List.length_append, hl4]
    congr 3
    omega
  · intro hdr m2 chunks st h4 hm2 hno2 hchunks hcut hst
    exact read_overlong_line LINE_MAXLEN LINE_MAXLEN (hdr ++ m2) chunks st (by omega) hno2
      (by simp only [List.length_append, h4, hm2]; omega) hchunks hcut hst

/-- C7 at the code R250 and the message `"OK, queued"`, with
`LINE_MAXLEN = 20`; and at a message of `LINE_MAXLEN - 6 = 14` bytes, which the
reader cuts. -/
theorem C7_reply_round_trip_witness :
    smtp_send_reply 20 8 "gate".toList (fun _ => 'x') [] ReplyCode.R250
        (some "OK, queued".toList) (strlen "OK, queued".toList) =
      some (0, reply_header ReplyCode.R250 ++ cstr "OK, queued".toList ++ CRLF) ∧
    read_lines 20 [20, 20] (BufState.initial 20)
        (chunked ["250 OK".toList, ", queued".toList ++ CRLF]) =
      [((((cstr "OK, queued".toList).length + 6 : Nat) : Int),
        reply_header ReplyCode.R250 ++ cstr "OK, queued".toList), (0, [])] ∧
    read_lines 20 [20] (BufState.initial 20)
        (chunked ["250 0123456789abcd".toList ++ CRLF]) =
      [(20, "250 ".toList ++ "0123456789abcd".toList ++ [CR])] :=
  have h := C7_reply_round_trip 20 8 "gate".toList (fun _ => 'x') ReplyCode.R250
    "OK, queued".toList (by decide) (by decide) (by decide) (by decide)
  ⟨h.2.1,
    h.2.2.1 ["250 OK".toList, ", queued".toList ++ CRLF] (BufState.initial 20)
      (by decide) (by decide) (by decide),
    h.2.2.2 "250 ".toList "0123456789abcd".toList
      ["250 0123456789abcd".toList ++ CRLF] (BufState.initial 20) (by decide) (by decide)
      (by decide) (by decide) (by decide) (by decide)⟩

/-- C8: for every mail object, `smtp_send_command` with RCPT returns 0 and
writes, for the recipients in transaction order, `"RCPT TO:<"`, the first
`min (length r) ADDR_MAXLEN` bytes of the recipient `r`, and `">" CR LF`; with
no recipient it returns 0 and writes nothing.  `cmd_line` is assumed to hold
the longest such line and its NUL, `ADDR_MAXLEN + 13` bytes. -/
theorem C8_rcpt_one_line_per_recipient (LINE_MAXLEN DOMAIN_MAXLEN ADDR_MAXLEN : Nat)
    (host : List Char) (junk : Nat → Char) (sink : List Char) (mail : mail_object)
    (hA : ADDR_MAXLEN + 13 ≤ LINE_MAXLEN) :
    smtp_send_command LINE_MAXLEN DOMAIN_MAXLEN ADDR_MAXLEN host junk sink Command.RCPT
        (some mail) =
      some (0, sink ++ flat (mail.rcpt_to.map
        (fun r => "RCPT TO:<".toList ++ (cstr r).take ADDR_MAXLEN ++ ">".toList ++ CRLF))) ∧
    (mail.no_rcpt = 0 →
      smtp_send_command LINE_MAXLEN DOMAIN_MAXLEN ADDR_MAXLEN host junk sink Command.RCPT
        (some mail) = some (0, sink)) := by
  have h := rcpt_bytes LINE_MAXLEN DOMAIN_MAXLEN ADDR_MAXLEN host junk sink mail hA
  have he : (fun r : List Char =>
        "RCPT TO:<".toList ++ (cstr r).take ADDR_MAXLEN ++ ">".toList ++ CRLF) =
      (fun r => "RCPT TO:<".toList ++ (cstr r).take ADDR_MAXLEN ++ '>' :: CRLF) := by
    funext r
    simp [List.append_assoc]
  rw [he]
  refine ⟨h, fun h0 => ?_⟩
  have hnil : mail.rcpt_to = [] := List.length_eq_zero.mp h0
  rw [h, hnil]
  simp [flat]

/-- C8 at two recipients, the second longer than `ADDR_MAXLEN = 8`. -/
theorem C8_rcpt_one_line_per_recipient_witness :
    smtp_send_command 40 8 8 "gate".toList (fun _ => 'x') [] Command.RCPT
        (some ⟨"a@b".toList, ["u@v".toList, "0123456789".toList]⟩) =
      some (0, [] ++ flat ((["u@v".toList, "0123456789".toList]).map
        (fun r => "RCPT TO:<".toList ++ (cstr r).take 8 ++ ">".toList ++ CRLF))) :=
  (C8_rcpt_one_line_per_recipient 40 8 8 "gate".toList (fun _ => 'x') []
    ⟨"a@b".toList, ["u@v".toList, "0123456789".toList]⟩ (by decide)).1

/-- C9: `smtp_send_command` returns -1 exactly when the command is VRFY, or is
none of the nine commands, or is MAIL or RCPT with a null mail object; when it
returns -1 nothing has been written; otherwise it returns 0.  `cmd_line` is
assumed large enough for the longest line (`DOMAIN_MAXLEN + 8` and
`ADDR_MAXLEN + 15` bytes). -/
theorem C9_send_command_failures (LINE_MAXLEN DOMAIN_MAXLEN ADDR_MAXLEN : Nat)
    (host : List Char) (junk : Nat → Char) (sink : List Char) (cmd : Command)
    (mail : Option mail_object)
    (hD : DOMAIN_MAXLEN + 8 ≤ LINE_MAXLEN) (hA : ADDR_MAXLEN + 15 ≤ LINE_MAXLEN) :
    ∃ (ret : Int) (out : List Char),
      smtp_send_command LINE_MAXLEN DOMAIN_MAXLEN ADDR_MAXLEN host junk sink cmd mail =
        some (ret, out) ∧
      (ret = -1 ↔ (cmd = Command.VRFY ∨ (∃ v, cmd = Command.other v) ∨
        ((cmd = Command.MAIL ∨ cmd = Command.RCPT) ∧ mail = none))) ∧
      (ret = -1 → out = sink) ∧ (ret ≠ -1 → ret = 0) := by
  obtain ⟨⟨outE, hgE⟩, ⟨outH, hgH⟩⟩ :=
    greeting_total LINE_MAXLEN DOMAIN_MAXLEN ADDR_MAXLEN host junk sink mail hD
  have hk := keyword_bytes LINE_MAXLEN DOMAIN_MAXLEN ADDR_MAXLEN host junk sink mail (by omega)
  cases cmd with
  | EHLO => exact ⟨0, outE, hgE, by simp, by simp, by simp⟩
  | HELO => exact ⟨0, outH, hgH, by simp, by simp, by simp⟩
  | DATA => exact ⟨0, _, hk.1, by simp, by simp, by simp⟩
  | RSET => exact ⟨0, _, hk.2.1, by simp, by simp, by simp⟩
  | NOOP => exact ⟨0, _, hk.2.2.1, by simp, by simp, by simp⟩
  | QUIT => exact ⟨0, _, hk.2.2.2, by simp, by simp, by simp⟩
  | VRFY => exact ⟨-1, sink, rfl, by simp, by simp, by simp⟩
  | other v => exact ⟨-1, sink, rfl, by simp, by simp, by simp⟩
  | MAIL =>
    cases mail with
    | none => exact ⟨-1, sink, rfl, by simp, by simp, by simp⟩
    | some mo =>
      exact ⟨0, _, mail_bytes LINE_MAXLEN DOMAIN_MAXLEN ADDR_MAXLEN host junk sink mo hA,
        by simp, by simp, by simp⟩
  | RCPT =>
    cases mail with
    | none => exact ⟨-1, sink, rfl, by simp, by simp, by simp⟩
    | some mo =>
      exact ⟨0, _, rcpt_bytes LINE_MAXLEN DOMAIN_MAXLEN ADDR_MAXLEN host junk sink mo
        (by omega), by simp, by simp, by simp⟩

/-- C9 at RCPT with a null mail object, which fails, and at RCPT with a mail
object, which does not. -/
theorem C9_send_command_failures_witness :
    (∃ (ret : Int) (out : List Char),
      smtp_send_command 40 8 8 "gate".toList (fun _ => 'x') "ab".toList Command.RCPT none =
        some (ret, out) ∧
      (ret = -1 ↔ (Command.RCPT = Command.VRFY ∨ (∃ v, Command.RCPT = Command.other v) ∨
        ((Command.RCPT = Command.MAIL ∨ Command.RCPT = Command.RCPT) ∧
          (none : Option mail_object) = none))) ∧
      (ret = -1 → out = "ab".toList) ∧ (ret ≠ -1 → ret = 0)) ∧
    smtp_send_command 40 8 8 "gate".toList (fun _ => 'x') "ab".toList Command.RCPT none =
      some (-1, "ab".toList) :=
  ⟨C9_send_command_failures 40 8 8 "gate".toList (fun _ => 'x') "ab".toList Command.RCPT none
    (by decide) (by decide), by decide⟩

theorem known_iff_not_other (code : ReplyCode) :
    code.known = true ↔ ¬ ∃ v, code = ReplyCode.other v := by
  cases code <;> simp [ReplyCode.known]

/-- C10, as the code has it: `smtp_send_reply` returns -1 exactly when the code
is none of the reply codes, or is R250E with no message; when it returns -1
nothing has been written, and otherwise it returns 0.  R250E with a message
succeeds and its line has the hyphen: whatever the message and `msg_len`, the
bytes written start with `"250-"`; for a message passed with `msg_len` not
below its length they are `"250-"`, the first `LINE_MAXLEN - 7` bytes of the
message and CR LF, hence `"250-"`, the message and CR LF when the message has
at most `LINE_MAXLEN - 7` bytes.  `rply_line` is assumed large enough for the
longest default line (69 bytes, and `DOMAIN_MAXLEN + 21` bytes for the
greeting). -/
theorem C10_send_reply_failures (LINE_MAXLEN DOMAIN_MAXLEN : Nat) (host : List Char)
    (junk : Nat → Char) (sink : List Char)
    (hL : 69 ≤ LINE_MAXLEN) (hD : DOMAIN_MAXLEN + 21 ≤ LINE_MAXLEN) :
    (∀ (code : ReplyCode) (msg : Option (List Char)) (msg_len : Nat),
      ∃ (ret : Int) (out : List Char),
        smtp_send_reply LINE_MAXLEN DOMAIN_MAXLEN host junk sink code msg msg_len =
          some (ret, out) ∧
        (ret = -1 ↔ ((∃ v, code = ReplyCode.other v) ∨
          (code = ReplyCode.R250E ∧ msg = none))) ∧
        (ret = -1 → out = sink) ∧ (ret ≠ -1 → ret = 0)) ∧
    (∀ (m : List Char) (msg_len : Nat), ∃ rest,
      smtp_send_reply LINE_MAXLEN DOMAIN_MAXLEN host junk sink ReplyCode.R250E (some m)
          msg_len =
        some (0, sink ++ ("250-".toList ++ rest))) ∧
    (∀ (m : List Char) (msg_len : Nat), strlen m ≤ msg_len →
      smtp_send_reply LINE_MAXLEN DOMAIN_MAXLEN host junk sink ReplyCode.R250E (some m)
          msg_len =
        some (0, sink ++ ("250-".toList ++ (cstr m).take (LINE_MAXLEN - 7) ++ CRLF))) ∧
    (∀ (m : List Char) (msg_len : Nat), strlen m ≤ msg_len → strlen m ≤ LINE_MAXLEN - 7 →
      smtp_send_reply LINE_MAXLEN DOMAIN_MAXLEN host junk sink ReplyCode.R250E (some m)
          msg_len =
        some (0, sink ++ ("250-".toList ++ cstr m ++ CRLF))) := by
  refine ⟨?_, ?_, ?_, ?_⟩
  · intro code msg msg_len
    by_cases hk : code.known = true
    · have hno := (known_iff_not_other code).mp hk
      cases msg with
      | some m =>
        obtain ⟨out, ho⟩ := (send_reply_with_message LINE_MAXLEN DOMAIN_MAXLEN host junk sink
          code m msg_len (by omega) hk).1
        exact ⟨0, out, ho, by simp [hno], by simp, by simp⟩
      | none =>
        by_cases hE : code = ReplyCode.R250E
        · subst hE
          exact ⟨-1, sink, rfl, by simp, by simp, by simp⟩
        · obtain ⟨out, ho⟩ := send_reply_default_total LINE_MAXLEN DOMAIN_MAXLEN host junk sink
            code msg_len hL hD hk hE
          exact ⟨0, out, ho, by simp [hno, hE], by simp, by simp⟩
    · have hex : ∃ v, code = ReplyCode.other v := by
        by_contra h
        exact hk ((known_iff_not_other code).mpr h)
      obtain ⟨v, rfl⟩ := hex
      exact ⟨-1, sink, rfl, by simp, by simp, by simp⟩
  · intro m msg_len
    exact send_reply_header LINE_MAXLEN DOMAIN_MAXLEN host junk sink ReplyCode.R250E m msg_len
      (by omega) rfl
  · intro m msg_len hm
    exact (send_reply_with_message LINE_MAXLEN DOMAIN_MAXLEN host junk sink ReplyCode.R250E m
      msg_len (by omega) rfl).2 hm
  · intro m msg_len hm hlen
    have := (send_reply_with_message LINE_MAXLEN DOMAIN_MAXLEN host junk sink ReplyCode.R250E m
      msg_len (by omega) rfl).2 hm
    rw [this, List.take_of_length_le hlen]
    rfl

/-- C10 at R250E: without message it fails and writes nothing, with the
message `"x"` it writes `"250-x"` CR LF. -/
theorem C10_send_reply_failures_witness :
    smtp_send_reply 80 8 "gate".toList (fun _ => 'x') "ab".toList ReplyCode.R250E none 0 =
      some (-1, "ab".toList) ∧
    smtp_send_reply 80 8 "gate".toList (fun _ => 'x') "ab".toList ReplyCode.R250E
        (some "x".toList) 1 =
      some (0, "ab".toList ++ ("250-".toList ++ cstr "x".toList ++ CRLF)) :=
  ⟨by decide,
    (C10_send_reply_failures 80 8 "gate".toList (fun _ => 'x') "ab".toList (by decide)
      (by decide)).2.2.2 "x".toList 1 (by decide) (by decide)⟩

/-- C10 as stated fails: the bytes written for R250E are not always `"250-"`,
the message and CR LF.  With `LINE_MAXLEN = 80` a message of 76 bytes is cut to
its first 73 bytes; and the message `"x"` passed with `msg_len` 0 is not
copied, the bytes written are `"250-"` alone. -/
theorem C10_message_cut_counterexample :
    smtp_send_reply 80 8 "gate".toList (fun _ => 'x') [] ReplyCode.R250E
        (some (List.replicate 76 'a')) 76 =
      some (0, "250-".toList ++ List.replicate 73 'a' ++ CRLF) ∧
    "250-".toList ++ List.replicate 73 'a' ++ CRLF ≠
      "250-".toList ++ List.replicate 76 'a' ++ CRLF ∧
    smtp_send_reply 80 8 "gate".toList (fun _ => 'x') [] ReplyCode.R250E (some "x".toList) 0 =
      some (0, "250-".toList) ∧
    "250-".toList ≠ "250-".toList ++ "x".toList ++ CRLF := by
  refine ⟨?_, ?_, by decide, by decide⟩
  · have h := (send_reply_with_message 80 8 "gate".toList (fun _ => 'x') [] ReplyCode.R250E
      (List.replicate 76 'a') 76 (by decide) rfl).2 (by
        rw [strlen, cstr_of_no_nul _ (by simp [NUL])]; simp)
    rw [h, cstr_of_no_nul _ (by simp [NUL])]
    simp [switch_head]
  · intro h
    have hl := congrArg List.length h
    simp at hl

/-! ## Proofs: how a call ends -/

theorem getLast_CR_split {out : List Char} (h : out.getLast? = some CR) :
    ∃ o, out = o ++ [CR] := by
  rcases List.eq_nil_or_concat out with rfl | ⟨o, x, rfl⟩
  · simp at h
  · have hx : x = CR := by simpa using h
    exact ⟨o, by rw [hx]; simp⟩

/-- How a run of the loop ends, and what it has taken from the item stream:
with a terminator (the bytes taken are the line and CR LF), on its bound, at
an end of stream, or at a read error. -/
theorem scan_cases (k : Nat) :
    ∀ (n : Nat) (state : LineState) (out : List Char) (s : List Item)
      (r : Int × List Char × List Item),
      scan k n state out s = r → n = out.length + 1 →
      (state = LineState.CR_READ → out.getLast? = some CR) →
      ∃ c : List Char,
        (s = c.map Item.byte ++ r.2.2 ∧ out ++ c = r.2.1 ++ CRLF ∧
          r.1 = ((r.2.1.length + 2 : Nat) : Int) ∧ c ≠ [] ∧ c.length ≤ k) ∨
        (s = c.map Item.byte ++ r.2.2 ∧ r.2.1 = out ++ c ∧ c.length = k ∧
          r.1 = ((r.2.1.length + 1 : Nat) : Int)) ∨
        ((s = c.map Item.byte ++ Item.eof :: r.2.2 ∨ (s = c.map Item.byte ∧ r.2.2 = [])) ∧
          r.2.1 = out ++ c ∧ c.length < k ∧
          r.1 = (if r.2.1 = [] then 0 else ((r.2.1.length + 1 : Nat) : Int))) ∨
        (s = c.map Item.byte ++ Item.err :: r.2.2 ∧ r.2.1 = out ++ c ∧ c.length < k ∧
          r.1 = -1) := by
  induction k with
  | zero =>
    intro n state out s r hr hn _
    subst hr
    refine ⟨[], Or.inr (Or.inl ?_)⟩
    simp [scan, hn]
  | succ k ih =>
    intro n state out s r hr hn hst
    have hn1 : n = 1 ↔ out = [] := by
      rw [hn]
      constructor
      · intro h; exact List.length_eq_zero.mp (by omega)
      · intro h; rw [h]; rfl
    cases s with
    | nil =>
      subst hr
      refine ⟨[], Or.inr (Or.inr (Or.inl ?_))⟩
      by_cases ho : out = []
      · simp [scan, ho, hn1.mpr ho]
      · have : ¬ n = 1 := fun h => ho (hn1.mp h)
        simp [scan, ho, this, hn]
    | cons it t =>
      cases it with
      | eof =>
        subst hr
        refine ⟨[], Or.inr (Or.inr (Or.inl ?_))⟩
        by_cases ho : out = []
        · simp [scan, ho, hn1.mpr ho]
        · have : ¬ n = 1 := fun h => ho (hn1.mp h)
          simp [scan, ho, this, hn]
      | err =>
        subst hr
        refine ⟨[], Or.inr (Or.inr (Or.inr ?_))⟩
        simp [scan]
      | byte c0 =>
        by_cases hb : state = LineState.CR_READ ∧ c0 = LF
        · obtain ⟨o, ho⟩ := getLast_CR_split (hst hb.1)
          have hc0 := hb.2
          subst hr
          refine ⟨[c0], Or.inl ?_⟩
          simp only [scan, hb, and_self, if_true]
          subst ho hc0
          have hd : ((o ++ [CR]) ++ [LF]).dropLast.dropLast = o := by
            rw [List.dropLast_concat, List.dropLast_concat]
          rw [hd]
          refine ⟨by simp, by simp [CRLF], ?_, by simp, by simp⟩
          rw [hn]
          simp only [List.length_append, List.length_singleton]
        · have hr2 : scan k (n + 1) (if c0 = CR then LineState.CR_READ else LineState.START)
              (out ++ [c0]) t = r := by
            rw [← hr]
            simp only [scan, hb, if_false]
          obtain ⟨c, hc⟩ := ih (n + 1) _ (out ++ [c0]) t r hr2 (by simp [hn])
            (by
              intro h
              by_cases hcr : c0 = CR
              · simp [hcr]
              · simp [hcr] at h)
          refine ⟨c0 :: c, ?_⟩
          rcases hc with ⟨h1, h2, h3, h4, h5⟩ | ⟨h1, h2, h3, h4⟩ | ⟨h1, h2, h3, h4⟩ |
              ⟨h1, h2, h3, h4⟩
          · refine Or.inl ⟨by simp [h1], by simpa using h2, h3, by simp, by simp; omega⟩
          · refine Or.inr (Or.inl ⟨by simp [h1], by simpa using h2, by simp; omega, h4⟩)
          · refine Or.inr (Or.inr (Or.inl ⟨?_, by simpa using h2, by simp; omega, h4⟩))
            rcases h1 with h1 | ⟨h1, h1b⟩
            · left; simp [h1]
            · right; exact ⟨by simp [h1], h1b⟩
          · refine Or.inr (Or.inr (Or.inr ⟨by simp [h1], by simpa using h2, by simp; omega,
              h4⟩))

/-! ## Proofs: the shape of reply lines -/

theorem reply_header_shape (code : ReplyCode) (hk : code.known = true)
    (h554 : code ≠ ReplyCode.R554) :
    reply_header code = canonical_digits code ++ [expected_separator code] := by
  cases code with
  | other v => simp [ReplyCode.known] at hk
  | R554 => exact absurd rfl h554
  | _ => decide

theorem reply_header_separator (code : ReplyCode) (hk : code.known = true) :
    (reply_header code).length = 4 ∧ (reply_header code).drop 3 = [expected_separator code] := by
  cases code with
  | other v => simp [ReplyCode.known] at hk
  | _ => decide

theorem hasCRLF_append {x y : List Char} (hx : hasCRLF x = false) (hy : hasCRLF y = false)
    (h : x.getLast? = some CR → y.head? ≠ some LF) : hasCRLF (x ++ y) = false := by
  induction y generalizing x with
  | nil => simpa using hx
  | cons b t ih =>
    have hb := hasCRLF_cons_false hy
    have h1 : hasCRLF (x ++ [b]) = false :=
      hasCRLF_concat hx (fun hl hc => h hl (by simp [hc]))
    have := ih h1 hb.1 (by
      intro hl
      have : b = CR := by simpa using hl
      exact hb.2 this)
    simpa using this

theorem hasCRLF_of_prefix {p x : List Char} (hp : p <+: x) (hx : hasCRLF x = false) :
    hasCRLF p = false := by
  obtain ⟨s, rfl⟩ := hp
  induction p with
  | nil => rfl
  | cons a p ih =>
    have h := hasCRLF_cons_false hx
    have hp := ih h.1
    cases p with
    | nil => rfl
    | cons b u =>
      have hab : (a == CR && b == LF) = false := by
        by_cases ha : a = CR
        · have := h.2 ha
          simp at this
          simp [this]
        · simp [ha]
      show ((a == CR && b == LF) || hasCRLF (b :: u)) = false
      rw [hab, hp]; rfl

theorem hasCRLF_take {x : List Char} (n : Nat) (hx : hasCRLF x = false) :
    hasCRLF (x.take n) = false :=
  hasCRLF_of_prefix (List.take_prefix n x) hx

/-- The default line of a code is its digits, a space, a text and CR LF; the
text holds a CR only if the host name does, and the line fits an array that
holds the default lines. -/
theorem default_line_shape (D : Nat) (host : List Char) (code : ReplyCode)
    (hk : code.known = true) (hE : code ≠ ReplyCode.R250E) :
    ∃ text, default_line D host code = (canonical_digits code ++ ' ' :: text) ++ CRLF ∧
      (CR ∉ cstr host → CR ∉ text) ∧
      (hasCRLF (cstr host) = false → hasCRLF (canonical_digits code ++ ' ' :: text) = false) ∧
      ∀ L, 69 ≤ L → D + 21 ≤ L → text.length + 7 ≤ L := by
  by_cases h220 : code = ReplyCode.R220
  · subst h220
    refine ⟨(cstr host).take D ++ " Service ready".toList, ?_, ?_, ?_, ?_⟩
    · simp [default_line, canonical_digits, List.append_assoc]
    · intro h
      simp only [List.mem_append, not_or]
      exact ⟨fun hm => h (List.mem_of_mem_take hm), by decide⟩
    · intro h
      have h1 : hasCRLF ((cstr host).take D ++ " Service ready".toList) = false :=
        hasCRLF_append (hasCRLF_take D h) (by decide) (fun _ => by decide)
      have h2 : canonical_digits ReplyCode.R220 ++
          ' ' :: ((cstr host).take D ++ " Service ready".toList) =
          "220 ".toList ++ ((cstr host).take D ++ " Service ready".toList) := rfl
      rw [h2, hasCRLF_append_of_no_CR _ _ (by decide)]
      exact h1
    · intro L _ hL
      have e : " Service ready".toList.length = 14 := rfl
      simp only [List.length_append, List.length_take, e]
      omega
  · refine ⟨((default_line D host code).drop 4).dropLast.dropLast, ?_, ?_, ?_, ?_⟩
    · cases code with
      | other v => simp [ReplyCode.known] at hk
      | R250E => exact absurd rfl hE
      | R220 => exact absurd rfl h220
      | _ => rfl
    · intro _
      cases code with
      | other v => simp [ReplyCode.known] at hk
      | R250E => exact absurd rfl hE
      | R220 => exact absurd rfl h220
      | _ => simp only [default_line]; decide
    · intro _
      cases code with
      | other v => simp [ReplyCode.known] at hk
      | R250E => exact absurd rfl hE
      | R220 => exact absurd rfl h220
      | _ => simp only [default_line]; decide
    · intro L hL _
      cases code with
      | other v => simp [ReplyCode.known] at hk
      | R250E => exact absurd rfl hE
      | R220 => exact absurd rfl h220
      | _ => simp only [default_line]; exact le_trans (by decide) hL

/-- A known code other than R250E without message: whatever the host name, the
bytes sent start with the three digits of the code. -/
theorem send_reply_default_digits (L D : Nat) (host : List Char) (junk : Nat → Char)
    (sink : List Char) (code : ReplyCode) (msg_len : Nat)
    (hL : 69 ≤ L) (hD : D + 21 ≤ L) (hk : code.known = true)
    (hE : code ≠ ReplyCode.R250E) :
    ∃ rest, smtp_send_reply L D host junk sink code none msg_len =
      some (0, sink ++ (canonical_digits code ++ rest)) := by
  by_cases hlt : code = ReplyCode.R220 → (cstr host).length < D
  · obtain ⟨text, ht, _⟩ := default_line_shape D host code hk hE
    refine ⟨' ' :: text ++ CRLF, ?_⟩
    rw [send_reply_default L D host junk sink code msg_len hL hD hk hE hlt, ht]
    simp
  · have h220 : code = ReplyCode.R220 := by
      by_contra hne
      exact hlt (fun e => absurd e hne)
    have hfull : D ≤ (cstr host).length := by
      by_contra hc
      exact hlt (fun _ => by omega)
    subst h220
    obtain ⟨rest, hr, _⟩ := reply_220_unterminated L D host junk sink hD hfull
    refine ⟨' ' :: ((cstr host).take D ++ rest), ?_⟩
    simp only [smtp_send_reply, hr]
    simp [canonical_digits]

theorem countCRLF_terminated (body : List Char) (h : hasCRLF body = false) :
    countCRLF (body ++ CRLF) = 1 := by
  induction body with
  | nil => decide
  | cons a t ih =>
    have ht := hasCRLF_cons_false h
    have hrec := ih ht.1
    cases t with
    | nil =>
      have hne : ¬ (a = CR ∧ CR = LF) := fun hh => absurd hh.2 (by decide)
      show (if a = CR ∧ CR = LF then 1 else 0) + countCRLF ([] ++ CRLF) = 1
      rw [if_neg hne, hrec]
    | cons b u =>
      have hne : ¬ (a = CR ∧ b = LF) := by
        rintro ⟨h1, h2⟩
        exact ht.2 h1 (by simp [h2])
      show (if a = CR ∧ b = LF then 1 else 0) + countCRLF (b :: u ++ CRLF) = 1
      rw [if_neg hne, hrec]

/-- A body without CR LF pair, followed by CR LF, is a line that holds the
terminator exactly once, as its last two bytes. -/
theorem terminated_once_of_body (body : List Char) (h : hasCRLF body = false) :
    terminated_once (body ++ CRLF) = true := by
  have hd : (body ++ CRLF).drop ((body ++ CRLF).length - 2) = CRLF := by
    have : (body ++ CRLF).length - 2 = body.length := by
      simp [CRLF]
    rw [this, List.drop_left]
  simp only [terminated_once, hd, countCRLF_terminated body h, beq_self_eq_true, Bool.and_self]

/-! ## The claims on reply lines -/

/-- C11 (the code departs from it for R554): with a message the case R554
copies the literal `"555 "`, so the line starts with `555`, while without
message it starts with `554`; for every other known code that has a default
text both lines start with the digits of the code.  `rply_line` is assumed to
hold the default lines. -/
theorem C11_r554_message_header (LINE_MAXLEN DOMAIN_MAXLEN : Nat) (host : List Char)
    (junk : Nat → Char) (sink m : List Char) (msg_len : Nat)
    (hL : 69 ≤ LINE_MAXLEN) (hD : DOMAIN_MAXLEN + 21 ≤ LINE_MAXLEN) :
    (∃ rest, smtp_send_reply LINE_MAXLEN DOMAIN_MAXLEN host junk sink ReplyCode.R554 (some m)
        msg_len = some (0, sink ++ ("555".toList ++ rest))) ∧
    (∃ rest, smtp_send_reply LINE_MAXLEN DOMAIN_MAXLEN host junk sink ReplyCode.R554 none
        msg_len = some (0, sink ++ ("554".toList ++ rest))) ∧
    (∀ code : ReplyCode, code.known = true → code ≠ ReplyCode.R250E →
      code ≠ ReplyCode.R554 →
      ∃ rest1 rest2,
        smtp_send_reply LINE_MAXLEN DOMAIN_MAXLEN host junk sink code (some m) msg_len =
          some (0, sink ++ (canonical_digits code ++ rest1)) ∧
        smtp_send_reply LINE_MAXLEN DOMAIN_MAXLEN host junk sink code none msg_len =
          some (0, sink ++ (canonical_digits code ++ rest2))) := by
  refine ⟨?_, ?_, ?_⟩
  · obtain ⟨rest, hr⟩ := send_reply_header LINE_MAXLEN DOMAIN_MAXLEN host junk sink
      ReplyCode.R554 m msg_len (by omega) rfl
    exact ⟨' ' :: rest, by rw [hr]; rfl⟩
  · exact ⟨" Transaction failed".toList ++ CRLF, by
      rw [send_reply_default LINE_MAXLEN DOMAIN_MAXLEN host junk sink ReplyCode.R554 msg_len
        hL hD rfl (by decide) (fun e => absurd e (by decide))]
      rfl⟩
  · intro code hk hE h554
    obtain ⟨rest, hr⟩ := send_reply_header LINE_MAXLEN DOMAIN_MAXLEN host junk sink
      code m msg_len (by omega) hk
    obtain ⟨rest2, hr2⟩ := send_reply_default_digits LINE_MAXLEN DOMAIN_MAXLEN host junk sink
      code msg_len hL hD hk hE
    refine ⟨expected_separator code :: rest, rest2, ?_, hr2⟩
    rw [hr, reply_header_shape code hk h554]
    simp

/-- C11 at the message `"x"`: the line of R554 starts with `555` with the
message and with `554` without. -/
theorem C11_r554_message_header_witness :
    (∃ rest, smtp_send_reply 80 8 "gate".toList (fun _ => 'x') [] ReplyCode.R554
        (some "x".toList) 1 = some (0, [] ++ ("555".toList ++ rest))) ∧
    (∃ rest, smtp_send_reply 80 8 "gate".toList (fun _ => 'x') [] ReplyCode.R554 none
        1 = some (0, [] ++ ("554".toList ++ rest))) ∧
    smtp_send_reply 80 8 "gate".toList (fun _ => 'x') [] ReplyCode.R554 (some "x".toList) 1 =
      some (0, "555 x".toList ++ CRLF) ∧
    smtp_send_reply 80 8 "gate".toList (fun _ => 'x') [] ReplyCode.R554 none 1 =
      some (0, "554 Transaction failed".toList ++ CRLF) :=
  have h := C11_r554_message_header 80 8 "gate".toList (fun _ => 'x') [] "x".toList 1
    (by decide) (by decide)
  ⟨h.1, h.2.1, by decide, by decide⟩

/-- C12: for a known reply code and a message passed with `msg_len` not below
its length, `smtp_send_reply` returns 0 and writes exactly a 4-byte header, the
first `min (length m) (LINE_MAXLEN - 7)` bytes of the message and CR LF; the
fourth byte of the header is a hyphen for R250E and a space for every other
code, R455 included; the line, CR LF included, has at most `LINE_MAXLEN - 1`
bytes. -/
theorem C12_reply_line_with_message (LINE_MAXLEN DOMAIN_MAXLEN : Nat) (host : List Char)
    (junk : Nat → Char) (sink : List Char) (code : ReplyCode) (m : List Char) (msg_len : Nat)
    (hL : 7 ≤ LINE_MAXLEN) (hk : code.known = true) (hm : strlen m ≤ msg_len) :
    smtp_send_reply LINE_MAXLEN DOMAIN_MAXLEN host junk sink code (some m) msg_len =
      some (0, sink ++ (reply_header code ++
        (cstr m).take (min (strlen m) (LINE_MAXLEN - 7)) ++ CRLF)) ∧
    (reply_header code).length = 4 ∧
    (reply_header code).drop 3 = [if code = ReplyCode.R250E then '-' else ' '] ∧
    (reply_header code ++ (cstr m).take (min (strlen m) (LINE_MAXLEN - 7)) ++ CRLF).length ≤
      LINE_MAXLEN - 1 := by
  have hs := reply_header_separator code hk
  have htake : (cstr m).take (min (strlen m) (LINE_MAXLEN - 7)) =
      (cstr m).take (LINE_MAXLEN - 7) := by
    unfold strlen
    by_cases hc : (cstr m).length ≤ LINE_MAXLEN - 7
    · rw [min_eq_left hc, List.take_of_length_le (le_refl _), List.take_of_length_le hc]
    · rw [min_eq_right (by omega)]
  refine ⟨?_, hs.1, hs.2, ?_⟩
  · rw [htake]
    exact (send_reply_with_message LINE_MAXLEN DOMAIN_MAXLEN host junk sink code m msg_len hL
      hk).2 hm
  · simp only [List.length_append, hs.1, List.length_take, CRLF, List.length_cons,
      List.length_nil]
    omega

/-- C12 at R455, whose literal holds two spaces, and at a message longer than
`LINE_MAXLEN - 7 = 3` bytes. -/
theorem C12_reply_line_with_message_witness :
    smtp_send_reply 10 8 "gate".toList (fun _ => 'x') [] ReplyCode.R455 (some "hello".toList) 5 =
      some (0, [] ++ (reply_header ReplyCode.R455 ++
        (cstr "hello".toList).take (min (strlen "hello".toList) (10 - 7)) ++ CRLF)) ∧
    reply_header ReplyCode.R455 ++
        (cstr "hello".toList).take (min (strlen "hello".toList) (10 - 7)) ++ CRLF =
      "455 hel".toList ++ CRLF :=
  ⟨(C12_reply_line_with_message 10 8 "gate".toList (fun _ => 'x') [] ReplyCode.R455
    "hello".toList 5 (by decide) (by decide) (by decide)).1, by decide⟩

/-- C13 (the code departs from it for R220 and a host name of `DOMAIN_MAXLEN`
bytes): for a known reply code other than R250E, and for R220 with a host name
shorter than `DOMAIN_MAXLEN`, `smtp_send_reply` without message returns 0 and
writes the default line of the code, one line that holds CR LF once, at its
end; with a host name that holds no CR LF pair, these bytes, read with
`maxlen = LINE_MAXLEN` on an empty read buffer however reads cut them, give one
line that starts with the three digits of the code and a space (and then the
end of the stream).  A host name of `DOMAIN_MAXLEN` bytes or more leaves
`domain` without NUL, so that `strlen(domain)` reads past the array: R220 then
returns 0 and sends `220 ` and `DOMAIN_MAXLEN` bytes of the name followed by
what `rply_line` happens to hold behind them, and over a zeroed `rply_line`
nothing follows, neither the text ` Service ready` nor CR LF.  `rply_line` is
assumed to hold the default lines. -/
theorem C13_default_reply_line (LINE_MAXLEN DOMAIN_MAXLEN : Nat) (host : List Char)
    (junk : Nat → Char) (code : ReplyCode) (msg_len : Nat)
    (hL : 69 ≤ LINE_MAXLEN) (hD : DOMAIN_MAXLEN + 21 ≤ LINE_MAXLEN)
    (hk : code.known = true) (hE : code ≠ ReplyCode.R250E)
    (hhost : hasCRLF (cstr host) = false)
    (hlt : code = ReplyCode.R220 → (cstr host).length < DOMAIN_MAXLEN) :
    smtp_send_reply LINE_MAXLEN DOMAIN_MAXLEN host junk [] code none msg_len =
      some (0, default_line DOMAIN_MAXLEN host code) ∧
    terminated_once (default_line DOMAIN_MAXLEN host code) = true ∧
    (∃ text : List Char,
      default_line DOMAIN_MAXLEN host code = (canonical_digits code ++ ' ' :: text) ++ CRLF ∧
      ∀ (chunks : List (List Char)) (st : BufState),
        (∀ c ∈ chunks, c ≠ []) → flat chunks = default_line DOMAIN_MAXLEN host code →
        st.read_cnt ≤ 0 →
        read_lines LINE_MAXLEN [LINE_MAXLEN, LINE_MAXLEN] st (chunked chunks) =
          [((((canonical_digits code ++ ' ' :: text).length + 2 : Nat) : Int),
            canonical_digits code ++ ' ' :: text), (0, [])]) ∧
    (∀ (long : List Char) (held : Nat → Char), DOMAIN_MAXLEN ≤ (cstr long).length →
      ∃ rest, smtp_send_reply LINE_MAXLEN DOMAIN_MAXLEN long held [] ReplyCode.R220 none
            msg_len =
          some (0, "220 ".toList ++ (cstr long).take DOMAIN_MAXLEN ++ rest) ∧
        ((∀ i, held i = NUL) → rest = [])) := by
  obtain ⟨text, ht, _, hno, hlen⟩ := default_line_shape DOMAIN_MAXLEN host code hk hE
  have hd : (canonical_digits code).length = 3 := by
    cases code with
    | other v => simp [ReplyCode.known] at hk
    | _ => rfl
  refine ⟨?_, ?_, ⟨text, ht, ?_⟩, ?_⟩
  · have := send_reply_default LINE_MAXLEN DOMAIN_MAXLEN host junk [] code msg_len hL hD hk hE
      hlt
    simpa using this
  · rw [ht]
    exact terminated_once_of_body _ (hno hhost)
  · intro chunks st hchunks hcut hst
    exact read_single_line LINE_MAXLEN LINE_MAXLEN _ chunks st (by omega) (hno hhost)
      (by
        have := hlen LINE_MAXLEN hL hD
        simp only [List.length_append, List.length_cons, hd]
        omega)
      hchunks (by rw [hcut, ht]) hst
  · intro long held hfull
    obtain ⟨rest, hr, hz⟩ :=
      reply_220_unterminated LINE_MAXLEN DOMAIN_MAXLEN long held [] hD hfull
    refine ⟨rest, ?_, hz⟩
    simp only [smtp_send_reply, hr, List.nil_append]

/-- C13 at the greeting R220 and at R554; and at R220 with a host name of
`DOMAIN_MAXLEN = 8` bytes, over a zeroed `rply_line`: the bytes sent end with
the name. -/
theorem C13_default_reply_line_witness :
    smtp_send_reply 80 8 "gate".toList (fun _ => 'x') [] ReplyCode.R220 none 0 =
      some (0, default_line 8 "gate".toList ReplyCode.R220) ∧
    default_line 8 "gate".toList ReplyCode.R220 = "220 gate Service ready".toList ++ CRLF ∧
    smtp_send_reply 80 8 "gate".toList (fun _ => 'x') [] ReplyCode.R554 none 0 =
      some (0, default_line 8 "gate".toList ReplyCode.R554) ∧
    read_lines 80 [80, 80] (BufState.initial 80)
        (chunked ["554 Transaction".toList, " failed".toList ++ CRLF]) =
      [(24, "554 Transaction failed".toList), (0, [])] ∧
    smtp_send_reply 80 8 "mailgate".toList (fun _ => NUL) [] ReplyCode.R220 none 0 =
      some (0, "220 mailgate".toList) := by
  have h1 := C13_default_reply_line 80 8 "gate".toList (fun _ => 'x') ReplyCode.R220 0
    (by decide) (by decide) (by decide) (by decide) (by decide) (fun _ => by decide)
  have h2 := C13_default_reply_line 80 8 "gate".toList (fun _ => 'x') ReplyCode.R554 0
    (by decide) (by decide) (by decide) (by decide) (by decide) (fun _ => by decide)
  refine ⟨h1.1, by decide, h2.1, ?_, ?_⟩
  swap
  · obtain ⟨rest, hr, hz⟩ := h1.2.2.2 "mailgate".toList (fun _ => NUL) (by decide)
    rw [hr, hz (fun _ => rfl)]
    rfl
  obtain ⟨text, ht, hread⟩ := h2.2.2.1
  have htext : text = "Transaction failed".toList := by
    have : default_line 8 "gate".toList ReplyCode.R554 =
        ("554".toList ++ ' ' :: "Transaction failed".toList) ++ CRLF := by decide
    rw [this] at ht
    have := List.append_cancel_right ht
    simpa [canonical_digits] using this.symm
  subst htext
  exact hread ["554 Transaction".toList, " failed".toList ++ CRLF] (BufState.initial 80)
    (by decide) (by decide) (by decide)

/-- C14, as the code has it: the arguments are copied as they are, so a line
ends in exactly one CR LF, and holds no other, when the host name, the sender,
the recipients and the message hold no CR immediately followed by LF, a
message is passed with `msg_len` not below its length, and the host name is
shorter than `DOMAIN_MAXLEN`, so that `domain` holds its NUL.  Every command
but RCPT writes one such line, RCPT one for each recipient, a reply one.  The
line buffers are assumed large enough for the longest lines. -/
theorem C14_lines_end_in_one_terminator (LINE_MAXLEN DOMAIN_MAXLEN ADDR_MAXLEN : Nat)
    (host : List Char) (junk : Nat → Char) (sink : List Char)
    (hD : DOMAIN_MAXLEN + 21 ≤ LINE_MAXLEN) (hA : ADDR_MAXLEN + 15 ≤ LINE_MAXLEN)
    (hL : 69 ≤ LINE_MAXLEN) (hhost : hasCRLF (cstr host) = false)
    (hlt : (cstr host).length < DOMAIN_MAXLEN) :
    (∀ (cmd : Command) (mail : Option mail_object),
      cmd ∈ [Command.EHLO, Command.HELO, Command.DATA, Command.RSET, Command.NOOP,
        Command.QUIT] →
      ∃ line, smtp_send_command LINE_MAXLEN DOMAIN_MAXLEN ADDR_MAXLEN host junk sink cmd mail =
        some (0, sink ++ line) ∧ terminated_once line = true) ∧
    (∀ mail : mail_object, hasCRLF (cstr mail.mail_from) = false →
      ∃ line, smtp_send_command LINE_MAXLEN DOMAIN_MAXLEN ADDR_MAXLEN host junk sink
        Command.MAIL (some mail) = some (0, sink ++ line) ∧ terminated_once line = true) ∧
    (∀ mail : mail_object, (∀ r ∈ mail.rcpt_to, hasCRLF (cstr r) = false) →
      ∃ lines : List (List Char), lines.length = mail.no_rcpt ∧
        smtp_send_command LINE_MAXLEN DOMAIN_MAXLEN ADDR_MAXLEN host junk sink
          Command.RCPT (some mail) = some (0, sink ++ flat lines) ∧
        ∀ l ∈ lines, terminated_once l = true) ∧
    (∀ (code : ReplyCode) (m : List Char) (msg_len : Nat), code.known = true →
      hasCRLF (cstr m) = false → strlen m ≤ msg_len →
      ∃ line, smtp_send_reply LINE_MAXLEN DOMAIN_MAXLEN host junk sink code (some m) msg_len =
        some (0, sink ++ line) ∧ terminated_once line = true) ∧
    (∀ (code : ReplyCode) (msg_len : Nat), code.known = true → code ≠ ReplyCode.R250E →
      ∃ line, smtp_send_reply LINE_MAXLEN DOMAIN_MAXLEN host junk sink code none msg_len =
        some (0, sink ++ line) ∧ terminated_once line = true) := by
  have hgt : hasCRLF ('>' :: ([] : List Char)) = false := rfl
  have hne : '>' ≠ LF := by decide
  refine ⟨?_, ?_, ?_, ?_, ?_⟩
  · intro cmd mail hcmd
    have hg := greeting_bytes LINE_MAXLEN DOMAIN_MAXLEN ADDR_MAXLEN host junk sink mail
      (by omega) hlt
    have hk := keyword_bytes LINE_MAXLEN DOMAIN_MAXLEN ADDR_MAXLEN host junk sink mail
      (by omega)
    have hth := hasCRLF_take DOMAIN_MAXLEN hhost
    simp only [List.mem_cons, List.mem_singleton, List.not_mem_nil, or_false] at hcmd
    rcases hcmd with rfl | rfl | rfl | rfl | rfl | rfl
    · exact ⟨_, hg.1, terminated_once_of_body _
        (by rw [hasCRLF_append_of_no_CR _ _ (by decide)]; exact hth)⟩
    · exact ⟨_, hg.2, terminated_once_of_body _
        (by rw [hasCRLF_append_of_no_CR _ _ (by decide)]; exact hth)⟩
    · exact ⟨_, hk.1, by decide⟩
    · exact ⟨_, hk.2.1, by decide⟩
    · exact ⟨_, hk.2.2.1, by decide⟩
    · exact ⟨_, hk.2.2.2, by decide⟩
  · intro mail hfrom
    have hm := mail_bytes LINE_MAXLEN DOMAIN_MAXLEN ADDR_MAXLEN host junk sink mail hA
    refine ⟨("MAIL FROM:<".toList ++ ((cstr mail.mail_from).take ADDR_MAXLEN ++ ['>'])) ++ CRLF,
      by rw [hm]; simp [List.append_assoc], terminated_once_of_body _ ?_⟩
    rw [hasCRLF_append_of_no_CR _ _ (by decide)]
    exact hasCRLF_concat (hasCRLF_take ADDR_MAXLEN hfrom) (fun _ => hne)
  · intro mail hr
    have hm := rcpt_bytes LINE_MAXLEN DOMAIN_MAXLEN ADDR_MAXLEN host junk sink mail (by omega)
    refine ⟨mail.rcpt_to.map
      (fun r => "RCPT TO:<".toList ++ (cstr r).take ADDR_MAXLEN ++ '>' :: CRLF),
      by simp [mail_object.no_rcpt], hm, ?_⟩
    intro l hl
    obtain ⟨r, hrm, rfl⟩ := List.mem_map.mp hl
    have hb : "RCPT TO:<".toList ++ (cstr r).take ADDR_MAXLEN ++ '>' :: CRLF =
        ("RCPT TO:<".toList ++ ((cstr r).take ADDR_MAXLEN ++ ['>'])) ++ CRLF := by
      simp [List.append_assoc]
    rw [hb]
    apply terminated_once_of_body
    rw [hasCRLF_append_of_no_CR _ _ (by decide)]
    exact hasCRLF_concat (hasCRLF_take ADDR_MAXLEN (hr r hrm)) (fun _ => hne)
  · intro code m msg_len hk hm hlen
    have hs := (send_reply_with_message LINE_MAXLEN DOMAIN_MAXLEN host junk sink code m msg_len
      (by omega) hk).2 hlen
    refine ⟨_, hs, terminated_once_of_body _ ?_⟩
    have : (switch_head code).take 4 = reply_header code := rfl
    rw [this, hasCRLF_append_of_no_CR _ _ (reply_header_no_CR code)]
    exact hasCRLF_take _ hm
  · intro code msg_len hk hE
    obtain ⟨text, ht, _, hno, _⟩ := default_line_shape DOMAIN_MAXLEN host code hk hE
    refine ⟨_, send_reply_default LINE_MAXLEN DOMAIN_MAXLEN host junk sink code msg_len hL hD
      hk hE (fun _ => hlt), ?_⟩
    rw [ht]
    exact terminated_once_of_body _ (hno hhost)

/-- C14 at a sender without CR LF pair and at a reply with a message. -/
theorem C14_lines_end_in_one_terminator_witness :
    (∃ line, smtp_send_command 80 16 16 "gate".toList (fun _ => 'x') [] Command.MAIL
        (some ⟨['a', CR, '@', LF, 'b'], []⟩) = some (0, [] ++ line) ∧
      terminated_once line = true) ∧
    (∃ line, smtp_send_reply 80 16 "gate".toList (fun _ => 'x') [] ReplyCode.R250
        (some "ok".toList) 2 = some (0, [] ++ line) ∧ terminated_once line = true) :=
  have h := C14_lines_end_in_one_terminator 80 16 16 "gate".toList (fun _ => 'x') []
    (by decide) (by decide) (by decide) (by decide) (by decide)
  ⟨h.2.1 ⟨['a', CR, '@', LF, 'b'], []⟩ (by decide),
    h.2.2.2.1 ReplyCode.R250 "ok".toList 2 (by decide) (by decide) (by decide)⟩

/-- C14 as stated fails: a sender address that holds CR LF is copied as it is,
and the line written then holds the terminator twice; and a message passed
with `msg_len` 0 gives a line without terminator. -/
theorem C14_embedded_terminator_counterexample :
    smtp_send_command 80 16 16 "gate".toList (fun _ => 'x') [] Command.MAIL
        (some ⟨['a', CR, LF, 'b'], []⟩) =
      some (0, "MAIL FROM:<a".toList ++ CRLF ++ "b>".toList ++ CRLF) ∧
    countCRLF ("MAIL FROM:<a".toList ++ CRLF ++ "b>".toList ++ CRLF) = 2 ∧
    terminated_once ("MAIL FROM:<a".toList ++ CRLF ++ "b>".toList ++ CRLF) = false ∧
    smtp_send_reply 80 16 "gate".toList (fun _ => 'x') [] ReplyCode.R250 (some "ok".toList) 0 =
      some (0, "250 ".toList) ∧
    terminated_once "250 ".toList = false := by
  decide

/-! ## The claims on how a call ends -/

/-- How a call of `smtp_readline` ends and what it has taken from the buffer
and the descriptor: the line and CR LF; or `maxlen - 1` bytes, all of them in
the line; or fewer bytes up to an end of stream; or fewer bytes up to a read
error. -/
theorem readline_cases (L : Nat) (hL : 0 < L) (maxlen : Nat) (st : BufState) (src : Source) :
    ∃ c : List Char,
      (items st src = c.map Item.byte ++
          items (smtp_readline L maxlen st src).st (smtp_readline L maxlen st src).src ∧
        c = (smtp_readline L maxlen st src).line ++ CRLF ∧
        (smtp_readline L maxlen st src).ret =
          (((smtp_readline L maxlen st src).line.length + 2 : Nat) : Int) ∧
        c.length ≤ maxlen - 1) ∨
      (items st src = c.map Item.byte ++
          items (smtp_readline L maxlen st src).st (smtp_readline L maxlen st src).src ∧
        (smtp_readline L maxlen st src).line = c ∧ c.length = maxlen - 1 ∧
        (smtp_readline L maxlen st src).ret =
          (((smtp_readline L maxlen st src).line.length + 1 : Nat) : Int)) ∨
      ((items st src = c.map Item.byte ++ Item.eof ::
            items (smtp_readline L maxlen st src).st (smtp_readline L maxlen st src).src ∨
          (items st src = c.map Item.byte ∧
            items (smtp_readline L maxlen st src).st (smtp_readline L maxlen st src).src = [])) ∧
        (smtp_readline L maxlen st src).line = c ∧ c.length < maxlen - 1 ∧
        (smtp_readline L maxlen st src).ret =
          (if (smtp_readline L maxlen st src).line = [] then 0
            else (((smtp_readline L maxlen st src).line.length + 1 : Nat) : Int))) ∨
      (items st src = c.map Item.byte ++ Item.err ::
          items (smtp_readline L maxlen st src).st (smtp_readline L maxlen st src).src ∧
        (smtp_readline L maxlen st src).line = c ∧ c.length < maxlen - 1 ∧
        (smtp_readline L maxlen st src).ret = -1) := by
  have h := smtp_readline_eq_scan L hL maxlen st src
  obtain ⟨c, hc⟩ := scan_cases (maxlen - 1) 1 LineState.START [] (items st src) _ h.symm rfl
    (by intro h; cases h)
  refine ⟨c, ?_⟩
  simp only [List.nil_append] at hc
  rcases hc with ⟨h1, h2, h3, _, h5⟩ | ⟨h1, h2, h3, h4⟩ | ⟨h1, h2, h3, h4⟩ | ⟨h1, h2, h3, h4⟩
  · exact Or.inl ⟨h1, h2, h3, h5⟩
  · exact Or.inr (Or.inl ⟨h1, h2, h3, h4⟩)
  · exact Or.inr (Or.inr (Or.inl ⟨h1, h2, h3, h4⟩))
  · exact Or.inr (Or.inr (Or.inr ⟨h1, h2, h3, h4⟩))

/-- C15, as the code has it: when `smtp_readline` is called with `maxlen >= 1`
and returns a positive value, the length of the line is at most `maxlen - 1`
(`len + 1 <= maxlen`); it is `maxlen - 1` exactly when the call ends on its
bound (return value `maxlen`), and below `maxlen - 1` in every other case. -/
theorem C15_line_length_bound (LINE_MAXLEN maxlen : Nat) (st : BufState) (src : Source)
    (hL : 0 < LINE_MAXLEN) (h1 : 1 ≤ maxlen)
    (hret : 0 < (smtp_readline LINE_MAXLEN maxlen st src).ret) :
    (smtp_readline LINE_MAXLEN maxlen st src).line.length + 1 ≤ maxlen ∧
    ((smtp_readline LINE_MAXLEN maxlen st src).line.length + 1 = maxlen ↔
      (smtp_readline LINE_MAXLEN maxlen st src).ret = maxlen) := by
  obtain ⟨c, hc⟩ := readline_cases LINE_MAXLEN hL maxlen st src
  rcases hc with ⟨_, h2, h3, h4⟩ | ⟨_, h2, h3, h4⟩ | ⟨_, h2, h3, h4⟩ | ⟨_, _, _, h4⟩
  · have hlen : (smtp_readline LINE_MAXLEN maxlen st src).line.length + 2 ≤ maxlen - 1 := by
      rw [h2] at h4
      simpa [CRLF] using h4
    rw [h3]
    constructor
    · omega
    · constructor
      · intro h; omega
      · intro h
        have : (smtp_readline LINE_MAXLEN maxlen st src).line.length + 2 = maxlen := by
          exact_mod_cast h
        omega
  · rw [h4, h2, h3]
    constructor
    · omega
    · constructor
      · intro _; push_cast; omega
      · intro _; omega
  · rw [h2] at h4 ⊢
    by_cases hn : c = []
    · rw [h4, if_pos hn] at hret
      exact absurd hret (by decide)
    · rw [h4, if_neg hn]
      constructor
      · omega
      · constructor
        · intro h; omega
        · intro h
          have : c.length + 1 = maxlen := by exact_mod_cast h
          omega
  · rw [h4] at hret
    exact absurd hret (by decide)

/-- C15 at a stream of 7 bytes read with `maxlen = 5`: the line has 4 bytes. -/
theorem C15_line_length_bound_witness :
    (smtp_readline 8 5 (BufState.initial 8) (chunked ["abcdefg".toList])).line.length + 1 ≤ 5 ∧
    ((smtp_readline 8 5 (BufState.initial 8) (chunked ["abcdefg".toList])).line.length + 1 = 5 ↔
      (smtp_readline 8 5 (BufState.initial 8) (chunked ["abcdefg".toList])).ret = (5 : Nat)) :=
  C15_line_length_bound 8 5 (BufState.initial 8) (chunked ["abcdefg".toList]) (by decide)
    (by decide) (by decide)

/-- C15 as stated fails: a line cut at the bound has `maxlen - 1` bytes, not
fewer; and with `maxlen = 0` the call returns 1 with an empty line. -/
theorem C15_truncated_line_counterexample :
    (0 < (smtp_readline 8 5 (BufState.initial 8) (chunked ["abcdefg".toList])).ret ∧
      ¬ (((smtp_readline 8 5 (BufState.initial 8)
          (chunked ["abcdefg".toList])).line.length : Int) < (5 : Int) - 1)) ∧
    (0 < (smtp_readline 8 0 (BufState.initial 8) (chunked ["abcdefg".toList])).ret ∧
      ¬ (((smtp_readline 8 0 (BufState.initial 8)
          (chunked ["abcdefg".toList])).line.length : Int) ≤ (0 : Int) - 1)) := by
  decide

/-! ## The claims on the read buffer and on the detector -/

theorem items_of_buffered (st st0 : BufState) (src : Source) (hst0 : st0.read_cnt ≤ 0)
    (hp : pending st ≠ []) :
    items st src = items st0 (ReadEvent.data (pending st) :: src) := by
  rw [items_of_empty st0 _ hst0]
  simp only [items, flatten, hp, if_false]

/-- C16, as the code has it: the read buffer is made of static variables of
`buf_read` and is shared by all descriptors.  A call, and the calls after it,
deliver first the bytes that are still buffered, whatever reads they came
from, as if they were the first read of the descriptor they are given; only a
call that finds the buffer empty delivers bytes of its own descriptor alone,
as a reader that starts afresh does. -/
theorem C16_buffer_shared_between_sources (LINE_MAXLEN : Nat) (st st0 : BufState)
    (src : Source) (maxlens : List Nat) (hL : 0 < LINE_MAXLEN) (hst0 : st0.read_cnt ≤ 0) :
    (st.read_cnt ≤ 0 →
      read_lines LINE_MAXLEN maxlens st src = read_lines LINE_MAXLEN maxlens st0 src) ∧
    (pending st ≠ [] →
      read_lines LINE_MAXLEN maxlens st src =
        read_lines LINE_MAXLEN maxlens st0 (ReadEvent.data (pending st) :: src)) := by
  constructor
  · intro hst
    rw [read_lines_eq_scan_lines LINE_MAXLEN hL, read_lines_eq_scan_lines LINE_MAXLEN hL,
      items_of_empty st _ hst, items_of_empty st0 _ hst0]
  · intro hp
    rw [read_lines_eq_scan_lines LINE_MAXLEN hL, read_lines_eq_scan_lines LINE_MAXLEN hL,
      items_of_buffered st st0 src hst0 hp]

/-- C16 at the state that a call on a first descriptor leaves, with the bytes
`"cd"` buffered, and a second descriptor. -/
theorem C16_buffer_shared_between_sources_witness :
    pending (smtp_readline 8 16 (BufState.initial 8)
        (chunked ["ab".toList ++ CRLF ++ "cd".toList])).st = "cd".toList ∧
    read_lines 8 [16]
        (smtp_readline 8 16 (BufState.initial 8)
          (chunked ["ab".toList ++ CRLF ++ "cd".toList])).st
        (chunked ["XY".toList ++ CRLF]) =
      read_lines 8 [16] (BufState.initial 8)
        (ReadEvent.data (pending (smtp_readline 8 16 (BufState.initial 8)
          (chunked ["ab".toList ++ CRLF ++ "cd".toList])).st) ::
          chunked ["XY".toList ++ CRLF]) :=
  ⟨by decide,
    (C16_buffer_shared_between_sources 8
      (smtp_readline 8 16 (BufState.initial 8)
        (chunked ["ab".toList ++ CRLF ++ "cd".toList])).st
      (BufState.initial 8) (chunked ["XY".toList ++ CRLF]) [16] (by decide) (by decide)).2
      (by decide)⟩

/-- C16 as stated fails: after a call on a descriptor that delivered
`"ab" CR LF "cd"` in one read, the bytes `"cd"` stay buffered, and a call on
another descriptor, which holds `"XY" CR LF`, delivers the line `"cdXY"`. -/
theorem C16_foreign_bytes_counterexample :
    (smtp_readline 8 16 (BufState.initial 8)
      (chunked ["ab".toList ++ CRLF ++ "cd".toList])).line = "ab".toList ∧
    (smtp_readline 8 16
      (smtp_readline 8 16 (BufState.initial 8)
        (chunked ["ab".toList ++ CRLF ++ "cd".toList])).st
      (chunked ["XY".toList ++ CRLF])).line = "cdXY".toList ∧
    'c' ∉ "XY".toList ++ CRLF := by
  decide

theorem flat_singletons (s : List Char) : flat (s.map (fun b => [b])) = s := by
  induction s with
  | nil => rfl
  | cons a t ih => simp [flat, ih]

theorem chunks_nil_of_flat_nil (chunks : List (List Char)) (h : ∀ c ∈ chunks, c ≠ [])
    (hf : flat chunks = []) : chunks = [] := by
  cases chunks with
  | nil => rfl
  | cons c cs =>
    have hc := h c (List.mem_cons_self _ _)
    simp only [flat, List.append_eq_nil] at hf
    exact absurd hf.1 hc

/-- C17: two cuts of the same byte stream into non-empty reads of at most
`LINE_MAXLEN` bytes, followed by the end of the stream, give the same results
(return values and lines) for every sequence of `maxlen` arguments, and the
same as the descriptor that delivers the stream one byte for each read. -/
theorem C17_results_independent_of_fragmentation (LINE_MAXLEN : Nat)
    (chunks1 chunks2 : List (List Char)) (st : BufState) (maxlens : List Nat)
    (h1 : ∀ c ∈ chunks1, c ≠ [] ∧ c.length ≤ LINE_MAXLEN)
    (h2 : ∀ c ∈ chunks2, c ≠ [] ∧ c.length ≤ LINE_MAXLEN)
    (hsame : flat chunks1 = flat chunks2) (hst : st.read_cnt ≤ 0) :
    read_lines LINE_MAXLEN maxlens st (chunked chunks1) =
      read_lines LINE_MAXLEN maxlens st (chunked chunks2) ∧
    read_lines LINE_MAXLEN maxlens st (chunked chunks1) =
      read_lines LINE_MAXLEN maxlens st (chunked ((flat chunks1).map (fun b => [b]))) := by
  by_cases he : flat chunks1 = []
  · have e1 := chunks_nil_of_flat_nil chunks1 (fun c hc => (h1 c hc).1) he
    have e2 := chunks_nil_of_flat_nil chunks2 (fun c hc => (h2 c hc).1) (hsame ▸ he)
    subst e1 e2
    exact ⟨rfl, rfl⟩
  · have hL : 0 < LINE_MAXLEN := cap_pos_of_chunks LINE_MAXLEN chunks1 h1
      (List.length_pos.mpr he)
    have hs : ∀ c ∈ (flat chunks1).map (fun b => [b]), c ≠ [] := by
      intro c hc
      obtain ⟨b, _, rfl⟩ := List.mem_map.mp hc
      simp
    rw [read_lines_eq_scan_lines LINE_MAXLEN hL, read_lines_eq_scan_lines LINE_MAXLEN hL,
      read_lines_eq_scan_lines LINE_MAXLEN hL,
      items_chunked chunks1 st (fun c hc => (h1 c hc).1) hst,
      items_chunked chunks2 st (fun c hc => (h2 c hc).1) hst,
      items_chunked _ st hs hst, flat_singletons, hsame]
    exact ⟨rfl, rfl⟩

/-- C17 at a stream whose first terminator is cut by a read boundary and whose
second line is cut at the bound `maxlen - 1 = 3`. -/
theorem C17_results_independent_of_fragmentation_witness :
    read_lines 8 [4, 4, 4, 4] (BufState.initial 8)
        (chunked [['a', CR], [LF, 'b', 'c'], ['d', 'e', CR, LF]]) =
      read_lines 8 [4, 4, 4, 4] (BufState.initial 8)
        (chunked [['a', CR, LF, 'b', 'c', 'd', 'e', CR], [LF]]) :=
  (C17_results_independent_of_fragmentation 8 [['a', CR], [LF, 'b', 'c'], ['d', 'e', CR, LF]]
    [['a', CR, LF, 'b', 'c', 'd', 'e', CR], [LF]] (BufState.initial 8) [4, 4, 4, 4]
    (by decide) (by decide) (by decide) (by decide)).1

/-- C18, as the code has it: a byte `b` other than LF that is read in state
`CR_READ` is appended to the output and the loop goes on; the detector is then
in state `START` when `b` is not CR, and in state `CR_READ` again when `b` is
CR, so that an LF that follows ends the line. -/
theorem C18_byte_after_cr (LINE_MAXLEN k n : Nat) (out : List Char) (st : BufState)
    (src : Source) (b : Char)
    (hrc : (buf_read LINE_MAXLEN st src).rc = 1)
    (hc : (buf_read LINE_MAXLEN st src).c = some b) (hb : b ≠ LF) :
    readline_loop LINE_MAXLEN (k + 1) n LineState.CR_READ out st src =
      readline_loop LINE_MAXLEN k (n + 1)
        (if b = CR then LineState.CR_READ else LineState.START) (out ++ [b])
        (buf_read LINE_MAXLEN st src).st (buf_read LINE_MAXLEN st src).src := by
  simp [readline_loop, hrc, hc, hb]

/-- C18 at the bytes CR, LF read after `"A" CR`: the second CR leaves the
detector in state `CR_READ`. -/
theorem C18_byte_after_cr_witness :
    readline_loop 8 (2 + 1) 3 LineState.CR_READ ['A', CR] (BufState.initial 8)
        (chunked [[CR, LF]]) =
      readline_loop 8 2 (3 + 1) (if CR = CR then LineState.CR_READ else LineState.START)
        (['A', CR] ++ [CR]) (buf_read 8 (BufState.initial 8) (chunked [[CR, LF]])).st
        (buf_read 8 (BufState.initial 8) (chunked [[CR, LF]])).src :=
  C18_byte_after_cr 8 2 3 ['A', CR] (BufState.initial 8) (chunked [[CR, LF]]) CR
    (by decide) (by decide) (by decide)

/-- C18 as stated fails for the byte CR: after `"A" CR`, a second CR does not
bring the detector back to `START`; the LF that follows ends the line `"A" CR`,
whereas a loop that went on in state `START` would store the LF. -/
theorem C18_second_cr_counterexample :
    (readline_loop 8 (2 + 1) 3 LineState.CR_READ ['A', CR] (BufState.initial 8)
      (chunked [[CR, LF]])).line = ['A', CR] ∧
    (readline_loop 8 2 (3 + 1) LineState.START (['A', CR] ++ [CR])
      (buf_read 8 (BufState.initial 8) (chunked [[CR, LF]])).st
      (buf_read 8 (BufState.initial 8) (chunked [[CR, LF]])).src).line = ['A', CR, CR, LF] ∧
    (smtp_readline 8 16 (BufState.initial 8) (chunked [['A', CR, CR, LF]])).line =
      ['A', CR] := by
  decide

/-! ## The claims on the bytes taken and on the return value -/

theorem map_byte_split (c : List Char) :
    ∀ (s : List Char) (t : List Item), s.map Item.byte = c.map Item.byte ++ t →
      ∃ rest, s = c ++ rest ∧ t = rest.map Item.byte := by
  induction c with
  | nil => intro s t h; exact ⟨s, rfl, by simpa using h.symm⟩
  | cons a c ih =>
    intro s t h
    cases s with
    | nil => simp at h
    | cons b s =>
      simp only [List.map_cons, List.cons_append, List.cons.injEq, Item.byte.injEq] at h
      obtain ⟨rest, hr, ht⟩ := ih s t h.2
      exact ⟨rest, by rw [h.1, hr]; rfl, ht⟩

theorem map_byte_no_marker (c s : List Char) (x : Item) (t : List Item)
    (h : s.map Item.byte = c.map Item.byte ++ x :: t) : ∃ b, x = Item.byte b := by
  obtain ⟨rest, _, ht⟩ := map_byte_split c s (x :: t) h
  cases rest with
  | nil => simp at ht
  | cons b r =>
    simp only [List.map_cons, List.cons.injEq] at ht
    exact ⟨b, ht.1⟩

theorem read_until_zero_stop (L maxlen fuel : Nat) (st : BufState) (src : Source)
    (h : (smtp_readline L maxlen st src).ret = 0) :
    read_until_zero L maxlen (fuel + 1) st src = some [] := by
  simp [read_until_zero, h]

theorem read_until_zero_step (L maxlen fuel : Nat) (st : BufState) (src : Source)
    (h : (smtp_readline L maxlen st src).ret ≠ 0) :
    read_until_zero L maxlen (fuel + 1) st src =
      (read_until_zero L maxlen fuel (smtp_readline L maxlen st src).st
        (smtp_readline L maxlen st src).src).map
        (fun rest => ((smtp_readline L maxlen st src).ret,
          (smtp_readline L maxlen st src).line) :: rest) := by
  simp [read_until_zero, h]

/-- Calls repeated until one returns 0 give back the bytes that the buffer and
the descriptor hold, when these are bytes only, followed by the end of the
stream. -/
theorem read_until_zero_rebuilds (L maxlen : Nat) (hL : 0 < L) (h2 : 2 ≤ maxlen) (fuel : Nat) :
    ∀ (s : List Char) (st : BufState) (src : Source),
      items st src = s.map Item.byte → s.length < fuel →
      ∃ results, read_until_zero L maxlen fuel st src = some results ∧
        rebuild results = s := by
  induction fuel with
  | zero => intro s st src _ h; omega
  | succ fuel ih =>
    intro s st src hit hlen
    obtain ⟨c, hc⟩ := readline_cases L hL maxlen st src
    rw [hit] at hc
    rcases hc with ⟨h1, hcl, hret, _⟩ | ⟨h1, hcl, hk, hret⟩ | ⟨h1, hcl, _, hret⟩ |
        ⟨h1, _, _, _⟩
    · obtain ⟨rest, hs, hrest⟩ := map_byte_split c s _ h1
      have hc2 : c.length = (smtp_readline L maxlen st src).line.length + 2 := by
        rw [hcl]; simp [CRLF]
      obtain ⟨results, hres, hreb⟩ := ih rest _ _ hrest (by
        rw [hs, List.length_append] at hlen; omega)
      refine ⟨((smtp_readline L maxlen st src).ret, (smtp_readline L maxlen st src).line) ::
        results, ?_, ?_⟩
      · rw [read_until_zero_step L maxlen fuel st src (by rw [hret]; omega), hres]
        rfl
      · simp only [rebuild, hret, if_true, hreb]
        rw [hs, hcl]
    · obtain ⟨rest, hs, hrest⟩ := map_byte_split c s _ h1
      obtain ⟨results, hres, hreb⟩ := ih rest _ _ hrest (by
        rw [hs, List.length_append] at hlen; omega)
      refine ⟨((smtp_readline L maxlen st src).ret, (smtp_readline L maxlen st src).line) ::
        results, ?_, ?_⟩
      · rw [read_until_zero_step L maxlen fuel st src (by rw [hret]; omega), hres]
        rfl
      · have hne : ¬ ((((smtp_readline L maxlen st src).line.length + 1 : Nat) : Int) =
            (((smtp_readline L maxlen st src).line.length + 2 : Nat) : Int)) := by omega
        simp only [rebuild, hret, hne, if_false, hreb]
        rw [hs, hcl]
    · rcases h1 with h1 | ⟨h1, hnil⟩
      · obtain ⟨b, hb⟩ := map_byte_no_marker c s _ _ h1
        cases hb
      · have hs : s = c := by
          obtain ⟨rest, hs, hrest⟩ := map_byte_split c s [] (by simpa using h1)
          have : rest = [] := by simpa using hrest.symm
          rw [hs, this, List.append_nil]
        by_cases hn : (smtp_readline L maxlen st src).line = []
        · rw [if_pos hn] at hret
          refine ⟨[], read_until_zero_stop L maxlen fuel st src hret, ?_⟩
          rw [hs, ← hcl, hn]
          rfl
        · rw [if_neg hn] at hret
          have hpos : 0 < s.length := by
            rw [hs, ← hcl]
            exact List.length_pos.mpr hn
          obtain ⟨results, hres, hreb⟩ := ih [] _ _ (by rw [hnil]; rfl) (by
            simp only [List.length_nil]; omega)
          refine ⟨((smtp_readline L maxlen st src).ret,
            (smtp_readline L maxlen st src).line) :: results, ?_, ?_⟩
          · rw [read_until_zero_step L maxlen fuel st src (by rw [hret]; omega), hres]
            rfl
          · have hne : ¬ ((((smtp_readline L maxlen st src).line.length + 1 : Nat) : Int) =
                (((smtp_readline L maxlen st src).line.length + 2 : Nat) : Int)) := by omega
            simp only [rebuild, hret, hne, if_false, hreb, List.append_nil]
            rw [hs, hcl]
    · obtain ⟨b, hb⟩ := map_byte_no_marker c s _ _ h1
      cases hb

theorem readline_at_eof (L maxlen : Nat) (st : BufState) (tail : Source) (h2 : 2 ≤ maxlen)
    (hst : st.read_cnt ≤ 0) (heof : reportsEof tail = true) :
    (smtp_readline L maxlen st tail).ret = 0 := by
  obtain ⟨k, hk⟩ : ∃ k, maxlen - 1 = k + 1 := ⟨maxlen - 2, by omega⟩
  have hrc := buf_read_of_reportsEof L tail st hst heof
  simp [smtp_readline, hk, readline_loop, hrc]

/-- C19: for a byte stream cut into non-empty reads of at most `LINE_MAXLEN`
bytes and followed by the end of the stream, and for `maxlen >= 2`, calling
`smtp_readline` on an empty read buffer until it returns 0 (which it does
within one call more than the stream has bytes) and putting the lines one
after the other, with CR LF after each line whose return value is its length
plus 2, gives back the byte stream. -/
theorem C19_no_byte_lost_or_invented (LINE_MAXLEN maxlen fuel : Nat)
    (chunks : List (List Char)) (st : BufState)
    (h2 : 2 ≤ maxlen) (hchunks : ∀ c ∈ chunks, c ≠ [] ∧ c.length ≤ LINE_MAXLEN)
    (hst : st.read_cnt ≤ 0) (hfuel : (flat chunks).length < fuel) :
    ∃ results, read_until_zero LINE_MAXLEN maxlen fuel st (chunked chunks) = some results ∧
      rebuild results = flat chunks := by
  by_cases he : flat chunks = []
  · have e1 := chunks_nil_of_flat_nil chunks (fun c hc => (hchunks c hc).1) he
    subst e1
    obtain ⟨f, rfl⟩ : ∃ f, fuel = f + 1 := ⟨fuel - 1, by omega⟩
    exact ⟨[], read_until_zero_stop LINE_MAXLEN maxlen f st _
      (readline_at_eof LINE_MAXLEN maxlen st [] h2 hst rfl), rfl⟩
  · have hL : 0 < LINE_MAXLEN := cap_pos_of_chunks LINE_MAXLEN chunks hchunks
      (List.length_pos.mpr he)
    exact read_until_zero_rebuilds LINE_MAXLEN maxlen hL h2 fuel (flat chunks) st _
      (items_chunked chunks st (fun c hc => (hchunks c hc).1) hst) hfuel

/-- C19 at a stream with an empty line, a line cut at the bound and a last
line without terminator. -/
theorem C19_no_byte_lost_or_invented_witness :
    ∃ results, read_until_zero 8 4 12 (BufState.initial 8)
        (chunked [[CR], [LF, 'a', 'b', 'c', 'd', CR], [LF, 'e', CR, 'f']]) = some results ∧
      rebuild results = flat [[CR], [LF, 'a', 'b', 'c', 'd', CR], [LF, 'e', CR, 'f']] :=
  C19_no_byte_lost_or_invented 8 4 12 [[CR], [LF, 'a', 'b', 'c', 'd', CR], [LF, 'e', CR, 'f']]
    (BufState.initial 8) (by decide) (by decide) (by decide) (by decide)

/-- C20: for `maxlen >= 1` the value returned by `smtp_readline` is the length
of the line plus 2 when the call took the line and CR LF (an empty line
returns 2), the length plus 1 when it took `maxlen - 1` bytes without
terminator or met the end of the stream after at least one byte, 0 when it met
the end of the stream before any byte, and -1 at a read error.  It is 0 only
when the end of the stream comes first, a positive value is never the length
of the line, and the line has at most `maxlen - 1` bytes. -/
theorem C20_return_value_and_length (LINE_MAXLEN maxlen : Nat) (st : BufState) (src : Source)
    (hL : 0 < LINE_MAXLEN) (h1 : 1 ≤ maxlen) :
    ((items st src = ((smtp_readline LINE_MAXLEN maxlen st src).line ++ CRLF).map Item.byte ++
          items (smtp_readline LINE_MAXLEN maxlen st src).st
            (smtp_readline LINE_MAXLEN maxlen st src).src ∧
        (smtp_readline LINE_MAXLEN maxlen st src).ret =
          (smtp_readline LINE_MAXLEN maxlen st src).line.length + 2) ∨
      (items st src = (smtp_readline LINE_MAXLEN maxlen st src).line.map Item.byte ++
          items (smtp_readline LINE_MAXLEN maxlen st src).st
            (smtp_readline LINE_MAXLEN maxlen st src).src ∧
        (smtp_readline LINE_MAXLEN maxlen st src).line.length + 1 = maxlen ∧
        (smtp_readline LINE_MAXLEN maxlen st src).ret =
          (smtp_readline LINE_MAXLEN maxlen st src).line.length + 1) ∨
      ((items st src = (smtp_readline LINE_MAXLEN maxlen st src).line.map Item.byte ++
            Item.eof :: items (smtp_readline LINE_MAXLEN maxlen st src).st
              (smtp_readline LINE_MAXLEN maxlen st src).src ∨
          (items st src = (smtp_readline LINE_MAXLEN maxlen st src).line.map Item.byte ∧
            items (smtp_readline LINE_MAXLEN maxlen st src).st
              (smtp_readline LINE_MAXLEN maxlen st src).src = [])) ∧
        (smtp_readline LINE_MAXLEN maxlen st src).line ≠ [] ∧
        (smtp_readline LINE_MAXLEN maxlen st src).ret =
          (smtp_readline LINE_MAXLEN maxlen st src).line.length + 1) ∨
      ((items st src = [] ∨ ∃ t, items st src = Item.eof :: t) ∧
        (smtp_readline LINE_MAXLEN maxlen st src).line = [] ∧
        (smtp_readline LINE_MAXLEN maxlen st src).ret = 0) ∨
      (items st src = (smtp_readline LINE_MAXLEN maxlen st src).line.map Item.byte ++
          Item.err :: items (smtp_readline LINE_MAXLEN maxlen st src).st
            (smtp_readline LINE_MAXLEN maxlen st src).src ∧
        (smtp_readline LINE_MAXLEN maxlen st src).ret = -1)) ∧
    ((smtp_readline LINE_MAXLEN maxlen st src).ret = 0 →
      (smtp_readline LINE_MAXLEN maxlen st src).line = [] ∧
      (items st src = [] ∨ ∃ t, items st src = Item.eof :: t)) ∧
    (0 < (smtp_readline LINE_MAXLEN maxlen st src).ret →
      (smtp_readline LINE_MAXLEN maxlen st src).ret ≠
        (smtp_readline LINE_MAXLEN maxlen st src).line.length) ∧
    (smtp_readline LINE_MAXLEN maxlen st src).line.length + 1 ≤ maxlen := by
  obtain ⟨c, hc⟩ := readline_cases LINE_MAXLEN hL maxlen st src
  rcases hc with ⟨hi, hcl, hret, hk⟩ | ⟨hi, hcl, hk, hret⟩ | ⟨hi, hcl, hk, hret⟩ |
      ⟨hi, hcl, hk, hret⟩
  · have hlen : (smtp_readline LINE_MAXLEN maxlen st src).line.length + 2 ≤ maxlen - 1 := by
      rw [hcl] at hk
      simpa [CRLF] using hk
    have hret2 : (smtp_readline LINE_MAXLEN maxlen st src).ret =
        (smtp_readline LINE_MAXLEN maxlen st src).line.length + 2 := by
      rw [hret]; push_cast; rfl
    refine ⟨Or.inl ⟨by rw [← hcl]; exact hi, hret2⟩, ?_, ?_, by omega⟩
    · intro h; omega
    · intro _; omega
  · have hret2 : (smtp_readline LINE_MAXLEN maxlen st src).ret =
        (smtp_readline LINE_MAXLEN maxlen st src).line.length + 1 := by
      rw [hret]; push_cast; rfl
    refine ⟨Or.inr (Or.inl ⟨by rw [hcl]; exact hi, by rw [hcl]; omega, hret2⟩), ?_, ?_,
      by rw [hcl]; omega⟩
    · intro h; omega
    · intro _; omega
  · by_cases hn : (smtp_readline LINE_MAXLEN maxlen st src).line = []
    · rw [if_pos hn] at hret
      have hcn : c = [] := by rw [← hcl]; exact hn
      have hit : items st src = [] ∨ ∃ t, items st src = Item.eof :: t := by
        rcases hi with hi | ⟨hi, _⟩
        · right; exact ⟨_, by rw [hi, hcn]; rfl⟩
        · left; rw [hi, hcn]; rfl
      refine ⟨Or.inr (Or.inr (Or.inr (Or.inl ⟨hit, hn, hret⟩))), fun _ => ⟨hn, hit⟩, ?_,
        by rw [hn]; exact h1⟩
      intro h; rw [hret] at h; exact absurd h (by decide)
    · rw [if_neg hn] at hret
      have hret2 : (smtp_readline LINE_MAXLEN maxlen st src).ret =
          (smtp_readline LINE_MAXLEN maxlen st src).line.length + 1 := by
        rw [hret]; push_cast; rfl
      refine ⟨Or.inr (Or.inr (Or.inl ⟨by rw [hcl]; exact hi, hn, hret2⟩)), ?_, ?_,
        by rw [hcl]; omega⟩
      · intro h; omega
      · intro _; omega
  · refine ⟨Or.inr (Or.inr (Or.inr (Or.inr ⟨by rw [hcl]; exact hi, hret⟩))), ?_, ?_,
      by rw [hcl]; omega⟩
    · intro h; rw [hret] at h; exact absurd h (by decide)
    · intro h; rw [hret] at h; exact absurd h (by decide)

/-- C20 at an empty line, which returns 2, and at a line cut at the bound. -/
theorem C20_return_value_and_length_witness :
    ((smtp_readline 8 16 (BufState.initial 8) (chunked [[CR, LF]])).ret = 0 →
      (smtp_readline 8 16 (BufState.initial 8) (chunked [[CR, LF]])).line = [] ∧
      (items (BufState.initial 8) (chunked [[CR, LF]]) = [] ∨
        ∃ t, items (BufState.initial 8) (chunked [[CR, LF]]) = Item.eof :: t)) ∧
    (smtp_readline 8 16 (BufState.initial 8) (chunked [[CR, LF]])).ret = 2 ∧
    (smtp_readline 8 5 (BufState.initial 8) (chunked ["abcdefg".toList])).line.length + 1 ≤ 5 ∧
    (smtp_readline 8 5 (BufState.initial 8) (chunked ["abcdefg".toList])).ret = 5 :=
  ⟨(C20_return_value_and_length 8 16 (BufState.initial 8) (chunked [[CR, LF]]) (by decide)
      (by decide)).2.1,
    by decide,
    (C20_return_value_and_length 8 5 (BufState.initial 8) (chunked ["abcdefg".toList])
      (by decide) (by decide)).2.2.2,
    by decide⟩

end SmtpLib
